import Mathlib

/-!
Verification development for the crawl orchestration engine of the
enterprise-ai-recursive-web-scraper repository.

The definitions below are shallow embeddings of the TypeScript source:

* `ScraperProof.filterText` embeds `ContentFilter.filterText`
  (src/classes/scraper.ts), including the exact first-match-only semantics
  of JavaScript `String.replace` with a non-global regular expression and
  the `\b` word-boundary behaviour of the three `RESTRICTED_PATTERNS.CONTENT`
  regexes.
* `ScraperProof.RL` embeds the `RateLimiter` token bucket (web.ts).
* `ScraperProof.normalizeUrl`, `generateRoutePath`, `isSameOrigin`,
  `isNonTextualFile` and `validLinks` embed the URL handling of `WebScraper`.
  URL parsing models the WHATWG `new URL(...).href` normalization for URLs
  of the shape `scheme://host/path?query` (scheme and host lowercased,
  empty path rendered as `/`); fragments, userinfo and ports are not used
  by any theorem below and are outside the embedded fragment.
* `ScraperProof.Crawl` is a small-step interleaving semantics of
  `WebScraper.processSinglePage` / `processPageInternal` / `processPage` /
  `cleanup`, with one transition per run-to-completion block between the
  `await` suspension points of the source, shared state (`results` cache,
  `processedUrls`, `resultPromises`, the `async-sema` semaphore, the
  per-URL processing timers, the page pool and the output directory),
  and an event log of `page.goto` navigations.
-/

namespace ScraperProof

/-! ## Generic string helpers -/

/-- Decides whether `pat` occurs as a contiguous substring of `s`
(the JavaScript `String.prototype.includes` test used by the source for
quota detection). -/
def hasSubstrL : List Char → List Char → Bool
  | _, [] => True
  | [], _ :: _ => False
  | c :: cs, pat => (List.isPrefixOf pat (c :: cs)) || hasSubstrL cs pat

def hasSubstr (s pat : String) : Bool :=
  hasSubstrL s.toList pat.toList

/-- Lowercasing on the character list (JavaScript `toLowerCase`). -/
def lowerStr (s : String) : String :=
  String.mk (s.toList.map Char.toLower)

/-- Prefix test on the character list (JavaScript `startsWith`). -/
def strStarts (s pre : String) : Bool :=
  List.isPrefixOf pre.toList s.toList

/-- Suffix test on the character list (JavaScript `endsWith`). -/
def strEnds (s suf : String) : Bool :=
  List.isSuffixOf suf.toList s.toList

/-- Drops the first `n` characters (JavaScript `slice(n)`). -/
def strDrop (s : String) (n : Nat) : String :=
  String.mk (s.toList.drop n)

/-- Drops the last `n` characters. -/
def strDropRight (s : String) (n : Nat) : String :=
  String.mk (s.toList.take (s.toList.length - n))

/-! ## ContentFilter.filterText (src/classes/scraper.ts lines 123-129)

The source applies, in order, the three regexes of
`RESTRICTED_PATTERNS.CONTENT` with `String.replace(pattern, ' ')`.
None of the regexes carries the `g` flag, so each `replace` call
substitutes only the first (leftmost) match with a single space.  The
matchers below implement the three patterns exactly:

* pattern 1: `\b(?:p[o0]rn(?:ography)?|xxx)\b` with flag `i`
* pattern 2: `\b(?:18\+\s*(?:explicit|content|only))\b` with flag `i`
* pattern 3: `\b(?:escort\s*service|cam\s*(?:girl|model|show))\b` with flag `i`

Alternatives are tried in source order at each position, the optional
group is greedy with backtracking, and scanning is leftmost-first. -/

/-- Word characters for the regex `\b` boundary: `[A-Za-z0-9_]`. -/
def isWordChar (c : Char) : Bool :=
  c.isAlpha || c.isDigit || c = '_'

/-- Case-insensitive literal consumption: if `cs` starts with `pat`
(compared lowercased) return the rest of `cs`. -/
def eatLit : List Char → List Char → Option (List Char)
  | [], cs => some cs
  | _ :: _, [] => none
  | p :: ps, c :: cs => if c.toLower = p.toLower then eatLit ps cs else none

/-- Holds when a `\b` boundary sits just before a word character, given the
character preceding the match position (`none` at the start of the string). -/
def preOk (prev : Option Char) : Bool :=
  match prev with
  | none => True
  | some c => !isWordChar c

/-- Holds when a `\b` boundary sits just after a word character, given the
remaining characters. -/
def postOk (rest : List Char) : Bool :=
  match rest with
  | [] => True
  | c :: _ => !isWordChar c

/-- Greedy consumption of `\s*`. -/
def eatSpaces : List Char → List Char
  | [] => []
  | c :: cs => if c.isWhitespace then eatSpaces cs else c :: cs

/-- length difference of two lists, used to recover how many characters a
sub-matcher consumed. -/
def consumed (cs rest : List Char) : Nat :=
  cs.length - rest.length

/-- Matcher for pattern 1, `\b(?:p[o0]rn(?:ography)?|xxx)\b` (flag `i`),
anchored at the current position; returns the match length. -/
def matchP1 (prev : Option Char) (cs : List Char) : Option Nat :=
  if !preOk prev then none else
  match eatP0rn cs with
  | some rest =>
    -- greedy optional `(?:ography)?` with backtracking on the trailing `\b`
    (match eatLit ['o','g','r','a','p','h','y'] rest with
     | some rest2 => if postOk rest2 then some (consumed cs rest2) else
         if postOk rest then some (consumed cs rest) else none
     | none => if postOk rest then some (consumed cs rest) else none)
  | none =>
    match eatLit ['x','x','x'] cs with
    | some rest => if postOk rest then some 3 else none
    | none => none
where
  /-- consumes `p[o0]rn` case-insensitively. -/
  eatP0rn (cs : List Char) : Option (List Char) :=
    match cs with
    | p :: o :: r :: n :: rest =>
      if p.toLower = 'p' && (o.toLower = 'o' || o = '0') && r.toLower = 'r'
          && n.toLower = 'n' then some rest else none
    | _ => none

/-- Matcher for pattern 2, `\b(?:18\+\s*(?:explicit|content|only))\b`
(flag `i`). -/
def matchP2 (prev : Option Char) (cs : List Char) : Option Nat :=
  if !preOk prev then none else
  match eatLit ['1','8','+'] cs with
  | some rest =>
    let rest2 := eatSpaces rest
    (match eatLit ['e','x','p','l','i','c','i','t'] rest2 with
     | some r3 => if postOk r3 then some (consumed cs r3) else none
     | none =>
       match eatLit ['c','o','n','t','e','n','t'] rest2 with
       | some r3 => if postOk r3 then some (consumed cs r3) else none
       | none =>
         match eatLit ['o','n','l','y'] rest2 with
         | some r3 => if postOk r3 then some (consumed cs r3) else none
         | none => none)
  | none => none

/-- Matcher for pattern 3,
`\b(?:escort\s*service|cam\s*(?:girl|model|show))\b` (flag `i`). -/
def matchP3 (prev : Option Char) (cs : List Char) : Option Nat :=
  if !preOk prev then none else
  match eatLit ['e','s','c','o','r','t'] cs with
  | some rest =>
    (match eatLit ['s','e','r','v','i','c','e'] (eatSpaces rest) with
     | some r3 => if postOk r3 then some (consumed cs r3) else none
     | none => none)
  | none =>
    match eatLit ['c','a','m'] cs with
    | some rest =>
      let rest2 := eatSpaces rest
      (match eatLit ['g','i','r','l'] rest2 with
       | some r3 => if postOk r3 then some (consumed cs r3) else none
       | none =>
         match eatLit ['m','o','d','e','l'] rest2 with
         | some r3 => if postOk r3 then some (consumed cs r3) else none
         | none =>
           match eatLit ['s','h','o','w'] rest2 with
           | some r3 => if postOk r3 then some (consumed cs r3) else none
           | none => none)
    | none => none

/-- A positioned matcher, fed the previous character and the tail. -/
abbrev Matcher := Option Char → List Char → Option Nat

/-- Leftmost scan: first index (from `i`) at which `m` matches, with the
match length. -/
def findFrom (m : Matcher) (prev : Option Char) (cs : List Char) (i : Nat) :
    Option (Nat × Nat) :=
  match m prev cs with
  | some len => some (i, len)
  | none =>
    match cs with
    | [] => none
    | c :: rest => findFrom m (some c) rest (i + 1)

/-- JavaScript `String.replace` with a non-global regex: replace only the
leftmost match with a single space. -/
def replaceFirst (m : Matcher) (s : List Char) : List Char :=
  match findFrom m none s 0 with
  | some (i, len) => s.take i ++ [' '] ++ s.drop (i + len)
  | none => s

/-- Embeds `ContentFilter.filterText`: the three content patterns are
applied in order, each replacing only its first match with a space. -/
def filterText (s : String) : String :=
  String.mk (replaceFirst matchP3 (replaceFirst matchP2 (replaceFirst matchP1 s.toList)))

/-- Holds when none of the three content patterns matches anywhere in `s`. -/
def noContentMatch (s : String) : Bool :=
  (findFrom matchP1 none s.toList 0).isNone
    && (findFrom matchP2 none s.toList 0).isNone
    && (findFrom matchP3 none s.toList 0).isNone

theorem replaceFirst_of_none {m : Matcher} {s : List Char}
    (h : findFrom m none s 0 = none) : replaceFirst m s = s := by
  simp [replaceFirst, h]

theorem replaceFirst_ne_nil {m : Matcher} {s : List Char} (h : s ≠ []) :
    replaceFirst m s ≠ [] := by
  unfold replaceFirst
  cases hf : findFrom m none s 0 with
  | none => simpa using h
  | some p =>
    obtain ⟨i, len⟩ := p
    simp

theorem filterText_ne_empty {s : String} (h : s ≠ "") : filterText s ≠ "" := by
  unfold filterText
  intro hcon
  have hlist : s.toList ≠ [] := by
    intro hnil
    apply h
    cases s with
    | mk data =>
      have hd : data = [] := hnil
      subst hd
      rfl
  have h1 : replaceFirst matchP1 s.toList ≠ [] := replaceFirst_ne_nil hlist
  have h2 : replaceFirst matchP2 (replaceFirst matchP1 s.toList) ≠ [] :=
    replaceFirst_ne_nil h1
  have h3 : replaceFirst matchP3 (replaceFirst matchP2 (replaceFirst matchP1 s.toList)) ≠ [] :=
    replaceFirst_ne_nil h2
  apply h3
  have := congrArg String.toList hcon
  simpa using this

/-! ## RateLimiter (web.ts lines 74-104)

`RL` carries the four fields of the `RateLimiter` class.  `RL.refill`
embeds `refill()`: it adds `floor(elapsed_ms * refillRate / 1000)` tokens,
capped at `maxTokens`, and stamps `lastRefill`.  `RL.acquire` embeds a
single uninterrupted `acquire()` call: first refill at time `t1`; if no
token is available, sleep and refill again at time `t2`; then decrement.

`RLSys` is the interleaved version: each concurrent `acquire()` call is a
task whose atomic blocks (separated by the `await` suspension points of
the source) are `[refill]`, `[check, and decrement when positive]`,
`[wake-up refill]`, `[decrement]`.  A `sleeping` task may only wake after
`1000 / refillRate` milliseconds (rounded up to whole observable
milliseconds) have passed, matching the `setTimeout` lower bound. -/

structure RL where
  tokens : Int
  maxTokens : Int
  refillRate : Nat
  lastRefill : Nat
deriving DecidableEq, Repr

/-- Embeds `RateLimiter.refill`. -/
def RL.refill (s : RL) (now : Nat) : RL :=
  { s with
    tokens := min s.maxTokens (s.tokens + (((now - s.lastRefill) * s.refillRate / 1000 : Nat) : Int)),
    lastRefill := now }

/-- Embeds one sequential (non-overlapping) `RateLimiter.acquire` call,
refilling at `t1` and, when it has to wait, again at `t2`. -/
def RL.acquire (s : RL) (t1 t2 : Nat) : RL :=
  let s1 := s.refill t1
  if s1.tokens ≤ 0 then
    let s2 := s1.refill t2
    { s2 with tokens := s2.tokens - 1 }
  else
    { s1 with tokens := s1.tokens - 1 }

/-- Phase of one in-flight `acquire()` call, between its suspension points. -/
inductive RPhase
  | toRefill
  | toCheck
  | sleeping (since : Nat)
  | toDec
  | finished
deriving DecidableEq, Repr

/-- Interleaved rate-limiter system: the shared bucket, the phase of each
concurrent `acquire()` call, and a monotone clock. -/
structure RLSys where
  rl : RL
  rtasks : List RPhase
  clock : Nat
deriving Repr

/-- One scheduler step: task `i` runs its next atomic block at time `t`.
Returns `none` for an invalid step (unknown task, time running backwards,
waking before the `setTimeout` deadline). -/
def rlStep (sys : RLSys) (i t : Nat) : Option RLSys :=
  if t < sys.clock then none else
  match sys.rtasks.get? i with
  | none => none
  | some ph =>
    match ph with
    | .toRefill =>
      some { rl := sys.rl.refill t, rtasks := sys.rtasks.set i .toCheck, clock := t }
    | .toCheck =>
      if sys.rl.tokens ≤ 0 then
        some { sys with rtasks := sys.rtasks.set i (.sleeping t), clock := t }
      else
        some { rl := { sys.rl with tokens := sys.rl.tokens - 1 },
               rtasks := sys.rtasks.set i .finished, clock := t }
    | .sleeping since =>
      if since + (1000 + sys.rl.refillRate - 1) / sys.rl.refillRate ≤ t then
        some { rl := sys.rl.refill t, rtasks := sys.rtasks.set i .toDec, clock := t }
      else none
    | .toDec =>
      some { rl := { sys.rl with tokens := sys.rl.tokens - 1 },
             rtasks := sys.rtasks.set i .finished, clock := t }
    | .finished => none

/-- Runs a schedule; fails if any step is invalid. -/
def rlRun (sys : RLSys) : List (Nat × Nat) → Option RLSys
  | [] => some sys
  | (i, t) :: rest =>
    match rlStep sys i t with
    | some s2 => rlRun s2 rest
    | none => none

/-- The `RateLimiter(5, 1)` constructed by `WebScraper`, with seven
concurrent `acquire()` callers. -/
def rlInit : RLSys :=
  { rl := { tokens := 5, maxTokens := 5, refillRate := 1, lastRefill := 0 },
    rtasks := List.replicate 7 .toRefill,
    clock := 0 }

/-- Schedule: tasks 0-4 acquire immediately at time 0 and drain the bucket;
tasks 5 and 6 both observe an empty bucket and sleep; both wake at time
1000, where task 5 refills (one new token) and decrements, and task 6
refills again in the same millisecond (zero new tokens) and still
decrements. -/
def rlTrace : List (Nat × Nat) :=
  [(0, 0), (0, 0), (1, 0), (1, 0), (2, 0), (2, 0), (3, 0), (3, 0), (4, 0), (4, 0),
   (5, 0), (5, 0), (6, 0), (6, 0),
   (5, 1000), (5, 1000), (6, 1000), (6, 1000)]

/-- Claim C6, counterexample part: with the `RateLimiter(5, 1)` used by the
scraper, seven overlapping `acquire()` calls can drive the token balance to
`-1`.  The schedule `rlTrace` is a valid interleaving of the atomic blocks
of `acquire()` (five immediate grants drain the bucket; two callers then
sleep together, wake in the same millisecond, and each decrements although
the shared refill produced only one token). -/
theorem rateLimiter_concurrent_negative :
    (rlRun rlInit rlTrace).map (fun s => s.rl.tokens) = some (-1) := by rfl

/-- Claim C6, amended: for a sequential (non-overlapping) `acquire()` call
from any reachable bucket state (`0 ≤ tokens ≤ maxTokens`, positive
capacity, monotone clock, and a wake-up delay honouring the
`1000 / refillRate` sleep), the balance stays within `[0, maxTokens]`;
in particular it never becomes negative. -/
theorem rateLimiter_sequential_nonneg (s : RL) (t1 t2 : Nat)
    (htok0 : 0 ≤ s.tokens) (htokmax : s.tokens ≤ s.maxTokens)
    (hmax : 1 ≤ s.maxTokens) (ht1 : s.lastRefill ≤ t1) (ht12 : t1 ≤ t2)
    (hsleep : 1000 ≤ (t2 - t1) * s.refillRate) :
    0 ≤ (s.acquire t1 t2).tokens ∧ (s.acquire t1 t2).tokens ≤ s.maxTokens := by
  have hr2 : 1 ≤ (t2 - t1) * s.refillRate / 1000 :=
    (Nat.one_le_div_iff (by norm_num)).2 hsleep
  simp only [RL.acquire, RL.refill]
  split_ifs with h <;> dsimp only <;> constructor <;> omega

/-- Witness for `rateLimiter_sequential_nonneg` at a concrete bucket. -/
theorem rateLimiter_sequential_nonneg_witness :
    0 ≤ (RL.acquire ⟨0, 5, 1, 0⟩ 0 1000).tokens ∧
      (RL.acquire ⟨0, 5, 1, 0⟩ 0 1000).tokens ≤ (5 : Int) :=
  rateLimiter_sequential_nonneg ⟨0, 5, 1, 0⟩ 0 1000 (by decide) (by decide)
    (by decide) (by decide) (by decide) (by decide)

/-! ## URL handling of WebScraper (web.ts)

`parseUrl` models the WHATWG `URL` constructor for URLs of the shape
`scheme://host/path?query` (optionally with a fragment, which is
discarded): parsing fails (`none`, the embedded `catch`) when the scheme
or host is missing.  `hrefOf` renders the parsed URL the way `.href`
does for this shape: scheme and host lowercased, an empty path rendered
as `/`, the query preserved. -/

structure ParsedUrl where
  scheme : String
  host : String
  path : String
  query : String
deriving DecidableEq, Repr

/-- Splits a character list at the first occurrence of `pat`, returning
the parts before and after it. -/
def breakSub (pat : List Char) : List Char → Option (List Char × List Char)
  | [] => if pat.isEmpty then some ([], []) else none
  | c :: cs =>
    if List.isPrefixOf pat (c :: cs) then some ([], (c :: cs).drop pat.length)
    else
      match breakSub pat cs with
      | some (pre, post) => some (c :: pre, post)
      | none => none

/-- Takes characters until one of `stop` is reached; returns the taken
part and the rest (including the stop character). -/
def takeUntil (stop : List Char) : List Char → List Char × List Char
  | [] => ([], [])
  | c :: rest =>
    if stop.contains c then ([], c :: rest)
    else
      let (a, b) := takeUntil stop rest
      (c :: a, b)

/-- Parses `scheme://host[/path][?query][#fragment]`. -/
def parseUrl (s : String) : Option ParsedUrl :=
  match breakSub [':', '/', '/'] s.toList with
  | none => none
  | some (schemeCs, rest) =>
    if schemeCs.isEmpty then none else
    let (hostCs, rest2) := takeUntil ['/', '?', '#'] rest
    if hostCs.isEmpty then none else
    match rest2 with
    | [] => some ⟨String.mk schemeCs, String.mk hostCs, "", ""⟩
    | '?' :: q => some ⟨String.mk schemeCs, String.mk hostCs, "", String.mk (takeUntil ['#'] q).1⟩
    | '#' :: _ => some ⟨String.mk schemeCs, String.mk hostCs, "", ""⟩
    | rest2 =>
      let (pathCs, rest3) := takeUntil ['?', '#'] rest2
      let queryCs :=
        match rest3 with
        | '?' :: q => (takeUntil ['#'] q).1
        | _ => []
      some ⟨String.mk schemeCs, String.mk hostCs, String.mk pathCs, String.mk queryCs⟩

/-- The `.href` rendering of a parsed URL. -/
def hrefOf (u : ParsedUrl) : String :=
  lowerStr u.scheme ++ "://" ++ lowerStr u.host ++ (if u.path = "" then "/" else u.path)
    ++ (if u.query = "" then "" else "?" ++ u.query)

/-- The `.pathname` of a parsed URL (the empty path reads as `/`). -/
def pathnameOf (u : ParsedUrl) : String :=
  if u.path = "" then "/" else u.path

/-- Case-insensitive prefix test, for the `/^(mailto|tel|javascript):/i`
guard of `normalizeUrl`. -/
def startsWithCI (s pre : String) : Bool :=
  List.isPrefixOf (pre.toList.map Char.toLower) (s.toList.map Char.toLower)

/-- Models `new URL(rel, base)` for the root-relative references used in
this development: the reference is resolved against the origin of `base`.
(Full RFC 3986 merging of dotted relative paths is outside the embedded
fragment; no theorem below depends on it.) -/
def resolveAgainst (base rel : String) : Option String :=
  match parseUrl base with
  | none => none
  | some b =>
    let origin := lowerStr b.scheme ++ "://" ++ lowerStr b.host
    if strStarts rel "/" then some (origin ++ rel) else some (origin ++ "/" ++ rel)

/-- JavaScript `.replace(/\/$/, "")`: drops one trailing slash. -/
def stripTrailingSlash (s : String) : String :=
  if strEnds s "/" then strDropRight s 1 else s

/-- JavaScript `.replace(/^http:/, "https:")`. -/
def replaceHttp (s : String) : String :=
  if strStarts s "http:" then "https:" ++ strDrop s 5 else s

/-- JavaScript `.replace(/^https:\/\/(?!www\.)/, "https://www.")`. -/
def addWww (s : String) : String :=
  if strStarts s "https://" && !strStarts (strDrop s 8) "www." then
    "https://www." ++ strDrop s 8
  else s

/-- Embeds `WebScraper.normalizeUrl(url, baseUrl)` (web.ts lines 546-565):
rejects fragments and `mailto:`/`tel:`/`javascript:` references, builds
the absolute URL (protocol-relative, already absolute, or resolved
against the base), takes its `.href`, then drops one trailing slash,
rewrites a leading `http:` to `https:` and inserts `www.` after
`https://` when missing. -/
def normalizeUrl (url base : String) : Option String :=
  if strStarts url "#" || startsWithCI url "mailto:" || startsWithCI url "tel:"
      || startsWithCI url "javascript:" then none
  else
    let fullUrl :=
      if strStarts url "//" then some ("https:" ++ url)
      else if hasSubstr url "://" then some url
      else resolveAgainst base url
    match fullUrl with
    | none => none
    | some f =>
      match parseUrl f with
      | none => none
      | some p => some (addWww (replaceHttp (stripTrailingSlash (hrefOf p))))

/-! ## WebScraper.generateRoutePath (web.ts lines 743-751) -/

/-- The file extensions stripped by `\.(html?|php|aspx?|jsp)$` with the
greedy-alternation preference of the regex. -/
def routeExts : List (List Char) :=
  [".html".toList, ".htm".toList, ".php".toList, ".aspx".toList, ".asp".toList, ".jsp".toList]

/-- Drops a trailing `.html`/`.htm`/`.php`/`.aspx`/`.asp`/`.jsp`
(case-insensitive). -/
def stripExt (cs : List Char) : List Char :=
  match routeExts.find? (fun e => List.isSuffixOf e (cs.map Char.toLower)) with
  | some e => cs.take (cs.length - e.length)
  | none => cs

/-- JavaScript `.replace(/^\/|\/$/g, "")`: removes one leading and one
trailing slash. -/
def stripSlashEnds (cs : List Char) : List Char :=
  let cs1 := match cs with | '/' :: rest => rest | other => other
  match cs1.reverse with
  | '/' :: rest => rest.reverse
  | _ => cs1

/-- JavaScript `.replace(/[^a-z0-9]/gi, "-")`. -/
def dashify (cs : List Char) : List Char :=
  cs.map (fun c => if c.isAlpha || c.isDigit then c else '-')

/-- Collapses every run of dashes to a single dash (the dash-run
replacement with flag g). -/
def collapseDashes : List Char → List Char
  | [] => []
  | c :: rest =>
    if c = '-' then
      match collapseDashes rest with
      | '-' :: r2 => '-' :: r2
      | r2 => '-' :: r2
    else c :: collapseDashes rest

/-- Removes one trailing dash (the trailing-dash replacement). -/
def dropTrailingDash (cs : List Char) : List Char :=
  match cs.reverse with
  | '-' :: rest => rest.reverse
  | _ => cs

/-- Embeds `WebScraper.generateRoutePath(urlObj)` applied to
`urlObj.pathname`. -/
def generateRoutePath (pathname : String) : String :=
  let r := (dropTrailingDash (collapseDashes (dashify (stripSlashEnds
    (stripExt pathname.toList))))).map Char.toLower
  if r.isEmpty then "root" else String.mk r

/-- Route path of a raw URL string (the source calls
`generateRoutePath(new URL(url))`, which reads `.pathname`); invalid
URLs fall back to the root route (no theorem exercises this fallback). -/
def routeOf (url : String) : String :=
  match parseUrl url with
  | some p => generateRoutePath (pathnameOf p)
  | none => "root"

/-! ## Link filtering of WebScraper.extractValidLinks (web.ts 455-489) -/

/-- Embeds `isSameOrigin`: compares lowercased hostnames with a leading
`www.` stripped; URL parse failures make the comparison false (the
`catch` branch). -/
def isSameOrigin (u1 u2 : String) : Bool :=
  match parseUrl u1, parseUrl u2 with
  | some p1, some p2 =>
    (let h1 := lowerStr p1.host
     let h2 := lowerStr p2.host
     (if strStarts h1 "www." then strDrop h1 4 else h1)
       = (if strStarts h2 "www." then strDrop h2 4 else h2))
  | _, _ => False

/-- Extensions of `isNonTextualFile` (web.ts lines 753-755). -/
def nonTextualExts : List String :=
  [".jpg", ".jpeg", ".png", ".gif", ".svg", ".pdf", ".doc", ".docx",
   ".xls", ".xlsx", ".zip", ".rar"]

/-- Embeds `isNonTextualFile(pathname)`. -/
def isNonTextualFile (pathname : String) : Bool :=
  nonTextualExts.any (fun e => strEnds (lowerStr pathname) e)

/-- The per-link filter of `extractValidLinks`: same origin as the
scraper base, not already processed, not a non-textual file; a URL parse
error keeps the link out (the `catch` branch). -/
def linkKeep (processed : List String) (scraperBase : String) (l : String) : Bool :=
  match parseUrl l with
  | none => False
  | some p =>
    isSameOrigin l scraperBase && !(processed.contains l)
      && !isNonTextualFile (pathnameOf p)

/-- JavaScript `[...new Set(list)]`: removes duplicates keeping the first
occurrence. -/
def dedupFirstAux : List String → List String → List String
  | [], _ => []
  | c :: rest, seen =>
    if seen.contains c then dedupFirstAux rest seen
    else c :: dedupFirstAux rest (c :: seen)

def dedupFirst (l : List String) : List String :=
  dedupFirstAux l []

theorem dedupFirstAux_props (l : List String) : ∀ seen,
    (dedupFirstAux l seen).Nodup ∧ ∀ x ∈ dedupFirstAux l seen, x ∈ l ∧ x ∉ seen := by
  induction l with
  | nil =>
    intro seen
    exact ⟨List.nodup_nil, by simp [dedupFirstAux]⟩
  | cons c rest ih =>
    intro seen
    by_cases hc : c ∈ seen
    · have h := ih seen
      have hgoal : dedupFirstAux (c :: rest) seen = dedupFirstAux rest seen := by
        simp [dedupFirstAux, hc]
      refine ⟨by rw [hgoal]; exact h.1, ?_⟩
      intro x hx
      rw [hgoal] at hx
      exact ⟨List.mem_cons_of_mem c (h.2 x hx).1, (h.2 x hx).2⟩
    · have h := ih (c :: seen)
      have hgoal : dedupFirstAux (c :: rest) seen = c :: dedupFirstAux rest (c :: seen) := by
        simp [dedupFirstAux, hc]
      refine ⟨?_, ?_⟩
      · rw [hgoal]
        refine List.nodup_cons.mpr ⟨?_, h.1⟩
        intro hmem
        exact (h.2 c hmem).2 (List.mem_cons_self c seen)
      · intro x hx
        rw [hgoal] at hx
        rcases List.mem_cons.mp hx with hxc | hxr
        · subst hxc
          exact ⟨List.mem_cons_self x rest, hc⟩
        · have h2 := h.2 x hxr
          refine ⟨List.mem_cons_of_mem c h2.1, ?_⟩
          intro hxs
          exact h2.2 (List.mem_cons_of_mem c hxs)

theorem dedupFirst_nodup (l : List String) : (dedupFirst l).Nodup :=
  (dedupFirstAux_props l []).1

theorem dedupFirst_subset (l : List String) : ∀ x ∈ dedupFirst l, x ∈ l :=
  fun x hx => ((dedupFirstAux_props l []).2 x hx).1

/-- Embeds the pure tail of `extractValidLinks`: filter the raw hrefs,
normalize each against the page origin, drop failures, deduplicate. -/
def validLinks (links processed : List String) (scraperBase pageBase : String) : List String :=
  dedupFirst ((links.filter (linkKeep processed scraperBase)).filterMap
    (fun l => normalizeUrl l pageBase))

/-! ## PageResult and the LLM processing pipeline (web.ts) -/

/-- The outcome record of processing one URL (the `PageResult` interface;
the optional risk fields are never written by the embedded code paths and
are omitted). -/
structure PageResult where
  url : String
  contentPath : String
  processedContentPath : String
  screenshot : String
  error : Option String := none
  timestamp : Nat := 0
deriving DecidableEq, Repr

/-- Embeds `createErrorResult` (web.ts lines 688-703). -/
def createErrorResult (url msg : String) (now : Nat) : PageResult :=
  { url := url, contentPath := "", processedContentPath := "", screenshot := "",
    error := some msg, timestamp := now }

/-- Outcome of one invocation of the summarizer (the Gemini
`generateContent` call wrapped by `withRetry`). -/
inductive LLMRes
  | ok (text : String)
  | err (msg : String)
deriving DecidableEq, Repr

/-- Embeds `withRetry` (web.ts lines 61-72): an error whose message
includes `429` is retried up to `retries` more times; other errors (and
exhaustion) propagate.  `attempt k` is the outcome of the k-th
invocation of the wrapped function. -/
def withRetry (attempt : Nat → LLMRes) (k retries : Nat) : LLMRes :=
  match attempt k, retries with
  | .ok t, _ => .ok t
  | .err m, 0 => .err m
  | .err m, r + 1 => if hasSubstr m "429" then withRetry attempt (k + 1) r else .err m

/-- Validator verdict of `ContentValidator.validateAIResponse`. -/
structure ValidationRes where
  isValid : Bool
  reason : Option String
deriving DecidableEq, Repr

/-- JavaScript `String.prototype.trim`: strips whitespace from both ends. -/
def jsTrim (s : String) : String :=
  String.mk (((s.toList.dropWhile Char.isWhitespace).reverse.dropWhile Char.isWhitespace).reverse)

/-- Embeds `processWithLLM` (web.ts lines 582-633), parameterized by the
attempt-indexed summarizer outcomes and the response validator: empty or
whitespace-only content short-circuits to the empty string; otherwise the
content is filtered, the summarizer is called through `withRetry`
(3 retries), a valid response is returned (falling back to the filtered
content), and a quota or 429 failure falls back to the filtered content,
while any other failure reaches the outer catch and yields the empty
string. -/
def processWithLLM (attempt : Nat → LLMRes) (validate : String → ValidationRes)
    (content : String) : String :=
  if jsTrim content = "" then ""
  else
    let filteredContent := filterText content
    match withRetry attempt 0 3 with
    | .ok text =>
      let v := validate text
      if v.isValid then v.reason.getD filteredContent else filteredContent
    | .err m =>
      if hasSubstr m "429" || hasSubstr m "quota" then filteredContent
      else ""

/-- One route directory of artifacts on disk: at most one `content_*`,
one `processed_*` file (name and stored text) and one `screenshot_*`
file. -/
structure Dir where
  contentF : Option (String × String) := none
  processedF : Option (String × String) := none
  screenshotF : Option String := none
deriving DecidableEq, Repr

inductive FType
  | content
  | processed
deriving DecidableEq, Repr

/-- Embeds `saveToFile` (web.ts lines 705-741) against one route
directory: falsy content saves nothing and returns the empty path; an
existing file of the requested type is reused (path returned, directory
unchanged); otherwise `type_stamp.txt` is written with the content. -/
def saveToFile (d : Dir) (dirPath stamp : String) (ty : FType) (content : String) :
    Dir × String :=
  if content = "" then (d, "")
  else
    match ty with
    | .content =>
      match d.contentF with
      | some (f, _) => (d, dirPath ++ "/" ++ f)
      | none =>
        let f := "content_" ++ stamp ++ ".txt"
        ({ d with contentF := some (f, content) }, dirPath ++ "/" ++ f)
    | .processed =>
      match d.processedF with
      | some (f, _) => (d, dirPath ++ "/" ++ f)
      | none =>
        let f := "processed_" ++ stamp ++ ".txt"
        ({ d with processedF := some (f, content) }, dirPath ++ "/" ++ f)

/-- Embeds the artifact-producing tail of `processPageContent`
(web.ts lines 383-433) once the screenshot and the scraped content are
in hand: missing or empty content fails the page with an error result;
otherwise the raw content is saved, the LLM output is computed and
saved, and a `PageResult` without error is returned. -/
def processPageContentCore (attempt : Nat → LLMRes) (validate : String → ValidationRes)
    (d : Dir) (dirPath stamp url shot : String) (content : Option String) (now : Nat) :
    Dir × PageResult :=
  match content with
  | none => (d, createErrorResult url ("Failed to scrape content for " ++ url) now)
  | some c =>
    if c = "" then (d, createErrorResult url ("Failed to scrape content for " ++ url) now)
    else
      let p1 := saveToFile d dirPath stamp .content c
      let processedContent := processWithLLM attempt validate c
      let p2 := saveToFile p1.1 dirPath stamp .processed processedContent
      (p2.1, { url := url, contentPath := p1.2, processedContentPath := p2.2,
               screenshot := shot, error := none, timestamp := now })

/-- Summarizer outcomes in which every invocation fails with a quota or
rate-limit error. -/
def AlwaysQuota (attempt : Nat → LLMRes) : Prop :=
  ∀ k, ∃ m, attempt k = .err m ∧ (hasSubstr m "429" || hasSubstr m "quota") = true

theorem withRetry_of_alwaysQuota {attempt : Nat → LLMRes} (hq : AlwaysQuota attempt) :
    ∀ r k, ∃ m, withRetry attempt k r = .err m
      ∧ (hasSubstr m "429" || hasSubstr m "quota") = true := by
  intro r
  induction r with
  | zero =>
    intro k
    obtain ⟨m, hm, hsub⟩ := hq k
    exact ⟨m, by simp [withRetry, hm], hsub⟩
  | succ n ih =>
    intro k
    obtain ⟨m, hm, hsub⟩ := hq k
    by_cases h429 : hasSubstr m "429" = true
    · obtain ⟨m2, hm2, hsub2⟩ := ih (k + 1)
      exact ⟨m2, by simp [withRetry, hm, h429, hm2], hsub2⟩
    · refine ⟨m, ?_, hsub⟩
      simp [withRetry, hm, h429]

theorem processWithLLM_of_alwaysQuota {attempt : Nat → LLMRes}
    (validate : String → ValidationRes) {content : String}
    (hq : AlwaysQuota attempt) (hc : jsTrim content ≠ "") :
    processWithLLM attempt validate content = filterText content := by
  obtain ⟨m, hm, hsub⟩ := withRetry_of_alwaysQuota hq 3 0
  simp [processWithLLM, hc, hm, hsub]

theorem mk_toList (s : String) : String.mk s.toList = s := by
  cases s with
  | mk d => rfl

/-- Claim C9, counterexample: `filterText` is not idempotent and does not
replace every disallowed span.  On `"porn porn"` only the first
occurrence is replaced (the regexes carry no `g` flag), so the filtered
text still contains the span `porn`, and filtering again changes the
result. -/
theorem filterText_first_match_only :
    filterText (filterText "porn porn") ≠ filterText "porn porn"
      ∧ hasSubstr (filterText "porn porn") "porn" = true := by
  constructor
  · decide
  · decide

/-- Claim C9, amended: `filterText` is a total function (never throws)
that replaces only the first occurrence of each of the three disallowed
patterns with a space; in particular any text containing no disallowed
span is returned unchanged. -/
theorem filterText_clean_fixed (s : String) (h : noContentMatch s = true) :
    filterText s = s := by
  unfold noContentMatch at h
  simp only [Bool.and_eq_true, Option.isNone_iff_eq_none] at h
  obtain ⟨⟨h1, h2⟩, h3⟩ := h
  unfold filterText
  rw [replaceFirst_of_none h1, replaceFirst_of_none h2, replaceFirst_of_none h3, mk_toList]

/-- Witness for `filterText_clean_fixed` at a concrete clean string. -/
theorem filterText_clean_fixed_witness :
    noContentMatch "hello world" = true ∧ filterText "hello world" = "hello world" :=
  ⟨by decide, filterText_clean_fixed "hello world" (by decide)⟩

/-- Summarizer that fails every invocation with a quota error. -/
def quotaAttempts : Nat → LLMRes := fun _ => .err "429 quota exceeded"

/-- Validator that rejects every response. -/
def rejectValidator : String → ValidationRes := fun _ => ⟨false, none⟩

/-- An empty artifact directory. -/
def dir0 : Dir := ⟨none, none, none⟩

/-- Claim C7, counterexample: a page whose scraped content is the single
space `" "` is processed successfully (no `error`, non-empty
`contentPath`), yet its `processedContentPath` is empty even under an
always-quota summarizer, because `processWithLLM` short-circuits on
whitespace-only content and `saveToFile` refuses the empty string. -/
theorem whitespace_page_empty_processed_path :
    ((processPageContentCore quotaAttempts rejectValidator dir0 "out/root" "T"
        "https://www.example.com" "" (some " ") 0).2.error = none)
    ∧ ((processPageContentCore quotaAttempts rejectValidator dir0 "out/root" "T"
        "https://www.example.com" "" (some " ") 0).2.processedContentPath = "")
    ∧ ((processPageContentCore quotaAttempts rejectValidator dir0 "out/root" "T"
        "https://www.example.com" "" (some " ") 0).2.contentPath = "out/root/content_T.txt") :=
  ⟨rfl, rfl, rfl⟩

/-- Claim C7, amended: if the summarizer fails with a quota or rate-limit
error on every invocation, every successfully processed page whose raw
content is not whitespace-only (and whose artifact directory is fresh)
gets a non-empty `processedContentPath`, and the content stored at that
path is exactly the filtered raw content. -/
theorem quota_fallback_processed_content (attempt : Nat → LLMRes)
    (validate : String → ValidationRes) (d : Dir) (dirPath stamp url shot c : String)
    (now : Nat) (hq : AlwaysQuota attempt) (hc : jsTrim c ≠ "")
    (hf1 : d.contentF = none) (hf2 : d.processedF = none) :
    ((processPageContentCore attempt validate d dirPath stamp url shot (some c) now).2.error = none)
    ∧ ((processPageContentCore attempt validate d dirPath stamp url shot (some c) now).2.processedContentPath
        = dirPath ++ "/" ++ ("processed_" ++ stamp ++ ".txt"))
    ∧ ((processPageContentCore attempt validate d dirPath stamp url shot (some c) now).1.processedF
        = some ("processed_" ++ stamp ++ ".txt", filterText c)) := by
  have hcne : c ≠ "" := by
    intro h
    subst h
    exact hc rfl
  have hfil : filterText c ≠ "" := filterText_ne_empty hcne
  have hllm := processWithLLM_of_alwaysQuota validate hq hc
  simp [processPageContentCore, hcne, saveToFile, hf1, hf2, hllm, hfil]

/-- Witness for `quota_fallback_processed_content` at concrete inputs. -/
theorem quota_fallback_processed_content_witness :
    AlwaysQuota quotaAttempts ∧
    ((processPageContentCore quotaAttempts rejectValidator dir0 "out/root" "T"
        "https://www.example.com" "" (some "hello") 0).2.error = none)
    ∧ ((processPageContentCore quotaAttempts rejectValidator dir0 "out/root" "T"
        "https://www.example.com" "" (some "hello") 0).2.processedContentPath
        = "out/root" ++ "/" ++ ("processed_" ++ "T" ++ ".txt"))
    ∧ ((processPageContentCore quotaAttempts rejectValidator dir0 "out/root" "T"
        "https://www.example.com" "" (some "hello") 0).1.processedF
        = some ("processed_" ++ "T" ++ ".txt", filterText "hello")) := by
  have hq : AlwaysQuota quotaAttempts := by
    intro k
    exact ⟨"429 quota exceeded", rfl, by decide⟩
  have h := quota_fallback_processed_content quotaAttempts rejectValidator dir0
    "out/root" "T" "https://www.example.com" "" "hello" 0 hq (by decide) rfl rfl
  exact ⟨hq, h.1, h.2.1, h.2.2⟩

/-! ## Association-list helpers over string keys -/

def alookup {α : Type} : List (String × α) → String → Option α
  | [], _ => none
  | (k, v) :: rest, u => if k = u then some v else alookup rest u

def aset {α : Type} : List (String × α) → String → α → List (String × α)
  | [], u, v => [(u, v)]
  | (k, w) :: rest, u, v => if k = u then (u, v) :: rest else (k, w) :: aset rest u v

def aerase {α : Type} : List (String × α) → String → List (String × α)
  | [], _ => []
  | (k, w) :: rest, u => if k = u then rest else (k, w) :: aerase rest u

def akeys {α : Type} (l : List (String × α)) : List String :=
  l.map Prod.fst

/-- JavaScript `Set.prototype.add`. -/
def sinsert (l : List String) (u : String) : List String :=
  if l.contains u then l else u :: l

/-- JavaScript `Set.prototype.delete` and `Map.prototype.delete` on the
key list. -/
def serase (l : List String) (u : String) : List String :=
  l.filter (fun x => !(x = u : Bool))

/-! ## The crawl interleaving machine

One `Task` is either a `processSinglePage` call (a visit) or the internal
`processPageInternal` computation it registered (an owner).  Program
counters name the run-to-completion blocks between the `await`
suspension points of web.ts:

* `psStart`: `processSinglePage` up to its first `await` — the shutdown
  and depth guards (lines 211-219).
* `psDisk`: the resumption after `fs.access`/`fs.readdir` — the on-disk
  `content_*` short-circuit, the `results` cache lookup, the
  `resultPromises` lookup, and otherwise the synchronous prologue of
  `processPageInternal` (its shutdown guard) together with
  `resultPromises.set` (lines 221-251).
* `awaitOwn oid` / `awaitAttach oid`: the caller suspended on the
  promise of owner task `oid` — the creator runs the
  `try/catch/finally` of lines 253-264 at settlement, an attacher
  (line 246-248) just receives the settlement.
* `piRate`: the owner after `rateLimiter.acquire()` — the first
  `processedUrls` check and `timeouts.set` (lines 272-284).
* `piSemWait`: the owner suspended on `semaphore.acquire()`; the
  acquisition block re-checks `processedUrls` (returning WITHOUT
  releasing the semaphore or clearing the timer, as the source does) or
  claims the URL (lines 286-295).
* `piGetPage`: the owner about to take a page from the pool (or open a
  new one) and call `page.goto` — the navigation event (lines 297-301).
* `piNavPending`: navigation in flight; it either fails (`navFail`:
  inner `finally` releases the page and runs `cleanup(url)`, then the
  outer `catch` unclaims the URL and runs `cleanup(url)` AGAIN —
  releasing the semaphore twice — lines 304-312 and 315-324), succeeds
  (`finishOk`: artifacts written via `saveToFile`, result stored, page
  released, single `cleanup(url)`), or completes with a content error
  (`finishContentErr`: `processPageContent` catches internally and
  returns an error result, which is stored like a success and keeps the
  claim).
* `ownerDone o`: the internal promise settled with outcome `o`.
* `visitDone ret`: the `processSinglePage` call returned `ret`.

The rate limiter inside the machine is a pure suspension point (its
token arithmetic is modelled separately by `RL`); page text is
abstracted to a function of the URL, since no machine-level claim
depends on the text; `fireTimeout u` models the 60-second processing
timer of lines 279-284, whose callback runs `cleanup(url)`; `shutdown`
models the SIGINT flag; `evict u` models an LRU or TTL eviction from the
`results` cache (`lru-cache` with `max` 1000, `ttl` 1 hour). -/

inductive Outcome
  | resolvedSome (r : PageResult)
  | resolvedNone
  | rejected (msg : String)
deriving DecidableEq, Repr

inductive VisitRet
  | val (r : PageResult)
  | valNone
  | exn (msg : String)
deriving DecidableEq, Repr

inductive PC
  | psStart
  | psDisk
  | awaitOwn (oid : Nat)
  | awaitAttach (oid : Nat)
  | piRate
  | piSemWait
  | piGetPage
  | piNavPending
  | ownerDone (o : Outcome)
  | visitDone (ret : VisitRet)
deriving DecidableEq, Repr

structure Task where
  url : String
  depth : Nat
  pc : PC
  navigated : Bool := false
  hasClaimed : Bool := false
  earlyExit : Bool := false
deriving DecidableEq, Repr

structure St where
  tasks : List Task
  pending : List (String × Nat)
  processedUrls : List String
  results : List (String × PageResult)
  everClaimed : List String
  permits : Nat
  pool : Nat
  openPages : Nat
  timeouts : List String
  disk : List (String × Dir)
  shuttingDown : Bool
  navLog : List String
  time : Nat
deriving DecidableEq, Repr

structure Cfg where
  maxPages : Nat
  maxDepth : Nat
  outputDir : String
deriving DecidableEq, Repr

/-- Scheduler actions: which task runs its next block, plus the
environment events (timer firing, SIGINT, cache eviction) and the
nondeterministic outcome of a navigation. -/
inductive Act
  | spawn (u : String) (d : Nat)
  | entry (i : Nat)
  | diskStep (i : Nat)
  | rate (i : Nat)
  | acq (i : Nat)
  | navigate (i : Nat)
  | navFail (i : Nat) (msg : String)
  | finishOk (i : Nat)
  | finishContentErr (i : Nat) (msg : String)
  | settleC (i : Nat)
  | settleA (i : Nat)
  | fireTimeout (u : String)
  | shutdown
  | evict (u : String)
deriving DecidableEq, Repr

/-- Numeric value of a digit string (the `Number(...)` applied to the
timestamp part of an artifact filename; non-numeric input is outside the
embedded fragment since machine filenames are always numeric). -/
def digitsVal (cs : List Char) : Nat :=
  cs.foldl (fun a c => a * 10 + (c.toNat - '0'.toNat)) 0

/-- Timestamp recovered from `content_T.txt` by
`split('_')[1].split('.')[0]`. -/
def stampOf (f : String) : Nat :=
  digitsVal (takeUntil ['.'] ((f.toList.dropWhile (fun c => !(c = '_' : Bool))).drop 1)).1

/-- The `existingResult` synthesized by the on-disk short-circuit of
`processSinglePage` (web.ts lines 229-240): missing `processed_*` or
`screenshot_*` files degrade to the directory path itself, as
`path.join(dirPath, "")` does. -/
def existingResultOf (dirPath : String) (dd : Dir) (u : String) (cf : String) : PageResult :=
  { url := u,
    contentPath := dirPath ++ "/" ++ cf,
    processedContentPath :=
      (match dd.processedF with
       | some (f, _) => dirPath ++ "/" ++ f
       | none => dirPath),
    screenshot :=
      (match dd.screenshotF with
       | some f => dirPath ++ "/" ++ f
       | none => dirPath),
    error := none,
    timestamp := stampOf cf }

/-- Abstracted raw text of a page (no claim depends on actual text). -/
def pageText (u : String) : String :=
  "content of " ++ u

/-- One scheduler step.  Returns `none` when the action does not apply
in the current state (wrong program counter, missing permit, timer not
set). -/
def step (cfg : Cfg) (s : St) : Act → Option St
  | .spawn u d =>
    some { s with tasks := s.tasks ++ [{ url := u, depth := d, pc := .psStart }],
                  time := s.time + 1 }
  | .entry i =>
    match s.tasks.get? i with
    | some t =>
      if t.pc = .psStart then
        if s.shuttingDown then
          some { s with
            tasks := s.tasks.set i { t with
              pc := .visitDone (.val (createErrorResult t.url "Scraper shutdown" s.time)),
              earlyExit := true },
            time := s.time + 1 }
        else if cfg.maxDepth < t.depth then
          some { s with
            tasks := s.tasks.set i { t with
              pc := .visitDone (.val (createErrorResult t.url "Max depth reached" s.time)),
              earlyExit := true },
            time := s.time + 1 }
        else
          some { s with tasks := s.tasks.set i { t with pc := .psDisk }, time := s.time + 1 }
      else none
    | none => none
  | .diskStep i =>
    match s.tasks.get? i with
    | some t =>
      if t.pc = .psDisk then
        let route := routeOf t.url
        let dirPath := cfg.outputDir ++ "/" ++ route
        match (alookup s.disk route).bind (fun dd => dd.contentF.map (fun c => (dd, c.1))) with
        | some (dd, cf) =>
          let r := existingResultOf dirPath dd t.url cf
          some { s with
            tasks := s.tasks.set i { t with pc := .visitDone (.val r) },
            results := aset s.results t.url r,
            time := s.time + 1 }
        | none =>
          match alookup s.results t.url with
          | some r =>
            some { s with tasks := s.tasks.set i { t with pc := .visitDone (.val r) },
                          time := s.time + 1 }
          | none =>
            match alookup s.pending t.url with
            | some oid =>
              some { s with tasks := s.tasks.set i { t with pc := .awaitAttach oid },
                            time := s.time + 1 }
            | none =>
              let oid := s.tasks.length
              let ownerPC : PC :=
                if s.shuttingDown then .ownerDone (.rejected "Scraper is shutting down")
                else .piRate
              some { s with
                tasks := (s.tasks.set i { t with pc := .awaitOwn oid })
                  ++ [{ url := t.url, depth := t.depth, pc := ownerPC }],
                pending := aset s.pending t.url oid,
                time := s.time + 1 }
      else none
    | none => none
  | .rate i =>
    match s.tasks.get? i with
    | some t =>
      if t.pc = .piRate then
        if s.processedUrls.contains t.url then
          let o : Outcome :=
            match alookup s.results t.url with
            | some r => .resolvedSome r
            | none => .resolvedNone
          some { s with tasks := s.tasks.set i { t with pc := .ownerDone o },
                        time := s.time + 1 }
        else
          some { s with
            tasks := s.tasks.set i { t with pc := .piSemWait },
            timeouts := sinsert s.timeouts t.url,
            time := s.time + 1 }
      else none
    | none => none
  | .acq i =>
    match s.tasks.get? i with
    | some t =>
      if t.pc = .piSemWait ∧ 0 < s.permits then
        if s.processedUrls.contains t.url then
          let o : Outcome :=
            match alookup s.results t.url with
            | some r => .resolvedSome r
            | none => .resolvedNone
          some { s with
            tasks := s.tasks.set i { t with pc := .ownerDone o },
            permits := s.permits - 1,
            time := s.time + 1 }
        else
          some { s with
            tasks := s.tasks.set i { t with pc := .piGetPage, hasClaimed := true },
            permits := s.permits - 1,
            processedUrls := sinsert s.processedUrls t.url,
            everClaimed := sinsert s.everClaimed t.url,
            time := s.time + 1 }
      else none
    | none => none
  | .navigate i =>
    match s.tasks.get? i with
    | some t =>
      if t.pc = .piGetPage then
        some { s with
          tasks := s.tasks.set i { t with pc := .piNavPending, navigated := true },
          pool := if 0 < s.pool then s.pool - 1 else s.pool,
          openPages := if 0 < s.pool then s.openPages else s.openPages + 1,
          navLog := s.navLog ++ [t.url],
          time := s.time + 1 }
      else none
    | none => none
  | .navFail i msg =>
    match s.tasks.get? i with
    | some t =>
      if t.pc = .piNavPending then
        some { s with
          tasks := s.tasks.set i { t with pc := .ownerDone (.rejected msg) },
          pool := if s.pool < cfg.maxPages then s.pool + 1 else s.pool,
          openPages := if s.pool < cfg.maxPages then s.openPages else s.openPages - 1,
          timeouts := serase s.timeouts t.url,
          permits := s.permits + 1 + 1,
          processedUrls := serase s.processedUrls t.url,
          time := s.time + 1 }
      else none
    | none => none
  | .finishOk i =>
    match s.tasks.get? i with
    | some t =>
      if t.pc = .piNavPending then
        let route := routeOf t.url
        let dirPath := cfg.outputDir ++ "/" ++ route
        let dd := (alookup s.disk route).getD dir0
        let stamp := toString s.time
        let dd1 :=
          match dd.screenshotF with
          | some _ => dd
          | none => { dd with screenshotF := some ("screenshot_" ++ stamp ++ ".png") }
        let shot :=
          match dd1.screenshotF with
          | some f => dirPath ++ "/" ++ f
          | none => ""
        let p1 := saveToFile dd1 dirPath stamp .content (pageText t.url)
        let p2 := saveToFile p1.1 dirPath stamp .processed ("processed " ++ pageText t.url)
        let r : PageResult :=
          { url := t.url, contentPath := p1.2, processedContentPath := p2.2,
            screenshot := shot, error := none, timestamp := s.time }
        some { s with
          tasks := s.tasks.set i { t with pc := .ownerDone (.resolvedSome r) },
          disk := aset s.disk route p2.1,
          results := aset s.results t.url r,
          pool := if s.pool < cfg.maxPages then s.pool + 1 else s.pool,
          openPages := if s.pool < cfg.maxPages then s.openPages else s.openPages - 1,
          timeouts := serase s.timeouts t.url,
          permits := s.permits + 1,
          time := s.time + 1 }
      else none
    | none => none
  | .finishContentErr i msg =>
    match s.tasks.get? i with
    | some t =>
      if t.pc = .piNavPending then
        let r := createErrorResult t.url msg s.time
        some { s with
          tasks := s.tasks.set i { t with pc := .ownerDone (.resolvedSome r) },
          results := aset s.results t.url r,
          pool := if s.pool < cfg.maxPages then s.pool + 1 else s.pool,
          openPages := if s.pool < cfg.maxPages then s.openPages else s.openPages - 1,
          timeouts := serase s.timeouts t.url,
          permits := s.permits + 1,
          time := s.time + 1 }
      else none
    | none => none
  | .settleC i =>
    match s.tasks.get? i with
    | some t =>
      match t.pc with
      | .awaitOwn oid =>
        match s.tasks.get? oid with
        | some ot =>
          match ot.pc with
          | .ownerDone o =>
            match o with
            | .resolvedSome r =>
              some { s with
                tasks := s.tasks.set i { t with pc := .visitDone (.val r) },
                results := aset s.results t.url r,
                pending := aerase s.pending t.url,
                time := s.time + 1 }
            | .resolvedNone =>
              some { s with
                tasks := s.tasks.set i { t with pc := .visitDone .valNone },
                pending := aerase s.pending t.url,
                time := s.time + 1 }
            | .rejected m =>
              let r := createErrorResult t.url m s.time
              some { s with
                tasks := s.tasks.set i { t with pc := .visitDone (.val r) },
                results := aset s.results t.url r,
                pending := aerase s.pending t.url,
                time := s.time + 1 }
          | _ => none
        | none => none
      | _ => none
    | none => none
  | .settleA i =>
    match s.tasks.get? i with
    | some t =>
      match t.pc with
      | .awaitAttach oid =>
        match s.tasks.get? oid with
        | some ot =>
          match ot.pc with
          | .ownerDone o =>
            let ret : VisitRet :=
              match o with
              | .resolvedSome r => .val r
              | .resolvedNone => .valNone
              | .rejected m => .exn m
            some { s with tasks := s.tasks.set i { t with pc := .visitDone ret },
                          time := s.time + 1 }
          | _ => none
        | none => none
      | _ => none
    | none => none
  | .fireTimeout u =>
    if s.timeouts.contains u then
      some { s with timeouts := serase s.timeouts u, permits := s.permits + 1,
                    time := s.time + 1 }
    else none
  | .shutdown =>
    some { s with shuttingDown := true, time := s.time + 1 }
  | .evict u =>
    some { s with results := aerase s.results u, time := s.time + 1 }

/-- Runs a schedule, skipping inapplicable actions. -/
def run (cfg : Cfg) (s : St) (acts : List Act) : St :=
  acts.foldl (fun s a => (step cfg s a).getD s) s

/-- Initial state of a `scrapeWebsite` run: no tasks, empty shared maps,
`maxConcurrentPages` semaphore permits, and the artifact directories
left by previous runs. -/
def initSt (cfg : Cfg) (disk : List (String × Dir)) : St :=
  { tasks := [], pending := [], processedUrls := [], results := [],
    everClaimed := [], permits := cfg.maxPages, pool := 0, openPages := 0,
    timeouts := [], disk := disk, shuttingDown := false, navLog := [], time := 0 }

/-- Holds when a task has settled (its promise resolved or its
`processSinglePage` call returned). -/
def taskSettled (t : Task) : Bool :=
  match t.pc with
  | .visitDone _ => true
  | .ownerDone _ => true
  | _ => false

/-! ## Concrete runs -/

/-- Default configuration: `maxConcurrentPages` 5, `maxDepth` 3. -/
def cfgA : Cfg := ⟨5, 3, "out"⟩

/-- Configuration with `maxConcurrentPages` 1. -/
def cfgC2 : Cfg := ⟨1, 3, "out"⟩

def uR : String := "https://www.example.com"

def uA : String := "https://www.example.com/a"

def uB : String := "https://www.example.com/b"

def uC : String := "https://www.example.com/c"

/-- Schedule prefix for claim C2: the root is processed successfully;
child `uA` is claimed and its navigation throws, so the inner `finally`
and the outer `catch` of `processPageInternal` each run `cleanup(uA)`,
releasing the one-permit semaphore twice. -/
def traceC2pre : List Act :=
  [.spawn uR 0, .entry 0, .diskStep 0, .rate 1, .acq 1, .navigate 1, .finishOk 1, .settleC 0,
   .spawn uA 1, .entry 2, .diskStep 2, .rate 3, .acq 3, .navigate 3,
   .navFail 3 "net::ERR_CONNECTION_TIMED_OUT", .settleC 2]

/-- Continuation of `traceC2pre`: with two permits now available on the
capacity-one semaphore, children `uB` and `uC` both acquire it and open
pages concurrently. -/
def traceC2 : List Act :=
  traceC2pre ++
  [.spawn uB 1, .entry 4, .diskStep 4, .rate 5, .acq 5,
   .spawn uC 1, .entry 6, .diskStep 6, .rate 7, .acq 7,
   .navigate 5, .navigate 7]

/-- Claim C2: the code violates the pairing of semaphore acquires and
releases.  After one failed navigation the semaphore of capacity 1 holds
2 permits (`cleanup(url)` ran in both the inner `finally` and the outer
`catch`), and two pages subsequently sit open at the same time, exceeding
`maxConcurrentPages = 1`. -/
theorem semaphore_double_release_overruns_bound :
    (run cfgC2 (initSt cfgC2 []) traceC2pre).permits = 2
    ∧ cfgC2.maxPages = 1
    ∧ (run cfgC2 (initSt cfgC2 []) traceC2).openPages = 2 := by
  refine ⟨?_, rfl, ?_⟩ <;> rfl

/-- Schedule prefix for claim C3: visit of `uA` up to the point where its
navigation is in flight (the URL has just been claimed). -/
def traceC3pre : List Act :=
  [.spawn uA 0, .entry 0, .diskStep 0, .rate 1, .acq 1, .navigate 1]

/-- Continuation: the navigation rejects with message `boom` and the
creator settles. -/
def traceC3 : List Act :=
  traceC3pre ++ [.navFail 1 "boom", .settleC 0]

/-- Claim C3, counterexample: after an exception while processing the
claimed URL `uA`, the URL does NOT stay in the visited set — the catch
block of `processPageInternal` runs `processedUrls.delete(url)` — while
the pending entry is removed and a Failed result is stored.  The first
conjunct shows `uA` was claimed before the exception. -/
theorem exception_removes_url_from_visited_set :
    (run cfgA (initSt cfgA []) traceC3pre).processedUrls = [uA]
    ∧ (run cfgA (initSt cfgA []) traceC3).processedUrls = []
    ∧ (run cfgA (initSt cfgA []) traceC3).pending = []
    ∧ (alookup (run cfgA (initSt cfgA []) traceC3).results uA).map PageResult.error
        = some (some "boom") := by
  refine ⟨?_, ?_, ?_, ?_⟩ <;> rfl

/-- Schedule for claim C1: `uA` is visited, fails at navigation, and its
Failed result is stored; the `results` cache then evicts the entry (LRU
overflow or TTL expiry); a second discovery of `uA` finds no artifact on
disk, no cached result, no pending promise and no claim (the error path
unclaimed it), so it navigates again. -/
def traceC1 : List Act :=
  traceC3 ++ [.evict uA, .spawn uA 1, .entry 2, .diskStep 2, .rate 3, .acq 3, .navigate 3]

/-- Claim C1, counterexample: within a single run, after a cache
eviction the browser navigates twice to the same URL. -/
theorem navigate_twice_after_eviction :
    (run cfgA (initSt cfgA []) traceC1).navLog.count uA = 2 := by
  rfl

/-- Artifact directories for claim C5: a previous run left a `content_*`
file for route `docs`. -/
def diskC5 : List (String × Dir) :=
  [("docs", ⟨some ("content_11.txt", "old content"), none, none⟩)]

def uDocs : String := "https://www.example.com/docs"

/-- Schedule for claim C5: the root is claimed and processed; the
discovered link `uDocs` short-circuits on the on-disk `content_*` check,
storing a result WITHOUT ever being claimed. -/
def traceC5 : List Act :=
  [.spawn uR 0, .entry 0, .diskStep 0, .rate 1, .acq 1, .navigate 1, .finishOk 1, .settleC 0,
   .spawn uDocs 1, .entry 2, .diskStep 2]

/-- Claim C5, counterexample: at the end of the run every task has
settled, yet the result map has 2 entries while only 1 distinct URL was
ever claimed — the map size does not equal the claimed count, because
disk-resumed URLs are stored without being claimed. -/
theorem result_map_larger_than_claimed_count :
    (run cfgA (initSt cfgA diskC5) traceC5).results.length = 2
    ∧ (run cfgA (initSt cfgA diskC5) traceC5).everClaimed = [uR]
    ∧ (alookup (run cfgA (initSt cfgA diskC5) traceC5).results uDocs).isSome = true
    ∧ (run cfgA (initSt cfgA diskC5) traceC5).tasks.all taskSettled = true := by
  refine ⟨?_, ?_, ?_, ?_⟩ <;> rfl

/-- The root URL exactly as handed to `scrapeWebsite` (never
normalized). -/
def rawRoot : String := "https://example.com/"

/-- The normalization of `rawRoot` (and of the identical self-link
discovered on its page). -/
def normSelf : String := "https://www.example.com"

/-- Schedule for claim C8: the raw root is claimed and navigated under
its unnormalized key (its content scrape fails, so no artifact masks the
second visit); the page links to itself, the href is normalized by
`extractValidLinks`, and the normalized string — identifying the very
same resource — is claimed and navigated as a distinct crawl target. -/
def traceC8 : List Act :=
  [.spawn rawRoot 0, .entry 0, .diskStep 0, .rate 1, .acq 1, .navigate 1,
   .finishContentErr 1 "Failed to scrape content for https://example.com/", .settleC 0,
   .spawn normSelf 1, .entry 2, .diskStep 2, .rate 3, .acq 3, .navigate 3,
   .finishContentErr 3 "Failed to scrape content for https://www.example.com", .settleC 2]

/-- Claim C8, counterexample: `rawRoot` and `normSelf` normalize to the
same string, yet they are NOT treated as the same crawl target: the root
is keyed by its raw string, so the run navigates twice and keys the
result map under both strings. -/
theorem root_url_not_normalized :
    normalizeUrl rawRoot "https://example.com" = some normSelf
    ∧ normalizeUrl normSelf "https://example.com" = some normSelf
    ∧ rawRoot ≠ normSelf
    ∧ (run cfgA (initSt cfgA []) traceC8).navLog = [rawRoot, normSelf]
    ∧ (run cfgA (initSt cfgA []) traceC8).results.length = 2 := by
  refine ⟨?_, ?_, ?_, ?_, ?_⟩ <;> first | rfl | decide

/-- Claim C8, amended (link side): the link list produced by
`extractValidLinks` is duplicate-free and consists of normalized hrefs,
so any two discovered hrefs that normalize identically contribute at
most one crawl target. -/
theorem discovered_links_deduplicated (links processed : List String)
    (scraperBase pageBase : String) :
    (validLinks links processed scraperBase pageBase).Nodup
    ∧ ∀ x ∈ validLinks links processed scraperBase pageBase,
        ∃ l ∈ links, normalizeUrl l pageBase = some x := by
  constructor
  · exact dedupFirst_nodup _
  · intro x hx
    have hx2 := dedupFirst_subset _ x hx
    obtain ⟨l, hl, hnorm⟩ := List.mem_filterMap.mp hx2
    exact ⟨l, (List.mem_filter.mp hl).1, hnorm⟩

def uAB1 : String := "https://www.example.com/a-b"

def uAB2 : String := "https://www.example.com/a/b"

/-- Schedule for claim C10: `uAB1` is processed and its artifacts land in
route directory `a-b`; the distinct URL `uAB2` generates the same route
path, so its visit short-circuits on the on-disk `content_*` check. -/
def traceC10 : List Act :=
  [.spawn uAB1 0, .entry 0, .diskStep 0, .rate 1, .acq 1, .navigate 1, .finishOk 1, .settleC 0,
   .spawn uAB2 1, .entry 2, .diskStep 2]

/-- Claim C10: the paths `/a-b` and `/a/b` collide in
`generateRoutePath`; after `uAB1` is processed, visiting `uAB2`
short-circuits on the on-disk artifact check and returns a result whose
content path points at the files of `uAB1`, and `uAB2` is never
navigated. -/
theorem route_collision_short_circuits :
    generateRoutePath "/a-b" = generateRoutePath "/a/b"
    ∧ uAB1 ≠ uAB2
    ∧ (run cfgA (initSt cfgA []) traceC10).navLog = [uAB1]
    ∧ (alookup (run cfgA (initSt cfgA []) traceC10).results uAB1).map PageResult.contentPath
        = some "out/a-b/content_6.txt"
    ∧ (alookup (run cfgA (initSt cfgA []) traceC10).results uAB2).map PageResult.contentPath
        = some "out/a-b/content_6.txt"
    ∧ (alookup (run cfgA (initSt cfgA []) traceC10).results uAB2).map PageResult.error
        = some none := by
  refine ⟨?_, ?_, ?_, ?_, ?_, ?_⟩ <;> first | rfl | decide



theorem tget_set_self {α : Type} {l : List α} {i : Nat} (t : α) (h : i < l.length) :
    (l.set i t).get? i = some t := by
  rw [List.get?_eq_getElem?]
  exact List.getElem?_set_eq_of_lt t h

theorem tget_set_other {α : Type} {l : List α} {i j : Nat} (t : α) (h : i ≠ j) :
    (l.set i t).get? j = l.get? j := by
  rw [List.get?_eq_getElem?, List.get?_eq_getElem?]
  exact List.getElem?_set_ne h

/-- Claim C4: a `processSinglePage` call with `depth > maxDepth` (in a
run that is not shutting down) immediately returns a Failed PageResult
whose error states that the maximum depth was reached, emits no
navigation event, and the finished call can never take another step —
the page driver is never invoked for that call. -/
theorem depth_exceeded_rejected (cfg : Cfg) (s : St) (i : Nat) (t : Task)
    (ht : s.tasks.get? i = some t) (hpc : t.pc = .psStart)
    (hsd : s.shuttingDown = false) (hd : cfg.maxDepth < t.depth) :
    ∃ s1, step cfg s (.entry i) = some s1
      ∧ s1.navLog = s.navLog
      ∧ s1.tasks.get? i = some { t with
          pc := .visitDone (.val (createErrorResult t.url "Max depth reached" s.time)),
          earlyExit := true }
      ∧ ∀ msg, step cfg s1 (.entry i) = none ∧ step cfg s1 (.diskStep i) = none
          ∧ step cfg s1 (.rate i) = none ∧ step cfg s1 (.acq i) = none
          ∧ step cfg s1 (.navigate i) = none ∧ step cfg s1 (.navFail i msg) = none
          ∧ step cfg s1 (.finishOk i) = none ∧ step cfg s1 (.finishContentErr i msg) = none
          ∧ step cfg s1 (.settleC i) = none ∧ step cfg s1 (.settleA i) = none := by
  have hlen : i < s.tasks.length := by
    by_contra hge
    rw [List.get?_eq_getElem?, List.getElem?_eq_none (Nat.le_of_not_lt hge)] at ht
    exact Option.noConfusion ht
  have hstep : step cfg s (.entry i)
      = some { s with
          tasks := s.tasks.set i
            { t with
              pc := .visitDone (.val (createErrorResult t.url "Max depth reached" s.time)),
              earlyExit := true },
          time := s.time + 1 } := by
    have ht2 : s.tasks[i]? = some t := by
      rw [← List.get?_eq_getElem?]
      exact ht
    simp [step, ht2, hpc, hsd, hd]
  refine ⟨_, hstep, rfl, tget_set_self _ hlen, ?_⟩
  intro msg
  have hget : (s.tasks.set i
      { t with
        pc := .visitDone (.val (createErrorResult t.url "Max depth reached" s.time)),
        earlyExit := true }).get? i
      = some { t with
          pc := .visitDone (.val (createErrorResult t.url "Max depth reached" s.time)),
          earlyExit := true } := tget_set_self _ hlen
  have hget2 : (s.tasks.set i
      { t with
        pc := .visitDone (.val (createErrorResult t.url "Max depth reached" s.time)),
        earlyExit := true })[i]?
      = some { t with
          pc := .visitDone (.val (createErrorResult t.url "Max depth reached" s.time)),
          earlyExit := true } := by
    rw [← List.get?_eq_getElem?]
    exact hget
  refine ⟨?_, ?_, ?_, ?_, ?_, ?_, ?_, ?_, ?_, ?_⟩ <;> simp [step, hget2]

/-- Witness for `depth_exceeded_rejected` at a concrete state: one task
for `uA` spawned at depth 4 with `maxDepth` 3. -/
theorem depth_exceeded_rejected_witness :
    ∃ s1, step cfgA (run cfgA (initSt cfgA []) [.spawn uA 4]) (.entry 0) = some s1
      ∧ s1.navLog = (run cfgA (initSt cfgA []) [.spawn uA 4]).navLog
      ∧ s1.tasks.get? 0 = some
          { url := uA, depth := 4,
            pc := .visitDone (.val (createErrorResult uA "Max depth reached" 1)),
            navigated := false, hasClaimed := false, earlyExit := true }
      ∧ ∀ msg, step cfgA s1 (.entry 0) = none ∧ step cfgA s1 (.diskStep 0) = none
          ∧ step cfgA s1 (.rate 0) = none ∧ step cfgA s1 (.acq 0) = none
          ∧ step cfgA s1 (.navigate 0) = none ∧ step cfgA s1 (.navFail 0 msg) = none
          ∧ step cfgA s1 (.finishOk 0) = none ∧ step cfgA s1 (.finishContentErr 0 msg) = none
          ∧ step cfgA s1 (.settleC 0) = none ∧ step cfgA s1 (.settleA 0) = none :=
  depth_exceeded_rejected cfgA (run cfgA (initSt cfgA []) [.spawn uA 4]) 0
    { url := uA, depth := 4, pc := .psStart } rfl rfl rfl (by decide)


theorem alookup_aset_self {α : Type} (l : List (String × α)) (u : String) (v : α) :
    alookup (aset l u v) u = some v := by
  induction l with
  | nil => simp [aset, alookup]
  | cons p rest ih =>
    obtain ⟨k, w⟩ := p
    by_cases hk : k = u
    · simp [aset, hk, alookup]
    · simp [aset, hk, alookup, ih]

theorem alookup_aset_ne {α : Type} (l : List (String × α)) (u w : String) (v : α)
    (h : w ≠ u) : alookup (aset l u v) w = alookup l w := by
  induction l with
  | nil => simp [aset, alookup, Ne.symm h]
  | cons p rest ih =>
    obtain ⟨k, x⟩ := p
    by_cases hk : k = u
    · subst hk
      simp [aset, alookup, Ne.symm h]
    · simp [aset, hk, alookup, ih]

theorem alookup_eq_none_of_not_mem {α : Type} (l : List (String × α)) (u : String)
    (h : u ∉ akeys l) : alookup l u = none := by
  induction l with
  | nil => simp [alookup]
  | cons p rest ih =>
    obtain ⟨k, w⟩ := p
    have hk : k ≠ u := by
      intro hh
      exact h (by simp [akeys, hh])
    have hrest : u ∉ akeys rest := by
      intro hh
      exact h (by simp [akeys] at hh ⊢; exact Or.inr hh)
    simp [alookup, hk, ih hrest]

theorem alookup_aerase_ne {α : Type} (l : List (String × α)) (u w : String)
    (h : w ≠ u) : alookup (aerase l u) w = alookup l w := by
  induction l with
  | nil => simp [aerase]
  | cons p rest ih =>
    obtain ⟨k, x⟩ := p
    by_cases hk : k = u
    · subst hk
      simp [aerase, alookup, Ne.symm h]
    · simp [aerase, hk, alookup, ih]

theorem alookup_aerase_self {α : Type} (l : List (String × α)) (u : String)
    (h : (akeys l).Nodup) : alookup (aerase l u) u = none := by
  induction l with
  | nil => simp [aerase, alookup]
  | cons p rest ih =>
    obtain ⟨k, w⟩ := p
    have hks : akeys ((k, w) :: rest) = k :: akeys rest := rfl
    rw [hks] at h
    have hnd := List.nodup_cons.mp h
    by_cases hk : k = u
    · subst hk
      simp only [aerase, if_pos rfl]
      exact alookup_eq_none_of_not_mem rest k hnd.1
    · simp [aerase, hk, alookup, ih hnd.2]

theorem serase_not_mem (l : List String) (u : String) : u ∉ serase l u := by
  intro h
  have h2 := (List.mem_filter.mp h).2
  simp at h2

theorem serase_contains_false (l : List String) (u : String) :
    (serase l u).contains u = false := by
  by_contra hc
  have hc2 : (serase l u).contains u = true := by
    cases h : (serase l u).contains u with
    | true => rfl
    | false => exact absurd h hc
  exact serase_not_mem l u (List.elem_iff.mp hc2)

/-- Claim C3, amended: when the navigation of a claimed URL throws, the
URL is REMOVED from the visited set (the catch block unclaims it), the
pending-promise entry is removed, and a Failed PageResult carrying the
error message is stored, for any state in which the owner is mid-flight
and its creator is awaiting it. -/
theorem exception_unclaims_and_stores_failure (cfg : Cfg) (s : St) (i c : Nat)
    (ot ct : Task) (msg : String)
    (hio : s.tasks.get? i = some ot) (hopc : ot.pc = .piNavPending)
    (hcc : s.tasks.get? c = some ct) (hcpc : ct.pc = .awaitOwn i)
    (hcu : ct.url = ot.url) (hne : c ≠ i)
    (hnd : (akeys s.pending).Nodup) :
    ((step cfg s (.navFail i msg)).bind (fun s1 => step cfg s1 (.settleC c))).map
        (fun s2 => s2.processedUrls.contains ot.url) = some false
    ∧ ((step cfg s (.navFail i msg)).bind (fun s1 => step cfg s1 (.settleC c))).map
        (fun s2 => alookup s2.pending ot.url) = some none
    ∧ ((step cfg s (.navFail i msg)).bind (fun s1 => step cfg s1 (.settleC c))).map
        (fun s2 => alookup s2.results ot.url)
        = some (some (createErrorResult ot.url msg (s.time + 1))) := by
  have hlen : i < s.tasks.length := by
    by_contra hge
    rw [List.get?_eq_getElem?, List.getElem?_eq_none (Nat.le_of_not_lt hge)] at hio
    exact Option.noConfusion hio
  have hio2 : s.tasks[i]? = some ot := by
    rw [← List.get?_eq_getElem?]
    exact hio
  have hstep1 : step cfg s (.navFail i msg)
      = some { s with
          tasks := s.tasks.set i { ot with pc := .ownerDone (.rejected msg) },
          pool := if s.pool < cfg.maxPages then s.pool + 1 else s.pool,
          openPages := if s.pool < cfg.maxPages then s.openPages else s.openPages - 1,
          timeouts := serase s.timeouts ot.url,
          permits := s.permits + 1 + 1,
          processedUrls := serase s.processedUrls ot.url,
          time := s.time + 1 } := by
    simp [step, hio2, hopc]
  have hgetc : (s.tasks.set i { ot with pc := .ownerDone (.rejected msg) })[c]?
      = some ct := by
    rw [← List.get?_eq_getElem?, tget_set_other _ (Ne.symm hne)]
    exact hcc
  have hgeti : (s.tasks.set i { ot with pc := .ownerDone (.rejected msg) })[i]?
      = some { ot with pc := .ownerDone (.rejected msg) } := by
    rw [← List.get?_eq_getElem?]
    exact tget_set_self _ hlen
  rw [hstep1]
  simp only [Option.some_bind]
  have hres : alookup (aset s.results ct.url
        (createErrorResult ct.url msg (s.time + 1))) ot.url
      = some (createErrorResult ot.url msg (s.time + 1)) := by
    rw [hcu] at *
    exact alookup_aset_self _ _ _
  refine ⟨?_, ?_, ?_⟩ <;>
    simp [step, hgetc, hcpc, hgeti, serase_contains_false, serase_not_mem, hcu,
      alookup_aerase_self _ _ hnd, hres, alookup_aset_self]



/-- Witness for `exception_unclaims_and_stores_failure` at the state
reached by `traceC3pre`. -/
theorem exception_unclaims_witness :
    ((step cfgA (run cfgA (initSt cfgA []) traceC3pre) (.navFail 1 "boom")).bind
        (fun s1 => step cfgA s1 (.settleC 0))).map
        (fun s2 => s2.processedUrls.contains uA) = some false
    ∧ ((step cfgA (run cfgA (initSt cfgA []) traceC3pre) (.navFail 1 "boom")).bind
        (fun s1 => step cfgA s1 (.settleC 0))).map
        (fun s2 => alookup s2.pending uA) = some none
    ∧ ((step cfgA (run cfgA (initSt cfgA []) traceC3pre) (.navFail 1 "boom")).bind
        (fun s1 => step cfgA s1 (.settleC 0))).map
        (fun s2 => alookup s2.results uA)
        = some (some (createErrorResult uA "boom" 7)) :=
  exception_unclaims_and_stores_failure cfgA (run cfgA (initSt cfgA []) traceC3pre) 1 0
    { url := uA, depth := 0, pc := .piNavPending, navigated := true,
      hasClaimed := true, earlyExit := false }
    { url := uA, depth := 0, pc := .awaitOwn 1, navigated := false,
      hasClaimed := false, earlyExit := false }
    "boom" rfl rfl rfl rfl rfl (by decide) (by decide)

end ScraperProof
namespace ScraperProof

theorem tget_lt {l : List Task} {i : Nat} {t : Task} (h : l.get? i = some t) :
    i < l.length := by
  by_contra hge
  rw [List.get?_eq_getElem?, List.getElem?_eq_none (Nat.le_of_not_lt hge)] at h
  exact Option.noConfusion h

theorem tget_set_cases {l : List Task} {i j : Nat} {tn x : Task}
    (h : (l.set i tn).get? j = some x) :
    (j = i ∧ x = tn) ∨ (j ≠ i ∧ l.get? j = some x) := by
  by_cases hij : j = i
  · subst hij
    have hlt : j < l.length := by
      have := tget_lt h
      rwa [List.length_set] at this
    rw [tget_set_self tn hlt] at h
    exact Or.inl ⟨rfl, (Option.some.inj h).symm⟩
  · rw [tget_set_other tn (fun hh => hij hh.symm)] at h
    exact Or.inr ⟨hij, h⟩

theorem tget_append_cases {l : List Task} {tn x : Task} {j : Nat}
    (h : (l ++ [tn]).get? j = some x) :
    l.get? j = some x ∨ (j = l.length ∧ x = tn) := by
  by_cases hj : j < l.length
  · rw [List.get?_append hj] at h
    exact Or.inl h
  · have hlen : j < l.length + 1 := by
      have := tget_lt h
      simpa using this
    have hje : j = l.length := by omega
    subst hje
    rw [List.get?_append_right (Nat.le_refl _)] at h
    simp at h
    exact Or.inr ⟨rfl, h.symm⟩

theorem tget_append_keep {l : List Task} {tn x : Task} {j : Nat}
    (h : l.get? j = some x) : (l ++ [tn]).get? j = some x := by
  rw [List.get?_append (tget_lt h)]
  exact h

theorem tget_append_new (l : List Task) (tn : Task) :
    (l ++ [tn]).get? l.length = some tn := by
  rw [List.get?_append_right (Nat.le_refl _)]
  simp

theorem aset_isSome_mono {α : Type} {l : List (String × α)} {w : String} (u : String) (v : α)
    (h : (alookup l w).isSome = true) : (alookup (aset l u v) w).isSome = true := by
  by_cases hw : w = u
  · subst hw
    rw [alookup_aset_self]
    rfl
  · rw [alookup_aset_ne l u w v hw]
    exact h

theorem mem_akeys_of_lookup {α : Type} {l : List (String × α)} {u : String} {v : α}
    (h : alookup l u = some v) : u ∈ akeys l := by
  induction l with
  | nil => exact Option.noConfusion h
  | cons p rest ih =>
    obtain ⟨k, w⟩ := p
    by_cases hk : k = u
    · subst hk
      exact List.mem_cons_self _ _
    · rw [alookup, if_neg hk] at h
      exact List.mem_cons_of_mem _ (ih h)

theorem akeys_aset_of_mem {α : Type} {l : List (String × α)} {u : String} (v : α)
    (h : u ∈ akeys l) : akeys (aset l u v) = akeys l := by
  induction l with
  | nil => exact absurd h (List.not_mem_nil u)
  | cons p rest ih =>
    obtain ⟨k, w⟩ := p
    by_cases hk : k = u
    · subst hk
      simp [aset, akeys]
    · have hm : u ∈ akeys rest := by
        rcases List.mem_cons.mp h with hh | hh
        · exact absurd hh.symm hk
        · exact hh
      have ha : aset ((k, w) :: rest) u v = (k, w) :: aset rest u v := by
        simp [aset, hk]
      rw [ha]
      show k :: akeys (aset rest u v) = k :: akeys rest
      rw [ih hm]

theorem akeys_aset_of_not_mem {α : Type} {l : List (String × α)} {u : String} (v : α)
    (h : u ∉ akeys l) : akeys (aset l u v) = akeys l ++ [u] := by
  induction l with
  | nil => simp [aset, akeys]
  | cons p rest ih =>
    obtain ⟨k, w⟩ := p
    have hk : k ≠ u := by
      intro hh
      exact h (by simp [akeys, hh])
    have hm : u ∉ akeys rest := by
      intro hh
      exact h (List.mem_cons_of_mem _ hh)
    have ha : aset ((k, w) :: rest) u v = (k, w) :: aset rest u v := by
      simp [aset, hk]
    rw [ha]
    show k :: akeys (aset rest u v) = (k :: akeys rest) ++ [u]
    rw [ih hm]
    rfl

theorem akeys_nodup_aset {α : Type} {l : List (String × α)} (u : String) (v : α)
    (h : (akeys l).Nodup) : (akeys (aset l u v)).Nodup := by
  by_cases hm : u ∈ akeys l
  · rwa [akeys_aset_of_mem v hm]
  · rw [akeys_aset_of_not_mem v hm]
    rw [List.nodup_append]
    exact ⟨h, List.nodup_singleton u, by simpa using hm⟩

theorem aerase_sublist {α : Type} (l : List (String × α)) (u : String) :
    (aerase l u).Sublist l := by
  induction l with
  | nil => simp [aerase]
  | cons p rest ih =>
    obtain ⟨k, w⟩ := p
    by_cases hk : k = u
    · simp only [aerase, if_pos hk]
      exact List.sublist_cons_self _ _
    · simp only [aerase, if_neg hk]
      exact List.Sublist.cons₂ _ ih

theorem akeys_nodup_aerase {α : Type} {l : List (String × α)} (u : String)
    (h : (akeys l).Nodup) : (akeys (aerase l u)).Nodup :=
  List.Nodup.sublist (List.Sublist.map Prod.fst (aerase_sublist l u)) h

theorem aerase_isSome_mono {α : Type} {l : List (String × α)} {w u : String}
    (hne : w ≠ u) (h : (alookup l w).isSome = true) :
    (alookup (aerase l u) w).isSome = true := by
  rwa [alookup_aerase_ne l u w hne]

theorem mem_sinsert_iff {l : List String} {u w : String} :
    w ∈ sinsert l u ↔ w = u ∨ w ∈ l := by
  unfold sinsert
  by_cases hc : l.contains u
  · rw [if_pos hc]
    constructor
    · exact Or.inr
    · rintro (rfl | hw)
      · exact List.elem_iff.mp hc
      · exact hw
  · rw [if_neg hc]
    exact List.mem_cons

theorem sinsert_nodup {l : List String} (u : String) (h : l.Nodup) :
    (sinsert l u).Nodup := by
  unfold sinsert
  by_cases hc : l.contains u
  · rwa [if_pos hc]
  · rw [if_neg hc]
    refine List.nodup_cons.mpr ⟨?_, h⟩
    intro hmem
    exact hc (List.elem_iff.mpr hmem)

theorem mem_serase {l : List String} {w u : String} (h : w ∈ serase l u) : w ∈ l :=
  (List.mem_filter.mp h).1

theorem count_append_one (l : List String) (u w : String) :
    (l ++ [u]).count w = l.count w + (if w = u then 1 else 0) := by
  rw [List.count_append]
  congr 1
  by_cases hw : w = u
  · subst hw
    simp
  · have hz : List.count w [u] = 0 := by
      rw [List.count_eq_zero]
      simp [hw]
    simp [hz, hw]

end ScraperProof

namespace ScraperProof

/-- Live (unsettled) owner program counters. -/
def isLiveOwner : PC → Bool
  | .piRate | .piSemWait | .piGetPage | .piNavPending => true
  | _ => false

/-- Owner program counters (live or settled). -/
def isOwnerPC : PC → Bool
  | .piRate | .piSemWait | .piGetPage | .piNavPending | .ownerDone _ => true
  | _ => false

/-- Number of navigations of `u` so far. -/
def navCount (s : St) (u : String) : Nat :=
  s.navLog.count u

/-- The inductive invariant of the crawl machine for runs without cache
eviction.  It ties the `resultPromises` map (`pending`), the
`processedUrls` set, the `results` cache and the task program counters
together; its consequences include the at-most-once navigation bound and
the storage of a result for every claimed URL. -/
structure Inv (s : St) : Prop where
  pendValid : ∀ u oid, alookup s.pending u = some oid →
    ∃ t, s.tasks.get? oid = some t ∧ t.url = u ∧ isOwnerPC t.pc = true
  own : ∀ i t, s.tasks.get? i = some t → isLiveOwner t.pc = true →
    alookup s.pending t.url = some i
  navBound : ∀ u, navCount s u ≤ 1
  navReg : ∀ u, 1 ≤ navCount s u →
    (alookup s.results u).isSome = true
      ∨ ∃ oid t, alookup s.pending u = some oid ∧ s.tasks.get? oid = some t
          ∧ t.navigated = true
  preNav : ∀ i t, s.tasks.get? i = some t → isLiveOwner t.pc = true →
    t.navigated = false → navCount s t.url = 0
  navFlag : ∀ i t, s.tasks.get? i = some t →
    ((t.pc = .piRate ∨ t.pc = .piSemWait ∨ t.pc = .piGetPage) → t.navigated = false)
      ∧ (t.pc = .piNavPending → t.navigated = true)
  claimFlag : ∀ i t, s.tasks.get? i = some t → (t.pc = .piRate ∨ t.pc = .piSemWait) →
    t.hasClaimed = false
  noNone : ∀ i t, s.tasks.get? i = some t → ¬ t.pc = .ownerDone .resolvedNone
  someStored : ∀ i t r, s.tasks.get? i = some t → t.pc = .ownerDone (.resolvedSome r) →
    (alookup s.results t.url).isSome = true
  rejLink : ∀ i t m, s.tasks.get? i = some t → t.pc = .ownerDone (.rejected m) →
    (alookup s.results t.url).isSome = true ∨ (alookup s.pending t.url).isSome = true
  claimedInv : ∀ u, u ∈ s.everClaimed →
    (alookup s.results u).isSome = true
      ∨ ∃ oid t, alookup s.pending u = some oid ∧ s.tasks.get? oid = some t
          ∧ t.hasClaimed = true
  processedInv : ∀ u, u ∈ s.processedUrls →
    (alookup s.results u).isSome = true
      ∨ ∃ oid t, alookup s.pending u = some oid ∧ s.tasks.get? oid = some t
          ∧ t.hasClaimed = true
  creatorPend : ∀ c t oid, s.tasks.get? c = some t → t.pc = .awaitOwn oid →
    alookup s.pending t.url = some oid
  creatorUnique : ∀ c1 c2 t1 t2 oid1 oid2, s.tasks.get? c1 = some t1 →
    s.tasks.get? c2 = some t2 → t1.pc = .awaitOwn oid1 → t2.pc = .awaitOwn oid2 →
    t1.url = t2.url → c1 = c2
  attValid : ∀ a t oid, s.tasks.get? a = some t → t.pc = .awaitAttach oid →
    ∃ ot, s.tasks.get? oid = some ot ∧ ot.url = t.url ∧ isOwnerPC ot.pc = true
  visitStored : ∀ i t ret, s.tasks.get? i = some t → t.pc = .visitDone ret →
    t.earlyExit = true ∨ (alookup s.results t.url).isSome = true
      ∨ (alookup s.pending t.url).isSome = true
  pendNodup : (akeys s.pending).Nodup
  resNodup : (akeys s.results).Nodup
  evClNodup : s.everClaimed.Nodup

theorem inv_spawn (cfg : Cfg) (s : St) (u : String) (d : Nat) (s2 : St) (hinv : Inv s)
    (hstep : step cfg s (.spawn u d) = some s2) : Inv s2 := by
  simp only [step] at hstep
  obtain rfl := Option.some.inj hstep
  refine { pendValid := ?_, own := ?_, navBound := ?_, navReg := ?_, preNav := ?_,
           navFlag := ?_, claimFlag := ?_, noNone := ?_, someStored := ?_, rejLink := ?_,
           claimedInv := ?_, processedInv := ?_, creatorPend := ?_, creatorUnique := ?_,
           attValid := ?_, visitStored := ?_, pendNodup := ?_, resNodup := ?_,
           evClNodup := ?_ }
  · intro u0 oid h
    obtain ⟨t, hg, hurl, hpc⟩ := hinv.pendValid u0 oid h
    exact ⟨t, tget_append_keep hg, hurl, hpc⟩
  · intro i t hg hl
    rcases tget_append_cases hg with hold | ⟨_, rfl⟩
    · exact hinv.own i t hold hl
    · simp [isLiveOwner] at hl
  · exact hinv.navBound
  · intro u0 h1
    rcases hinv.navReg u0 h1 with h | ⟨oid, t, hp, hg, hn⟩
    · exact Or.inl h
    · exact Or.inr ⟨oid, t, hp, tget_append_keep hg, hn⟩
  · intro i t hg hl hn
    rcases tget_append_cases hg with hold | ⟨_, rfl⟩
    · exact hinv.preNav i t hold hl hn
    · simp [isLiveOwner] at hl
  · intro i t hg
    rcases tget_append_cases hg with hold | ⟨_, rfl⟩
    · exact hinv.navFlag i t hold
    · constructor
      · rintro (h | h | h) <;> exact PC.noConfusion h
      · intro h
        exact PC.noConfusion h
  · intro i t hg hor
    rcases tget_append_cases hg with hold | ⟨_, rfl⟩
    · exact hinv.claimFlag i t hold hor
    · rcases hor with h | h <;> exact PC.noConfusion h
  · intro i t hg
    rcases tget_append_cases hg with hold | ⟨_, rfl⟩
    · exact hinv.noNone i t hold
    · intro h
      exact PC.noConfusion h
  · intro i t r hg hpc
    rcases tget_append_cases hg with hold | ⟨_, rfl⟩
    · exact hinv.someStored i t r hold hpc
    · exact PC.noConfusion hpc
  · intro i t m hg hpc
    rcases tget_append_cases hg with hold | ⟨_, rfl⟩
    · exact hinv.rejLink i t m hold hpc
    · exact PC.noConfusion hpc
  · intro u0 hm
    rcases hinv.claimedInv u0 hm with h | ⟨oid, t, hp, hg, hc⟩
    · exact Or.inl h
    · exact Or.inr ⟨oid, t, hp, tget_append_keep hg, hc⟩
  · intro u0 hm
    rcases hinv.processedInv u0 hm with h | ⟨oid, t, hp, hg, hc⟩
    · exact Or.inl h
    · exact Or.inr ⟨oid, t, hp, tget_append_keep hg, hc⟩
  · intro c t oid hg hpc
    rcases tget_append_cases hg with hold | ⟨_, rfl⟩
    · exact hinv.creatorPend c t oid hold hpc
    · exact PC.noConfusion hpc
  · intro c1 c2 t1 t2 oid1 oid2 hg1 hg2 hpc1 hpc2 hu
    rcases tget_append_cases hg1 with hold1 | ⟨_, rfl⟩
    · rcases tget_append_cases hg2 with hold2 | ⟨_, rfl⟩
      · exact hinv.creatorUnique c1 c2 t1 t2 oid1 oid2 hold1 hold2 hpc1 hpc2 hu
      · exact PC.noConfusion hpc2
    · exact PC.noConfusion hpc1
  · intro a t oid hg hpc
    rcases tget_append_cases hg with hold | ⟨_, rfl⟩
    · obtain ⟨ot, hgo, hurl, hopc⟩ := hinv.attValid a t oid hold hpc
      exact ⟨ot, tget_append_keep hgo, hurl, hopc⟩
    · exact PC.noConfusion hpc
  · intro i t ret hg hpc
    rcases tget_append_cases hg with hold | ⟨_, rfl⟩
    · exact hinv.visitStored i t ret hold hpc
    · exact PC.noConfusion hpc
  · exact hinv.pendNodup
  · exact hinv.resNodup
  · exact hinv.evClNodup

theorem inv_shutdown (cfg : Cfg) (s : St) (s2 : St) (hinv : Inv s)
    (hstep : step cfg s .shutdown = some s2) : Inv s2 := by
  simp only [step] at hstep
  obtain rfl := Option.some.inj hstep
  exact { hinv with }

theorem inv_fireTimeout (cfg : Cfg) (s : St) (u : String) (s2 : St) (hinv : Inv s)
    (hstep : step cfg s (.fireTimeout u) = some s2) : Inv s2 := by
  simp only [step] at hstep
  by_cases hc : s.timeouts.contains u = true
  · rw [if_pos hc] at hstep
    obtain rfl := Option.some.inj hstep
    exact { hinv with }
  · rw [if_neg hc] at hstep
    exact Option.noConfusion hstep

end ScraperProof

namespace ScraperProof

theorem isOwnerPC_of_live {p : PC} (h : isLiveOwner p = true) : isOwnerPC p = true := by
  cases p <;> simp_all [isLiveOwner, isOwnerPC]

/-- Invariant preservation for a step that only rewrites task `i` into an
inert role (no live owner, no owner, no creator), leaving every other
state component (except the clock) unchanged. -/
theorem inv_set_inert (s : St) (i : Nat) (told tnew : Task)
    (hinv : Inv s)
    (hg : s.tasks.get? i = some told)
    (hurl : tnew.url = told.url)
    (holdNotOwner : isOwnerPC told.pc = false)
    (holdNotCreator : ∀ oid, ¬ told.pc = .awaitOwn oid)
    (hnewNotLive : isLiveOwner tnew.pc = false)
    (hnewNotOwner : isOwnerPC tnew.pc = false)
    (hnewNotCreator : ∀ oid, ¬ tnew.pc = .awaitOwn oid)
    (hnewAttach : ∀ oid, tnew.pc = .awaitAttach oid →
      ∃ ot, s.tasks.get? oid = some ot ∧ ot.url = tnew.url ∧ isOwnerPC ot.pc = true)
    (hnewVisit : ∀ ret, tnew.pc = .visitDone ret →
      tnew.earlyExit = true ∨ (alookup s.results tnew.url).isSome = true
        ∨ (alookup s.pending tnew.url).isSome = true) :
    Inv { s with tasks := s.tasks.set i tnew, time := s.time + 1 } := by
  have hpendne : ∀ u oid, alookup s.pending u = some oid → oid ≠ i := by
    intro u oid hp hoi
    subst hoi
    obtain ⟨t, hgt, _, hpc⟩ := hinv.pendValid u oid hp
    rw [hg] at hgt
    obtain rfl := Option.some.inj hgt
    rw [holdNotOwner] at hpc
    exact Bool.noConfusion hpc
  refine { pendValid := ?_, own := ?_, navBound := ?_, navReg := ?_, preNav := ?_,
           navFlag := ?_, claimFlag := ?_, noNone := ?_, someStored := ?_, rejLink := ?_,
           claimedInv := ?_, processedInv := ?_, creatorPend := ?_, creatorUnique := ?_,
           attValid := ?_, visitStored := ?_, pendNodup := ?_, resNodup := ?_,
           evClNodup := ?_ }
  · intro u0 oid h
    obtain ⟨t, hgt, hurl0, hpc⟩ := hinv.pendValid u0 oid h
    refine ⟨t, ?_, hurl0, hpc⟩
    rw [tget_set_other tnew (fun hh => hpendne u0 oid h hh.symm)]
    exact hgt
  · intro j t hgt hl
    rcases tget_set_cases hgt with ⟨rfl, rfl⟩ | ⟨hne, hold⟩
    · rw [hnewNotLive] at hl
      exact Bool.noConfusion hl
    · exact hinv.own j t hold hl
  · exact hinv.navBound
  · intro u0 h1
    rcases hinv.navReg u0 h1 with h | ⟨oid, t, hp, hgt, hn⟩
    · exact Or.inl h
    · refine Or.inr ⟨oid, t, hp, ?_, hn⟩
      rw [tget_set_other tnew (fun hh => hpendne u0 oid hp hh.symm)]
      exact hgt
  · intro j t hgt hl hn
    rcases tget_set_cases hgt with ⟨rfl, rfl⟩ | ⟨hne, hold⟩
    · rw [hnewNotLive] at hl
      exact Bool.noConfusion hl
    · exact hinv.preNav j t hold hl hn
  · intro j t hgt
    rcases tget_set_cases hgt with ⟨rfl, rfl⟩ | ⟨hne, hold⟩
    · constructor
      · rintro (h | h | h) <;> (rw [h] at hnewNotLive; exact Bool.noConfusion hnewNotLive)
      · intro h
        rw [h] at hnewNotLive
        exact Bool.noConfusion hnewNotLive
    · exact hinv.navFlag j t hold
  · intro j t hgt hor
    rcases tget_set_cases hgt with ⟨rfl, rfl⟩ | ⟨hne, hold⟩
    · rcases hor with h | h <;> (rw [h] at hnewNotLive; exact Bool.noConfusion hnewNotLive)
    · exact hinv.claimFlag j t hold hor
  · intro j t hgt h
    rcases tget_set_cases hgt with ⟨rfl, rfl⟩ | ⟨hne, hold⟩
    · rw [h] at hnewNotOwner
      exact Bool.noConfusion hnewNotOwner
    · exact hinv.noNone j t hold h
  · intro j t r hgt hpc
    rcases tget_set_cases hgt with ⟨rfl, rfl⟩ | ⟨hne, hold⟩
    · rw [hpc] at hnewNotOwner
      exact Bool.noConfusion hnewNotOwner
    · exact hinv.someStored j t r hold hpc
  · intro j t m hgt hpc
    rcases tget_set_cases hgt with ⟨rfl, rfl⟩ | ⟨hne, hold⟩
    · rw [hpc] at hnewNotOwner
      exact Bool.noConfusion hnewNotOwner
    · exact hinv.rejLink j t m hold hpc
  · intro u0 hm
    rcases hinv.claimedInv u0 hm with h | ⟨oid, t, hp, hgt, hc⟩
    · exact Or.inl h
    · refine Or.inr ⟨oid, t, hp, ?_, hc⟩
      rw [tget_set_other tnew (fun hh => hpendne u0 oid hp hh.symm)]
      exact hgt
  · intro u0 hm
    rcases hinv.processedInv u0 hm with h | ⟨oid, t, hp, hgt, hc⟩
    · exact Or.inl h
    · refine Or.inr ⟨oid, t, hp, ?_, hc⟩
      rw [tget_set_other tnew (fun hh => hpendne u0 oid hp hh.symm)]
      exact hgt
  · intro c t oid hgt hpc
    rcases tget_set_cases hgt with ⟨rfl, rfl⟩ | ⟨hne, hold⟩
    · exact absurd hpc (hnewNotCreator oid)
    · exact hinv.creatorPend c t oid hold hpc
  · intro c1 c2 t1 t2 oid1 oid2 hg1 hg2 hpc1 hpc2 hu
    rcases tget_set_cases hg1 with ⟨rfl, rfl⟩ | ⟨hne1, hold1⟩
    · exact absurd hpc1 (hnewNotCreator oid1)
    · rcases tget_set_cases hg2 with ⟨rfl, rfl⟩ | ⟨hne2, hold2⟩
      · exact absurd hpc2 (hnewNotCreator oid2)
      · exact hinv.creatorUnique c1 c2 t1 t2 oid1 oid2 hold1 hold2 hpc1 hpc2 hu
  · intro a t oid hgt hpc
    rcases tget_set_cases hgt with ⟨hai, hteq⟩ | ⟨hne, hold⟩
    · subst hteq
      obtain ⟨ot, hgo, hurlo, hopc⟩ := hnewAttach oid hpc
      have hoine : oid ≠ i := by
        intro hh
        rw [hh] at hgo
        rw [hg] at hgo
        obtain rfl := Option.some.inj hgo
        rw [holdNotOwner] at hopc
        exact Bool.noConfusion hopc
      refine ⟨ot, ?_, hurlo, hopc⟩
      rw [tget_set_other t (fun hh => hoine hh.symm)]
      exact hgo
    · obtain ⟨ot, hgo, hurlo, hopc⟩ := hinv.attValid a t oid hold hpc
      have hoine : oid ≠ i := by
        intro hh
        rw [hh] at hgo
        rw [hg] at hgo
        obtain rfl := Option.some.inj hgo
        rw [holdNotOwner] at hopc
        exact Bool.noConfusion hopc
      refine ⟨ot, ?_, hurlo, hopc⟩
      rw [tget_set_other tnew (fun hh => hoine hh.symm)]
      exact hgo
  · intro j t ret hgt hpc
    rcases tget_set_cases hgt with ⟨rfl, rfl⟩ | ⟨hne, hold⟩
    · exact hnewVisit ret hpc
    · exact hinv.visitStored j t ret hold hpc
  · exact hinv.pendNodup
  · exact hinv.resNodup
  · exact hinv.evClNodup

end ScraperProof

namespace ScraperProof

theorem inv_entry (cfg : Cfg) (s : St) (i : Nat) (s2 : St) (hinv : Inv s)
    (hstep : step cfg s (.entry i) = some s2) : Inv s2 := by
  simp only [step] at hstep
  cases hg : s.tasks.get? i with
  | none =>
    rw [hg] at hstep
    exact Option.noConfusion hstep
  | some t =>
    rw [hg] at hstep
    dsimp only at hstep
    by_cases hpc : t.pc = .psStart
    · rw [if_pos hpc] at hstep
      have holdNO : isOwnerPC t.pc = false := by rw [hpc]; rfl
      have holdNC : ∀ oid, ¬ t.pc = .awaitOwn oid := by
        intro oid h
        rw [hpc] at h
        exact PC.noConfusion h
      by_cases hsd : s.shuttingDown = true
      · rw [if_pos hsd] at hstep
        obtain rfl := Option.some.inj hstep
        exact inv_set_inert s i t _ hinv hg rfl holdNO holdNC rfl rfl
          (fun oid h => PC.noConfusion h) (fun oid h => PC.noConfusion h)
          (fun ret h => Or.inl rfl)
      · rw [if_neg hsd] at hstep
        by_cases hd : cfg.maxDepth < t.depth
        · rw [if_pos hd] at hstep
          obtain rfl := Option.some.inj hstep
          exact inv_set_inert s i t _ hinv hg rfl holdNO holdNC rfl rfl
            (fun oid h => PC.noConfusion h) (fun oid h => PC.noConfusion h)
            (fun ret h => Or.inl rfl)
        · rw [if_neg hd] at hstep
          obtain rfl := Option.some.inj hstep
          exact inv_set_inert s i t _ hinv hg rfl holdNO holdNC rfl rfl
            (fun oid h => PC.noConfusion h) (fun oid h => PC.noConfusion h)
            (fun ret h => PC.noConfusion h)
    · rw [if_neg hpc] at hstep
      exact Option.noConfusion hstep

theorem inv_settleA (cfg : Cfg) (s : St) (a : Nat) (s2 : St) (hinv : Inv s)
    (hstep : step cfg s (.settleA a) = some s2) : Inv s2 := by
  simp only [step] at hstep
  cases hg : s.tasks.get? a with
  | none =>
    rw [hg] at hstep
    exact Option.noConfusion hstep
  | some t =>
    rw [hg] at hstep
    dsimp only at hstep
    cases hpc : t.pc with
    | awaitAttach oid =>
      rw [hpc] at hstep
      dsimp only at hstep
      cases hgo : s.tasks.get? oid with
      | none =>
        rw [hgo] at hstep
        exact Option.noConfusion hstep
      | some ot =>
        rw [hgo] at hstep
        dsimp only at hstep
        cases hopc : ot.pc with
        | ownerDone o =>
          rw [hopc] at hstep
          dsimp only at hstep
          obtain ⟨ot2, hgo2, hurl2, _⟩ := hinv.attValid a t oid hg hpc
          rw [hgo] at hgo2
          obtain rfl := Option.some.inj hgo2
          have holdNO : isOwnerPC t.pc = false := by rw [hpc]; rfl
          have holdNC : ∀ oid2, ¬ t.pc = .awaitOwn oid2 := by
            intro oid2 h
            rw [hpc] at h
            exact PC.noConfusion h
          obtain rfl := Option.some.inj hstep
          cases o with
          | resolvedNone => exact absurd hopc (hinv.noNone oid ot hgo)
          | resolvedSome r =>
            refine inv_set_inert s a t _ hinv hg rfl holdNO holdNC rfl rfl
              (fun oid2 h => PC.noConfusion h) (fun oid2 h => PC.noConfusion h)
              (fun ret h => ?_)
            refine Or.inr (Or.inl ?_)
            have hst := hinv.someStored oid ot r hgo hopc
            rwa [hurl2] at hst
          | rejected m =>
            refine inv_set_inert s a t _ hinv hg rfl holdNO holdNC rfl rfl
              (fun oid2 h => PC.noConfusion h) (fun oid2 h => PC.noConfusion h)
              (fun ret h => ?_)
            have hrl := hinv.rejLink oid ot m hgo hopc
            rw [hurl2] at hrl
            rcases hrl with hh | hh
            · exact Or.inr (Or.inl hh)
            · exact Or.inr (Or.inr hh)
        | psStart => rw [hopc] at hstep; exact Option.noConfusion hstep
        | psDisk => rw [hopc] at hstep; exact Option.noConfusion hstep
        | awaitOwn o2 => rw [hopc] at hstep; exact Option.noConfusion hstep
        | awaitAttach o2 => rw [hopc] at hstep; exact Option.noConfusion hstep
        | piRate => rw [hopc] at hstep; exact Option.noConfusion hstep
        | piSemWait => rw [hopc] at hstep; exact Option.noConfusion hstep
        | piGetPage => rw [hopc] at hstep; exact Option.noConfusion hstep
        | piNavPending => rw [hopc] at hstep; exact Option.noConfusion hstep
        | visitDone ret => rw [hopc] at hstep; exact Option.noConfusion hstep
    | psStart => rw [hpc] at hstep; exact Option.noConfusion hstep
    | psDisk => rw [hpc] at hstep; exact Option.noConfusion hstep
    | awaitOwn o2 => rw [hpc] at hstep; exact Option.noConfusion hstep
    | piRate => rw [hpc] at hstep; exact Option.noConfusion hstep
    | piSemWait => rw [hpc] at hstep; exact Option.noConfusion hstep
    | piGetPage => rw [hpc] at hstep; exact Option.noConfusion hstep
    | piNavPending => rw [hpc] at hstep; exact Option.noConfusion hstep
    | ownerDone o2 => rw [hpc] at hstep; exact Option.noConfusion hstep
    | visitDone ret => rw [hpc] at hstep; exact Option.noConfusion hstep

end ScraperProof

namespace ScraperProof

theorem tget_setappend_keep {l : List Task} {i j : Nat} {tc tn x : Task}
    (hne : j ≠ i) (hx : l.get? j = some x) :
    ((l.set i tc) ++ [tn]).get? j = some x := by
  apply tget_append_keep
  rw [tget_set_other tc (fun hh => hne hh.symm)]
  exact hx

theorem tget_setappend_self {l : List Task} {i : Nat} (tc tn : Task) (h : i < l.length) :
    ((l.set i tc) ++ [tn]).get? i = some tc := by
  apply tget_append_keep
  exact tget_set_self tc h

theorem tget_setappend_new (l : List Task) (i : Nat) (tc tn : Task) :
    ((l.set i tc) ++ [tn]).get? l.length = some tn := by
  have h := tget_append_new (l.set i tc) tn
  rwa [List.length_set] at h

theorem tget_setappend_cases {l : List Task} {i j : Nat} {tc tn x : Task}
    (h : ((l.set i tc) ++ [tn]).get? j = some x) :
    (j = i ∧ i < l.length ∧ x = tc) ∨ (j = l.length ∧ x = tn)
      ∨ (j ≠ i ∧ l.get? j = some x) := by
  rcases tget_append_cases h with hset | ⟨hj, hx⟩
  · rcases tget_set_cases hset with ⟨hji, hxe⟩ | ⟨hne, hold⟩
    · have hlt : j < l.length := by
        have h2 := tget_lt hset
        rwa [List.length_set] at h2
      exact Or.inl ⟨hji, by rw [← hji]; exact hlt, hxe⟩
    · exact Or.inr (Or.inr ⟨hne, hold⟩)
  · rw [List.length_set] at hj
    exact Or.inr (Or.inl ⟨hj, hx⟩)

/-- The invariant is preserved by storing any result (the `results` cache
only ever appears positively in the invariant). -/
theorem inv_results_aset (s : St) (u : String) (r : PageResult) (hinv : Inv s) :
    Inv { s with results := aset s.results u r } := by
  refine { pendValid := hinv.pendValid, own := hinv.own, navBound := hinv.navBound,
           navReg := ?_, preNav := hinv.preNav, navFlag := hinv.navFlag,
           claimFlag := hinv.claimFlag, noNone := hinv.noNone, someStored := ?_,
           rejLink := ?_, claimedInv := ?_, processedInv := ?_,
           creatorPend := hinv.creatorPend, creatorUnique := hinv.creatorUnique,
           attValid := hinv.attValid, visitStored := ?_, pendNodup := hinv.pendNodup,
           resNodup := ?_, evClNodup := hinv.evClNodup }
  · intro u0 h1
    rcases hinv.navReg u0 h1 with h | h
    · exact Or.inl (aset_isSome_mono u r h)
    · exact Or.inr h
  · intro i t r2 hg hpc
    exact aset_isSome_mono u r (hinv.someStored i t r2 hg hpc)
  · intro i t m hg hpc
    rcases hinv.rejLink i t m hg hpc with h | h
    · exact Or.inl (aset_isSome_mono u r h)
    · exact Or.inr h
  · intro u0 hm
    rcases hinv.claimedInv u0 hm with h | h
    · exact Or.inl (aset_isSome_mono u r h)
    · exact Or.inr h
  · intro u0 hm
    rcases hinv.processedInv u0 hm with h | h
    · exact Or.inl (aset_isSome_mono u r h)
    · exact Or.inr h
  · intro i t ret hg hpc
    rcases hinv.visitStored i t ret hg hpc with h | h | h
    · exact Or.inl h
    · exact Or.inr (Or.inl (aset_isSome_mono u r h))
    · exact Or.inr (Or.inr h)
  · exact akeys_nodup_aset u r hinv.resNodup

end ScraperProof

namespace ScraperProof

theorem navCount_zero_of_unregistered (s : St) (u : String) (hinv : Inv s)
    (hres : alookup s.results u = none) (hpend : alookup s.pending u = none) :
    navCount s u = 0 := by
  by_contra hne
  have h1 : 1 ≤ navCount s u := Nat.one_le_iff_ne_zero.mpr hne
  rcases hinv.navReg u h1 with h | ⟨oid, t2, hp, _, _⟩
  · rw [hres] at h
    exact Bool.noConfusion h
  · rw [hpend] at hp
    exact Option.noConfusion hp

theorem inv_create_core (s : St) (i : Nat) (t : Task) (opc : PC) (hinv : Inv s)
    (hg : s.tasks.get? i = some t) (hpc : t.pc = .psDisk)
    (hres : alookup s.results t.url = none)
    (hpend : alookup s.pending t.url = none)
    (hopcOwner : isOwnerPC opc = true)
    (hopcCases : opc = .piRate ∨ ∃ m, opc = .ownerDone (.rejected m)) :
    Inv { s with
      tasks := (s.tasks.set i { t with pc := .awaitOwn s.tasks.length })
        ++ [{ url := t.url, depth := t.depth, pc := opc }],
      pending := aset s.pending t.url s.tasks.length,
      time := s.time + 1 } := by
  have hilen : i < s.tasks.length := tget_lt hg
  have hpendne : ∀ w o2, alookup s.pending w = some o2 → o2 ≠ i := by
    intro w o2 hp hoi
    subst hoi
    obtain ⟨t2, hgt, _, hpc2⟩ := hinv.pendValid w o2 hp
    rw [hg] at hgt
    obtain rfl := Option.some.inj hgt
    rw [hpc] at hpc2
    exact Bool.noConfusion hpc2
  have hpendlt : ∀ w o2, alookup s.pending w = some o2 → o2 < s.tasks.length := by
    intro w o2 hp
    obtain ⟨t2, hgt, _, _⟩ := hinv.pendValid w o2 hp
    exact tget_lt hgt
  have hnavz : navCount s t.url = 0 := navCount_zero_of_unregistered s t.url hinv hres hpend
  refine { pendValid := ?_, own := ?_, navBound := hinv.navBound, navReg := ?_, preNav := ?_,
           navFlag := ?_, claimFlag := ?_, noNone := ?_, someStored := ?_, rejLink := ?_,
           claimedInv := ?_, processedInv := ?_, creatorPend := ?_, creatorUnique := ?_,
           attValid := ?_, visitStored := ?_, pendNodup := ?_, resNodup := hinv.resNodup,
           evClNodup := hinv.evClNodup }
  · intro w oid hp
    by_cases hw : w = t.url
    · subst hw
      rw [alookup_aset_self] at hp
      obtain rfl := Option.some.inj hp
      exact ⟨_, tget_setappend_new s.tasks i _ _, rfl, hopcOwner⟩
    · rw [alookup_aset_ne _ _ _ _ hw] at hp
      obtain ⟨t2, hgt, hurl2, hpc2⟩ := hinv.pendValid w oid hp
      exact ⟨t2, tget_setappend_keep (hpendne w oid hp) hgt, hurl2, hpc2⟩
  · intro j tj hgt hl
    rcases tget_setappend_cases hgt with ⟨hji, _, hteq⟩ | ⟨hjlen, hteq⟩ | ⟨hjne, hold⟩
    · subst hteq
      exact Bool.noConfusion hl
    · subst hteq
      show alookup (aset s.pending t.url s.tasks.length) t.url = some j
      rw [alookup_aset_self, hjlen]
    · have holdown := hinv.own j tj hold hl
      have hne : tj.url ≠ t.url := by
        intro hh
        rw [hh] at holdown
        rw [hpend] at holdown
        exact Option.noConfusion holdown
      rw [alookup_aset_ne _ _ _ _ hne]
      exact holdown
  · intro w h1
    by_cases hw : w = t.url
    · subst hw
      rw [show navCount { s with
          tasks := (s.tasks.set i { t with pc := .awaitOwn s.tasks.length })
            ++ [{ url := t.url, depth := t.depth, pc := opc }],
          pending := aset s.pending t.url s.tasks.length,
          time := s.time + 1 } t.url = navCount s t.url from rfl, hnavz] at h1
      exact absurd h1 (by decide)
    · rcases hinv.navReg w h1 with h | ⟨oid, t2, hp, hgt, hn⟩
      · exact Or.inl h
      · refine Or.inr ⟨oid, t2, ?_, tget_setappend_keep (hpendne w oid hp) hgt, hn⟩
        rw [alookup_aset_ne _ _ _ _ hw]
        exact hp
  · intro j tj hgt hl hn
    rcases tget_setappend_cases hgt with ⟨hji, _, hteq⟩ | ⟨hjlen, hteq⟩ | ⟨hjne, hold⟩
    · subst hteq
      exact Bool.noConfusion hl
    · subst hteq
      exact hnavz
    · exact hinv.preNav j tj hold hl hn
  · intro j tj hgt
    rcases tget_setappend_cases hgt with ⟨hji, _, hteq⟩ | ⟨hjlen, hteq⟩ | ⟨hjne, hold⟩
    · subst hteq
      constructor
      · rintro (h | h | h) <;> exact PC.noConfusion h
      · intro h
        exact PC.noConfusion h
    · subst hteq
      constructor
      · intro _
        rfl
      · intro h
        rcases hopcCases with hh | ⟨m, hh⟩ <;> (rw [hh] at h; exact PC.noConfusion h)
    · exact hinv.navFlag j tj hold
  · intro j tj hgt hor
    rcases tget_setappend_cases hgt with ⟨hji, _, hteq⟩ | ⟨hjlen, hteq⟩ | ⟨hjne, hold⟩
    · subst hteq
      rcases hor with h | h <;> exact PC.noConfusion h
    · subst hteq
      rfl
    · exact hinv.claimFlag j tj hold hor
  · intro j tj hgt h
    rcases tget_setappend_cases hgt with ⟨hji, _, hteq⟩ | ⟨hjlen, hteq⟩ | ⟨hjne, hold⟩
    · subst hteq
      exact PC.noConfusion h
    · subst hteq
      rcases hopcCases with hh | ⟨m, hh⟩
      · rw [hh] at h
        exact PC.noConfusion h
      · rw [hh] at h
        have h2 := PC.ownerDone.inj h
        exact Outcome.noConfusion h2
    · exact hinv.noNone j tj hold h
  · intro j tj r hgt hpc2
    rcases tget_setappend_cases hgt with ⟨hji, _, hteq⟩ | ⟨hjlen, hteq⟩ | ⟨hjne, hold⟩
    · subst hteq
      exact PC.noConfusion hpc2
    · subst hteq
      rcases hopcCases with hh | ⟨m, hh⟩
      · rw [hh] at hpc2
        exact PC.noConfusion hpc2
      · rw [hh] at hpc2
        have h2 := PC.ownerDone.inj hpc2
        exact Outcome.noConfusion h2
    · exact hinv.someStored j tj r hold hpc2
  · intro j tj m hgt hpc2
    rcases tget_setappend_cases hgt with ⟨hji, _, hteq⟩ | ⟨hjlen, hteq⟩ | ⟨hjne, hold⟩
    · subst hteq
      exact PC.noConfusion hpc2
    · subst hteq
      refine Or.inr ?_
      show (alookup (aset s.pending t.url s.tasks.length) t.url).isSome = true
      rw [alookup_aset_self]
      rfl
    · rcases hinv.rejLink j tj m hold hpc2 with h | h
      · exact Or.inl h
      · exact Or.inr (aset_isSome_mono _ _ h)
  · intro w hm
    rcases hinv.claimedInv w hm with h | ⟨oid, t2, hp, hgt, hc⟩
    · exact Or.inl h
    · have hw : w ≠ t.url := by
        intro hh
        rw [hh, hpend] at hp
        exact Option.noConfusion hp
      refine Or.inr ⟨oid, t2, ?_, tget_setappend_keep (hpendne w oid hp) hgt, hc⟩
      rw [alookup_aset_ne _ _ _ _ hw]
      exact hp
  · intro w hm
    rcases hinv.processedInv w hm with h | ⟨oid, t2, hp, hgt, hc⟩
    · exact Or.inl h
    · have hw : w ≠ t.url := by
        intro hh
        rw [hh, hpend] at hp
        exact Option.noConfusion hp
      refine Or.inr ⟨oid, t2, ?_, tget_setappend_keep (hpendne w oid hp) hgt, hc⟩
      rw [alookup_aset_ne _ _ _ _ hw]
      exact hp
  · intro c tc oid hgt hpc2
    rcases tget_setappend_cases hgt with ⟨hji, _, hteq⟩ | ⟨hjlen, hteq⟩ | ⟨hjne, hold⟩
    · subst hteq
      have hinj := PC.awaitOwn.inj hpc2
      show alookup (aset s.pending t.url s.tasks.length) t.url = some oid
      rw [alookup_aset_self, hinj]
    · subst hteq
      rcases hopcCases with hh | ⟨m, hh⟩ <;> (rw [hh] at hpc2; exact PC.noConfusion hpc2)
    · have hold2 := hinv.creatorPend c tc oid hold hpc2
      have hw : tc.url ≠ t.url := by
        intro hh
        rw [hh, hpend] at hold2
        exact Option.noConfusion hold2
      rw [alookup_aset_ne _ _ _ _ hw]
      exact hold2
  · intro c1 c2 t1 t2 oid1 oid2 hg1 hg2 hpc1 hpc2 hu
    rcases tget_setappend_cases hg1 with ⟨hji1, _, hteq1⟩ | ⟨hjlen1, hteq1⟩ | ⟨hjne1, hold1⟩
    · rcases tget_setappend_cases hg2 with ⟨hji2, _, hteq2⟩ | ⟨hjlen2, hteq2⟩ | ⟨hjne2, hold2⟩
      · rw [hji1, hji2]
      · subst hteq2
        rcases hopcCases with hh | ⟨m, hh⟩ <;> (rw [hh] at hpc2; exact PC.noConfusion hpc2)
      · subst hteq1
        have hold3 := hinv.creatorPend c2 t2 oid2 hold2 hpc2
        rw [← hu] at hold3
        exfalso
        dsimp only at hold3
        rw [hpend] at hold3
        exact Option.noConfusion hold3
    · subst hteq1
      rcases hopcCases with hh | ⟨m, hh⟩ <;> (rw [hh] at hpc1; exact PC.noConfusion hpc1)
    · rcases tget_setappend_cases hg2 with ⟨hji2, _, hteq2⟩ | ⟨hjlen2, hteq2⟩ | ⟨hjne2, hold2⟩
      · subst hteq2
        have hold3 := hinv.creatorPend c1 t1 oid1 hold1 hpc1
        rw [hu] at hold3
        exfalso
        dsimp only at hold3
        rw [hpend] at hold3
        exact Option.noConfusion hold3
      · subst hteq2
        rcases hopcCases with hh | ⟨m, hh⟩ <;> (rw [hh] at hpc2; exact PC.noConfusion hpc2)
      · exact hinv.creatorUnique c1 c2 t1 t2 oid1 oid2 hold1 hold2 hpc1 hpc2 hu
  · intro a ta oid hgt hpc2
    rcases tget_setappend_cases hgt with ⟨hji, _, hteq⟩ | ⟨hjlen, hteq⟩ | ⟨hjne, hold⟩
    · subst hteq
      exact PC.noConfusion hpc2
    · subst hteq
      rcases hopcCases with hh | ⟨m, hh⟩ <;> (rw [hh] at hpc2; exact PC.noConfusion hpc2)
    · obtain ⟨ot, hgo, hurlo, hopc2⟩ := hinv.attValid a ta oid hold hpc2
      have hoine : oid ≠ i := by
        intro hh
        rw [hh, hg] at hgo
        obtain rfl := Option.some.inj hgo
        rw [hpc] at hopc2
        exact Bool.noConfusion hopc2
      exact ⟨ot, tget_setappend_keep hoine hgo, hurlo, hopc2⟩
  · intro j tj ret hgt hpc2
    rcases tget_setappend_cases hgt with ⟨hji, _, hteq⟩ | ⟨hjlen, hteq⟩ | ⟨hjne, hold⟩
    · subst hteq
      exact PC.noConfusion hpc2
    · subst hteq
      rcases hopcCases with hh | ⟨m, hh⟩ <;> (rw [hh] at hpc2; exact PC.noConfusion hpc2)
    · rcases hinv.visitStored j tj ret hold hpc2 with h | h | h
      · exact Or.inl h
      · exact Or.inr (Or.inl h)
      · exact Or.inr (Or.inr (aset_isSome_mono _ _ h))
  · exact akeys_nodup_aset _ _ hinv.pendNodup

end ScraperProof

namespace ScraperProof

theorem inv_diskStep (cfg : Cfg) (s : St) (i : Nat) (s2 : St) (hinv : Inv s)
    (hstep : step cfg s (.diskStep i) = some s2) : Inv s2 := by
  simp only [step] at hstep
  cases hg : s.tasks.get? i with
  | none =>
    rw [hg] at hstep
    exact Option.noConfusion hstep
  | some t =>
    rw [hg] at hstep
    dsimp only at hstep
    by_cases hpc : t.pc = .psDisk
    case neg =>
      rw [if_neg hpc] at hstep
      exact Option.noConfusion hstep
    rw [if_pos hpc] at hstep
    have holdNO : isOwnerPC t.pc = false := by rw [hpc]; rfl
    have holdNC : ∀ oid, ¬ t.pc = .awaitOwn oid := by
      intro oid h
      rw [hpc] at h
      exact PC.noConfusion h
    cases hdisk : (alookup s.disk (routeOf t.url)).bind
        (fun dd => dd.contentF.map (fun c => (dd, c.1))) with
    | some p =>
      obtain ⟨dd, cf⟩ := p
      rw [hdisk] at hstep
      dsimp only at hstep
      obtain rfl := Option.some.inj hstep
      have hmid :
          Inv { s with results := aset s.results t.url (existingResultOf (cfg.outputDir ++ "/" ++ routeOf t.url) dd t.url cf) } :=
        inv_results_aset s t.url _ hinv
      exact inv_set_inert _ i t _ hmid hg rfl holdNO holdNC rfl rfl
        (fun oid h => PC.noConfusion h) (fun oid h => PC.noConfusion h)
        (fun ret h => Or.inr (Or.inl (by
          show (alookup (aset s.results t.url
            (existingResultOf (cfg.outputDir ++ "/" ++ routeOf t.url) dd t.url cf)) t.url).isSome = true
          rw [alookup_aset_self]
          rfl)))
    | none =>
      rw [hdisk] at hstep
      dsimp only at hstep
      cases hres : alookup s.results t.url with
      | some r =>
        rw [hres] at hstep
        dsimp only at hstep
        obtain rfl := Option.some.inj hstep
        exact inv_set_inert s i t _ hinv hg rfl holdNO holdNC rfl rfl
          (fun oid h => PC.noConfusion h) (fun oid h => PC.noConfusion h)
          (fun ret h => Or.inr (Or.inl (by
            show (alookup s.results t.url).isSome = true
            rw [hres]
            rfl)))
      | none =>
        rw [hres] at hstep
        dsimp only at hstep
        cases hpend : alookup s.pending t.url with
        | some oid =>
          rw [hpend] at hstep
          dsimp only at hstep
          obtain rfl := Option.some.inj hstep
          exact inv_set_inert s i t _ hinv hg rfl holdNO holdNC rfl rfl
            (fun o h => PC.noConfusion h)
            (fun o2 h => by
              have hinj : oid = o2 := PC.awaitAttach.inj h
              subst hinj
              obtain ⟨ot, hgo, hu2, ho2⟩ := hinv.pendValid t.url oid hpend
              exact ⟨ot, hgo, hu2, ho2⟩)
            (fun ret h => PC.noConfusion h)
        | none =>
          rw [hpend] at hstep
          dsimp only at hstep
          obtain rfl := Option.some.inj hstep
          refine inv_create_core s i t _ hinv hg hpc hres hpend ?_ ?_
          · by_cases hsd : s.shuttingDown = true
            · rw [if_pos hsd]
              rfl
            · rw [if_neg hsd]
              rfl
          · by_cases hsd : s.shuttingDown = true
            · rw [if_pos hsd]
              exact Or.inr ⟨_, rfl⟩
            · rw [if_neg hsd]
              exact Or.inl rfl

end ScraperProof

namespace ScraperProof

theorem inv_irrel (s sb : St) (hinv : Inv s)
    (ht : sb.tasks = s.tasks) (hp : sb.pending = s.pending)
    (hpr : sb.processedUrls = s.processedUrls) (hr : sb.results = s.results)
    (he : sb.everClaimed = s.everClaimed) (hn : sb.navLog = s.navLog) : Inv sb := by
  cases sb
  cases s
  dsimp only at ht hp hpr hr he hn
  subst ht hp hpr hr he hn
  exact { hinv with }

theorem inv_owner_settle (s : St) (i : Nat) (t : Task) (o : Outcome) (hinv : Inv s)
    (hg : s.tasks.get? i = some t) (hlive : isLiveOwner t.pc = true)
    (hnN : ¬ o = Outcome.resolvedNone)
    (hsome : ∀ r, o = .resolvedSome r → (alookup s.results t.url).isSome = true) :
    Inv { s with tasks := s.tasks.set i { t with pc := .ownerDone o }, time := s.time + 1 } := by
  have hilen : i < s.tasks.length := tget_lt hg
  have hpendi : alookup s.pending t.url = some i := hinv.own i t hg hlive
  have hself : (s.tasks.set i { t with pc := .ownerDone o }).get? i
      = some { t with pc := .ownerDone o } := tget_set_self _ hilen
  have hkeep : ∀ j : Nat, j ≠ i →
      (s.tasks.set i { t with pc := .ownerDone o }).get? j = s.tasks.get? j :=
    fun j hj => tget_set_other _ (fun hh => hj hh.symm)
  refine { pendValid := ?_, own := ?_, navBound := hinv.navBound, navReg := ?_, preNav := ?_,
           navFlag := ?_, claimFlag := ?_, noNone := ?_, someStored := ?_, rejLink := ?_,
           claimedInv := ?_, processedInv := ?_, creatorPend := ?_, creatorUnique := ?_,
           attValid := ?_, visitStored := ?_, pendNodup := hinv.pendNodup,
           resNodup := hinv.resNodup, evClNodup := hinv.evClNodup }
  · intro u oid hp
    obtain ⟨t2, hgt2, hu2, ho2⟩ := hinv.pendValid u oid hp
    by_cases hoi : oid = i
    · subst hoi
      rw [hg] at hgt2
      obtain rfl := Option.some.inj hgt2
      exact ⟨_, hself, hu2, rfl⟩
    · exact ⟨t2, by rw [hkeep oid hoi]; exact hgt2, hu2, ho2⟩
  · intro j tj hgt hl
    rcases tget_set_cases hgt with ⟨hji, hteq⟩ | ⟨hjne, hold⟩
    · subst hteq
      exact Bool.noConfusion hl
    · exact hinv.own j tj hold hl
  · intro u h1
    rcases hinv.navReg u h1 with h | ⟨oid, t2, hp, hgt2, hnav⟩
    · exact Or.inl h
    · by_cases hoi : oid = i
      · subst hoi
        rw [hg] at hgt2
        obtain rfl := Option.some.inj hgt2
        exact Or.inr ⟨oid, _, hp, hself, hnav⟩
      · exact Or.inr ⟨oid, t2, hp, by rw [hkeep oid hoi]; exact hgt2, hnav⟩
  · intro j tj hgt hl
    rcases tget_set_cases hgt with ⟨hji, hteq⟩ | ⟨hjne, hold⟩
    · subst hteq
      exact Bool.noConfusion hl
    · exact hinv.preNav j tj hold hl
  · intro j tj hgt
    rcases tget_set_cases hgt with ⟨hji, hteq⟩ | ⟨hjne, hold⟩
    · subst hteq
      constructor
      · rintro (h | h | h) <;> exact PC.noConfusion h
      · intro h
        exact PC.noConfusion h
    · exact hinv.navFlag j tj hold
  · intro j tj hgt hor
    rcases tget_set_cases hgt with ⟨hji, hteq⟩ | ⟨hjne, hold⟩
    · subst hteq
      rcases hor with h | h <;> exact PC.noConfusion h
    · exact hinv.claimFlag j tj hold hor
  · intro j tj hgt h
    rcases tget_set_cases hgt with ⟨hji, hteq⟩ | ⟨hjne, hold⟩
    · subst hteq
      exact hnN (PC.ownerDone.inj h)
    · exact hinv.noNone j tj hold h
  · intro j tj r hgt hpc2
    rcases tget_set_cases hgt with ⟨hji, hteq⟩ | ⟨hjne, hold⟩
    · subst hteq
      exact hsome r (PC.ownerDone.inj hpc2)
    · exact hinv.someStored j tj r hold hpc2
  · intro j tj m hgt hpc2
    rcases tget_set_cases hgt with ⟨hji, hteq⟩ | ⟨hjne, hold⟩
    · subst hteq
      refine Or.inr ?_
      show (alookup s.pending t.url).isSome = true
      rw [hpendi]
      rfl
    · exact hinv.rejLink j tj m hold hpc2
  · intro u hm
    rcases hinv.claimedInv u hm with h | ⟨oid, t2, hp, hgt2, hcl⟩
    · exact Or.inl h
    · by_cases hoi : oid = i
      · subst hoi
        rw [hg] at hgt2
        obtain rfl := Option.some.inj hgt2
        exact Or.inr ⟨oid, _, hp, hself, hcl⟩
      · exact Or.inr ⟨oid, t2, hp, by rw [hkeep oid hoi]; exact hgt2, hcl⟩
  · intro u hm
    rcases hinv.processedInv u hm with h | ⟨oid, t2, hp, hgt2, hcl⟩
    · exact Or.inl h
    · by_cases hoi : oid = i
      · subst hoi
        rw [hg] at hgt2
        obtain rfl := Option.some.inj hgt2
        exact Or.inr ⟨oid, _, hp, hself, hcl⟩
      · exact Or.inr ⟨oid, t2, hp, by rw [hkeep oid hoi]; exact hgt2, hcl⟩
  · intro c tc oid hgt hpc2
    rcases tget_set_cases hgt with ⟨hji, hteq⟩ | ⟨hjne, hold⟩
    · subst hteq
      exact PC.noConfusion hpc2
    · exact hinv.creatorPend c tc oid hold hpc2
  · intro c1 c2 t1 t2 oid1 oid2 hg1 hg2 hpc1 hpc2 hu
    rcases tget_set_cases hg1 with ⟨hji1, hteq1⟩ | ⟨hjne1, hold1⟩
    · subst hteq1
      exact PC.noConfusion hpc1
    · rcases tget_set_cases hg2 with ⟨hji2, hteq2⟩ | ⟨hjne2, hold2⟩
      · subst hteq2
        exact PC.noConfusion hpc2
      · exact hinv.creatorUnique c1 c2 t1 t2 oid1 oid2 hold1 hold2 hpc1 hpc2 hu
  · intro a ta oid hgt hpc2
    rcases tget_set_cases hgt with ⟨hji, hteq⟩ | ⟨hjne, hold⟩
    · subst hteq
      exact PC.noConfusion hpc2
    · obtain ⟨ot, hgo, hu2, ho2⟩ := hinv.attValid a ta oid hold hpc2
      by_cases hoi : oid = i
      · subst hoi
        rw [hg] at hgo
        obtain rfl := Option.some.inj hgo
        exact ⟨_, hself, hu2, rfl⟩
      · exact ⟨ot, by rw [hkeep oid hoi]; exact hgo, hu2, ho2⟩
  · intro j tj ret hgt hpc2
    rcases tget_set_cases hgt with ⟨hji, hteq⟩ | ⟨hjne, hold⟩
    · subst hteq
      exact PC.noConfusion hpc2
    · exact hinv.visitStored j tj ret hold hpc2

end ScraperProof

namespace ScraperProof

theorem inv_claim (s : St) (i : Nat) (t : Task) (hinv : Inv s)
    (hg : s.tasks.get? i = some t) (hpc : t.pc = .piSemWait) :
    Inv { s with
      tasks := s.tasks.set i { t with pc := .piGetPage, hasClaimed := true },
      permits := s.permits - 1,
      processedUrls := sinsert s.processedUrls t.url,
      everClaimed := sinsert s.everClaimed t.url,
      time := s.time + 1 } := by
  have hilen : i < s.tasks.length := tget_lt hg
  have hlive : isLiveOwner t.pc = true := by rw [hpc]; rfl
  have hpendi : alookup s.pending t.url = some i := hinv.own i t hg hlive
  have hnavf : t.navigated = false := (hinv.navFlag i t hg).1 (Or.inr (Or.inl hpc))
  have hself : (s.tasks.set i { t with pc := .piGetPage, hasClaimed := true }).get? i
      = some { t with pc := .piGetPage, hasClaimed := true } := tget_set_self _ hilen
  have hkeep : ∀ j : Nat, j ≠ i →
      (s.tasks.set i { t with pc := .piGetPage, hasClaimed := true }).get? j = s.tasks.get? j :=
    fun j hj => tget_set_other _ (fun hh => hj hh.symm)
  refine { pendValid := ?_, own := ?_, navBound := hinv.navBound, navReg := ?_, preNav := ?_,
           navFlag := ?_, claimFlag := ?_, noNone := ?_, someStored := ?_, rejLink := ?_,
           claimedInv := ?_, processedInv := ?_, creatorPend := ?_, creatorUnique := ?_,
           attValid := ?_, visitStored := ?_, pendNodup := hinv.pendNodup,
           resNodup := hinv.resNodup, evClNodup := sinsert_nodup _ hinv.evClNodup }
  · intro u oid hp
    obtain ⟨t2, hgt2, hu2, ho2⟩ := hinv.pendValid u oid hp
    by_cases hoi : oid = i
    · subst hoi
      rw [hg] at hgt2
      obtain rfl := Option.some.inj hgt2
      exact ⟨_, hself, hu2, rfl⟩
    · exact ⟨t2, by rw [hkeep oid hoi]; exact hgt2, hu2, ho2⟩
  · intro j tj hgt hl
    rcases tget_set_cases hgt with ⟨hji, hteq⟩ | ⟨hjne, hold⟩
    · subst hteq
      subst hji
      exact hpendi
    · exact hinv.own j tj hold hl
  · intro u h1
    rcases hinv.navReg u h1 with h | ⟨oid, t2, hp, hgt2, hnav⟩
    · exact Or.inl h
    · by_cases hoi : oid = i
      · subst hoi
        rw [hg] at hgt2
        obtain rfl := Option.some.inj hgt2
        exact Or.inr ⟨oid, _, hp, hself, hnav⟩
      · exact Or.inr ⟨oid, t2, hp, by rw [hkeep oid hoi]; exact hgt2, hnav⟩
  · intro j tj hgt hl hn
    rcases tget_set_cases hgt with ⟨hji, hteq⟩ | ⟨hjne, hold⟩
    · subst hteq
      exact hinv.preNav i t hg hlive hnavf
    · exact hinv.preNav j tj hold hl hn
  · intro j tj hgt
    rcases tget_set_cases hgt with ⟨hji, hteq⟩ | ⟨hjne, hold⟩
    · subst hteq
      constructor
      · intro _
        exact hnavf
      · intro h
        exact PC.noConfusion h
    · exact hinv.navFlag j tj hold
  · intro j tj hgt hor
    rcases tget_set_cases hgt with ⟨hji, hteq⟩ | ⟨hjne, hold⟩
    · subst hteq
      rcases hor with h | h <;> exact PC.noConfusion h
    · exact hinv.claimFlag j tj hold hor
  · intro j tj hgt h
    rcases tget_set_cases hgt with ⟨hji, hteq⟩ | ⟨hjne, hold⟩
    · subst hteq
      exact PC.noConfusion h
    · exact hinv.noNone j tj hold h
  · intro j tj r hgt hpc2
    rcases tget_set_cases hgt with ⟨hji, hteq⟩ | ⟨hjne, hold⟩
    · subst hteq
      exact PC.noConfusion hpc2
    · exact hinv.someStored j tj r hold hpc2
  · intro j tj m hgt hpc2
    rcases tget_set_cases hgt with ⟨hji, hteq⟩ | ⟨hjne, hold⟩
    · subst hteq
      exact PC.noConfusion hpc2
    · exact hinv.rejLink j tj m hold hpc2
  · intro u hm
    rcases mem_sinsert_iff.mp hm with rfl | hm2
    · refine Or.inr ⟨i, _, ?_, hself, rfl⟩
      exact hpendi
    · rcases hinv.claimedInv u hm2 with h | ⟨oid, t2, hp, hgt2, hcl⟩
      · exact Or.inl h
      · by_cases hoi : oid = i
        · subst hoi
          rw [hg] at hgt2
          obtain rfl := Option.some.inj hgt2
          exact Or.inr ⟨oid, _, hp, hself, rfl⟩
        · exact Or.inr ⟨oid, t2, hp, by rw [hkeep oid hoi]; exact hgt2, hcl⟩
  · intro u hm
    rcases mem_sinsert_iff.mp hm with rfl | hm2
    · refine Or.inr ⟨i, _, ?_, hself, rfl⟩
      exact hpendi
    · rcases hinv.processedInv u hm2 with h | ⟨oid, t2, hp, hgt2, hcl⟩
      · exact Or.inl h
      · by_cases hoi : oid = i
        · subst hoi
          rw [hg] at hgt2
          obtain rfl := Option.some.inj hgt2
          exact Or.inr ⟨oid, _, hp, hself, rfl⟩
        · exact Or.inr ⟨oid, t2, hp, by rw [hkeep oid hoi]; exact hgt2, hcl⟩
  · intro c tc oid hgt hpc2
    rcases tget_set_cases hgt with ⟨hji, hteq⟩ | ⟨hjne, hold⟩
    · subst hteq
      exact PC.noConfusion hpc2
    · exact hinv.creatorPend c tc oid hold hpc2
  · intro c1 c2 t1 t2 oid1 oid2 hg1 hg2 hpc1 hpc2 hu
    rcases tget_set_cases hg1 with ⟨hji1, hteq1⟩ | ⟨hjne1, hold1⟩
    · subst hteq1
      exact PC.noConfusion hpc1
    · rcases tget_set_cases hg2 with ⟨hji2, hteq2⟩ | ⟨hjne2, hold2⟩
      · subst hteq2
        exact PC.noConfusion hpc2
      · exact hinv.creatorUnique c1 c2 t1 t2 oid1 oid2 hold1 hold2 hpc1 hpc2 hu
  · intro a ta oid hgt hpc2
    rcases tget_set_cases hgt with ⟨hji, hteq⟩ | ⟨hjne, hold⟩
    · subst hteq
      exact PC.noConfusion hpc2
    · obtain ⟨ot, hgo, hu2, ho2⟩ := hinv.attValid a ta oid hold hpc2
      by_cases hoi : oid = i
      · subst hoi
        rw [hg] at hgo
        obtain rfl := Option.some.inj hgo
        exact ⟨_, hself, hu2, rfl⟩
      · exact ⟨ot, by rw [hkeep oid hoi]; exact hgo, hu2, ho2⟩
  · intro j tj ret hgt hpc2
    rcases tget_set_cases hgt with ⟨hji, hteq⟩ | ⟨hjne, hold⟩
    · subst hteq
      exact PC.noConfusion hpc2
    · rcases hinv.visitStored j tj ret hold hpc2 with h | h | h
      · exact Or.inl h
      · exact Or.inr (Or.inl h)
      · exact Or.inr (Or.inr h)

end ScraperProof

namespace ScraperProof

theorem processed_stored_of_unclaimed (s : St) (i : Nat) (t : Task) (hinv : Inv s)
    (hg : s.tasks.get? i = some t) (hlive : isLiveOwner t.pc = true)
    (hnc : t.hasClaimed = false)
    (hmem : s.processedUrls.contains t.url = true) :
    (alookup s.results t.url).isSome = true := by
  rcases hinv.processedInv t.url (List.elem_iff.mp hmem) with h | ⟨oid, t2, hp, hgt2, hcl⟩
  · exact h
  · have hpendi := hinv.own i t hg hlive
    rw [hpendi] at hp
    obtain rfl := Option.some.inj hp
    rw [hg] at hgt2
    obtain rfl := Option.some.inj hgt2
    rw [hnc] at hcl
    exact Bool.noConfusion hcl

theorem inv_to_semwait (s : St) (i : Nat) (t : Task) (hinv : Inv s)
    (hg : s.tasks.get? i = some t) (hpc : t.pc = .piRate) :
    Inv { s with
      tasks := s.tasks.set i { t with pc := .piSemWait },
      timeouts := sinsert s.timeouts t.url,
      time := s.time + 1 } := by
  have hilen : i < s.tasks.length := tget_lt hg
  have hlive : isLiveOwner t.pc = true := by rw [hpc]; rfl
  have hpendi : alookup s.pending t.url = some i := hinv.own i t hg hlive
  have hnavf : t.navigated = false := (hinv.navFlag i t hg).1 (Or.inl hpc)
  have hclf : t.hasClaimed = false := hinv.claimFlag i t hg (Or.inl hpc)
  have hself : (s.tasks.set i { t with pc := .piSemWait }).get? i
      = some { t with pc := .piSemWait } := tget_set_self _ hilen
  have hkeep : ∀ j : Nat, j ≠ i →
      (s.tasks.set i { t with pc := .piSemWait }).get? j = s.tasks.get? j :=
    fun j hj => tget_set_other _ (fun hh => hj hh.symm)
  refine { pendValid := ?_, own := ?_, navBound := hinv.navBound, navReg := ?_, preNav := ?_,
           navFlag := ?_, claimFlag := ?_, noNone := ?_, someStored := ?_, rejLink := ?_,
           claimedInv := ?_, processedInv := ?_, creatorPend := ?_, creatorUnique := ?_,
           attValid := ?_, visitStored := ?_, pendNodup := hinv.pendNodup,
           resNodup := hinv.resNodup, evClNodup := hinv.evClNodup }
  · intro u oid hp
    obtain ⟨t2, hgt2, hu2, ho2⟩ := hinv.pendValid u oid hp
    by_cases hoi : oid = i
    · subst hoi
      rw [hg] at hgt2
      obtain rfl := Option.some.inj hgt2
      exact ⟨_, hself, hu2, rfl⟩
    · exact ⟨t2, by rw [hkeep oid hoi]; exact hgt2, hu2, ho2⟩
  · intro j tj hgt hl
    rcases tget_set_cases hgt with ⟨hji, hteq⟩ | ⟨hjne, hold⟩
    · subst hteq
      subst hji
      exact hpendi
    · exact hinv.own j tj hold hl
  · intro u h1
    rcases hinv.navReg u h1 with h | ⟨oid, t2, hp, hgt2, hnav⟩
    · exact Or.inl h
    · by_cases hoi : oid = i
      · subst hoi
        rw [hg] at hgt2
        obtain rfl := Option.some.inj hgt2
        exact Or.inr ⟨oid, _, hp, hself, hnav⟩
      · exact Or.inr ⟨oid, t2, hp, by rw [hkeep oid hoi]; exact hgt2, hnav⟩
  · intro j tj hgt hl hn
    rcases tget_set_cases hgt with ⟨hji, hteq⟩ | ⟨hjne, hold⟩
    · subst hteq
      exact hinv.preNav i t hg hlive hnavf
    · exact hinv.preNav j tj hold hl hn
  · intro j tj hgt
    rcases tget_set_cases hgt with ⟨hji, hteq⟩ | ⟨hjne, hold⟩
    · subst hteq
      constructor
      · intro _
        exact hnavf
      · intro h
        exact PC.noConfusion h
    · exact hinv.navFlag j tj hold
  · intro j tj hgt hor
    rcases tget_set_cases hgt with ⟨hji, hteq⟩ | ⟨hjne, hold⟩
    · subst hteq
      exact hclf
    · exact hinv.claimFlag j tj hold hor
  · intro j tj hgt h
    rcases tget_set_cases hgt with ⟨hji, hteq⟩ | ⟨hjne, hold⟩
    · subst hteq
      exact PC.noConfusion h
    · exact hinv.noNone j tj hold h
  · intro j tj r hgt hpc2
    rcases tget_set_cases hgt with ⟨hji, hteq⟩ | ⟨hjne, hold⟩
    · subst hteq
      exact PC.noConfusion hpc2
    · exact hinv.someStored j tj r hold hpc2
  · intro j tj m hgt hpc2
    rcases tget_set_cases hgt with ⟨hji, hteq⟩ | ⟨hjne, hold⟩
    · subst hteq
      exact PC.noConfusion hpc2
    · exact hinv.rejLink j tj m hold hpc2
  · intro u hm
    rcases hinv.claimedInv u hm with h | ⟨oid, t2, hp, hgt2, hcl⟩
    · exact Or.inl h
    · by_cases hoi : oid = i
      · subst hoi
        rw [hg] at hgt2
        obtain rfl := Option.some.inj hgt2
        exact Or.inr ⟨oid, _, hp, hself, hcl⟩
      · exact Or.inr ⟨oid, t2, hp, by rw [hkeep oid hoi]; exact hgt2, hcl⟩
  · intro u hm
    rcases hinv.processedInv u hm with h | ⟨oid, t2, hp, hgt2, hcl⟩
    · exact Or.inl h
    · by_cases hoi : oid = i
      · subst hoi
        rw [hg] at hgt2
        obtain rfl := Option.some.inj hgt2
        exact Or.inr ⟨oid, _, hp, hself, hcl⟩
      · exact Or.inr ⟨oid, t2, hp, by rw [hkeep oid hoi]; exact hgt2, hcl⟩
  · intro c tc oid hgt hpc2
    rcases tget_set_cases hgt with ⟨hji, hteq⟩ | ⟨hjne, hold⟩
    · subst hteq
      exact PC.noConfusion hpc2
    · exact hinv.creatorPend c tc oid hold hpc2
  · intro c1 c2 t1 t2 oid1 oid2 hg1 hg2 hpc1 hpc2 hu
    rcases tget_set_cases hg1 with ⟨hji1, hteq1⟩ | ⟨hjne1, hold1⟩
    · subst hteq1
      exact PC.noConfusion hpc1
    · rcases tget_set_cases hg2 with ⟨hji2, hteq2⟩ | ⟨hjne2, hold2⟩
      · subst hteq2
        exact PC.noConfusion hpc2
      · exact hinv.creatorUnique c1 c2 t1 t2 oid1 oid2 hold1 hold2 hpc1 hpc2 hu
  · intro a ta oid hgt hpc2
    rcases tget_set_cases hgt with ⟨hji, hteq⟩ | ⟨hjne, hold⟩
    · subst hteq
      exact PC.noConfusion hpc2
    · obtain ⟨ot, hgo, hu2, ho2⟩ := hinv.attValid a ta oid hold hpc2
      by_cases hoi : oid = i
      · subst hoi
        rw [hg] at hgo
        obtain rfl := Option.some.inj hgo
        exact ⟨_, hself, hu2, rfl⟩
      · exact ⟨ot, by rw [hkeep oid hoi]; exact hgo, hu2, ho2⟩
  · intro j tj ret hgt hpc2
    rcases tget_set_cases hgt with ⟨hji, hteq⟩ | ⟨hjne, hold⟩
    · subst hteq
      exact PC.noConfusion hpc2
    · exact hinv.visitStored j tj ret hold hpc2

end ScraperProof

namespace ScraperProof

theorem inv_rate (cfg : Cfg) (s : St) (i : Nat) (s2 : St) (hinv : Inv s)
    (hstep : step cfg s (.rate i) = some s2) : Inv s2 := by
  simp only [step] at hstep
  cases hg : s.tasks.get? i with
  | none =>
    rw [hg] at hstep
    exact Option.noConfusion hstep
  | some t =>
    rw [hg] at hstep
    dsimp only at hstep
    by_cases hpc : t.pc = .piRate
    case neg =>
      rw [if_neg hpc] at hstep
      exact Option.noConfusion hstep
    rw [if_pos hpc] at hstep
    have hlive : isLiveOwner t.pc = true := by rw [hpc]; rfl
    by_cases hmem : s.processedUrls.contains t.url = true
    · rw [if_pos hmem] at hstep
      have hstored : (alookup s.results t.url).isSome = true :=
        processed_stored_of_unclaimed s i t hinv hg hlive
          (hinv.claimFlag i t hg (Or.inl hpc)) hmem
      cases hres : alookup s.results t.url with
      | none =>
        rw [hres] at hstored
        exact Bool.noConfusion hstored
      | some r =>
        rw [hres] at hstep
        dsimp only at hstep
        obtain rfl := Option.some.inj hstep
        exact inv_owner_settle s i t _ hinv hg hlive
          (fun hh => Outcome.noConfusion hh)
          (fun r2 hr2 => by rw [hres]; rfl)
    · rw [if_neg hmem] at hstep
      obtain rfl := Option.some.inj hstep
      exact inv_to_semwait s i t hinv hg hpc

theorem inv_acq (cfg : Cfg) (s : St) (i : Nat) (s2 : St) (hinv : Inv s)
    (hstep : step cfg s (.acq i) = some s2) : Inv s2 := by
  simp only [step] at hstep
  cases hg : s.tasks.get? i with
  | none =>
    rw [hg] at hstep
    exact Option.noConfusion hstep
  | some t =>
    rw [hg] at hstep
    dsimp only at hstep
    by_cases hguard : t.pc = .piSemWait ∧ 0 < s.permits
    case neg =>
      rw [if_neg hguard] at hstep
      exact Option.noConfusion hstep
    rw [if_pos hguard] at hstep
    obtain ⟨hpc, hperm⟩ := hguard
    have hlive : isLiveOwner t.pc = true := by rw [hpc]; rfl
    by_cases hmem : s.processedUrls.contains t.url = true
    · rw [if_pos hmem] at hstep
      have hstored : (alookup s.results t.url).isSome = true :=
        processed_stored_of_unclaimed s i t hinv hg hlive
          (hinv.claimFlag i t hg (Or.inr hpc)) hmem
      cases hres : alookup s.results t.url with
      | none =>
        rw [hres] at hstored
        exact Bool.noConfusion hstored
      | some r =>
        rw [hres] at hstep
        dsimp only at hstep
        obtain rfl := Option.some.inj hstep
        refine inv_irrel _ _ (inv_owner_settle s i t (.resolvedSome r) hinv hg hlive
          (fun hh => Outcome.noConfusion hh)
          (fun r2 hr2 => by rw [hres]; rfl)) rfl rfl rfl rfl rfl rfl
    · rw [if_neg hmem] at hstep
      obtain rfl := Option.some.inj hstep
      exact inv_claim s i t hinv hg hpc

end ScraperProof

namespace ScraperProof

theorem inv_navigate_core (cfg : Cfg) (s : St) (i : Nat) (t : Task) (hinv : Inv s)
    (hg : s.tasks.get? i = some t) (hpc : t.pc = .piGetPage) :
    Inv { s with
      tasks := s.tasks.set i { t with pc := .piNavPending, navigated := true },
      pool := if 0 < s.pool then s.pool - 1 else s.pool,
      openPages := if 0 < s.pool then s.openPages else s.openPages + 1,
      navLog := s.navLog ++ [t.url],
      time := s.time + 1 } := by
  have hilen : i < s.tasks.length := tget_lt hg
  have hlive : isLiveOwner t.pc = true := by rw [hpc]; rfl
  have hpendi : alookup s.pending t.url = some i := hinv.own i t hg hlive
  have hnavf : t.navigated = false := (hinv.navFlag i t hg).1 (Or.inr (Or.inr hpc))
  have hzero : s.navLog.count t.url = 0 := hinv.preNav i t hg hlive hnavf
  have hcnt : ∀ w, (s.navLog ++ [t.url]).count w
      = s.navLog.count w + (if w = t.url then 1 else 0) :=
    fun w => count_append_one s.navLog t.url w
  have hself : (s.tasks.set i { t with pc := .piNavPending, navigated := true }).get? i
      = some { t with pc := .piNavPending, navigated := true } := tget_set_self _ hilen
  have hkeep : ∀ j : Nat, j ≠ i →
      (s.tasks.set i { t with pc := .piNavPending, navigated := true }).get? j
        = s.tasks.get? j :=
    fun j hj => tget_set_other _ (fun hh => hj hh.symm)
  refine { pendValid := ?_, own := ?_, navBound := ?_, navReg := ?_, preNav := ?_,
           navFlag := ?_, claimFlag := ?_, noNone := ?_, someStored := ?_, rejLink := ?_,
           claimedInv := ?_, processedInv := ?_, creatorPend := ?_, creatorUnique := ?_,
           attValid := ?_, visitStored := ?_, pendNodup := hinv.pendNodup,
           resNodup := hinv.resNodup, evClNodup := hinv.evClNodup }
  · intro u oid hp
    obtain ⟨t2, hgt2, hu2, ho2⟩ := hinv.pendValid u oid hp
    by_cases hoi : oid = i
    · subst hoi
      rw [hg] at hgt2
      obtain rfl := Option.some.inj hgt2
      exact ⟨_, hself, hu2, rfl⟩
    · exact ⟨t2, by rw [hkeep oid hoi]; exact hgt2, hu2, ho2⟩
  · intro j tj hgt hl
    rcases tget_set_cases hgt with ⟨hji, hteq⟩ | ⟨hjne, hold⟩
    · subst hteq
      subst hji
      exact hpendi
    · exact hinv.own j tj hold hl
  · intro u
    show (s.navLog ++ [t.url]).count u ≤ 1
    rw [hcnt u]
    by_cases hu : u = t.url
    · rw [if_pos hu, hu, hzero]
    · rw [if_neg hu]
      have hb : s.navLog.count u ≤ 1 := hinv.navBound u
      omega
  · intro u h1
    by_cases hu : u = t.url
    · subst hu
      exact Or.inr ⟨i, _, hpendi, hself, rfl⟩
    · have h2 : 1 ≤ navCount s u := by
        have hh : (s.navLog ++ [t.url]).count u = s.navLog.count u := by
          rw [hcnt u, if_neg hu]
          exact Nat.add_zero _
        have h3 : 1 ≤ (s.navLog ++ [t.url]).count u := h1
        rw [hh] at h3
        exact h3
      rcases hinv.navReg u h2 with h | ⟨oid, t2, hp, hgt2, hnav⟩
      · exact Or.inl h
      · by_cases hoi : oid = i
        · subst hoi
          rw [hg] at hgt2
          obtain rfl := Option.some.inj hgt2
          exact Or.inr ⟨oid, _, hp, hself, rfl⟩
        · exact Or.inr ⟨oid, t2, hp, by rw [hkeep oid hoi]; exact hgt2, hnav⟩
  · intro j tj hgt hl hn
    rcases tget_set_cases hgt with ⟨hji, hteq⟩ | ⟨hjne, hold⟩
    · subst hteq
      exact Bool.noConfusion hn
    · have hz := hinv.preNav j tj hold hl hn
      show (s.navLog ++ [t.url]).count tj.url = 0
      have hne : tj.url ≠ t.url := by
        intro hh
        have ho2 := hinv.own j tj hold hl
        rw [hh, hpendi] at ho2
        exact hjne (Option.some.inj ho2).symm
      have hz2 : List.count tj.url s.navLog = 0 := hz
      rw [hcnt tj.url, if_neg hne, hz2]
  · intro j tj hgt
    rcases tget_set_cases hgt with ⟨hji, hteq⟩ | ⟨hjne, hold⟩
    · subst hteq
      constructor
      · rintro (h | h | h) <;> exact PC.noConfusion h
      · intro _
        rfl
    · exact hinv.navFlag j tj hold
  · intro j tj hgt hor
    rcases tget_set_cases hgt with ⟨hji, hteq⟩ | ⟨hjne, hold⟩
    · subst hteq
      rcases hor with h | h <;> exact PC.noConfusion h
    · exact hinv.claimFlag j tj hold hor
  · intro j tj hgt h
    rcases tget_set_cases hgt with ⟨hji, hteq⟩ | ⟨hjne, hold⟩
    · subst hteq
      exact PC.noConfusion h
    · exact hinv.noNone j tj hold h
  · intro j tj r hgt hpc2
    rcases tget_set_cases hgt with ⟨hji, hteq⟩ | ⟨hjne, hold⟩
    · subst hteq
      exact PC.noConfusion hpc2
    · exact hinv.someStored j tj r hold hpc2
  · intro j tj m hgt hpc2
    rcases tget_set_cases hgt with ⟨hji, hteq⟩ | ⟨hjne, hold⟩
    · subst hteq
      exact PC.noConfusion hpc2
    · exact hinv.rejLink j tj m hold hpc2
  · intro u hm
    rcases hinv.claimedInv u hm with h | ⟨oid, t2, hp, hgt2, hcl⟩
    · exact Or.inl h
    · by_cases hoi : oid = i
      · subst hoi
        rw [hg] at hgt2
        obtain rfl := Option.some.inj hgt2
        exact Or.inr ⟨oid, _, hp, hself, hcl⟩
      · exact Or.inr ⟨oid, t2, hp, by rw [hkeep oid hoi]; exact hgt2, hcl⟩
  · intro u hm
    rcases hinv.processedInv u hm with h | ⟨oid, t2, hp, hgt2, hcl⟩
    · exact Or.inl h
    · by_cases hoi : oid = i
      · subst hoi
        rw [hg] at hgt2
        obtain rfl := Option.some.inj hgt2
        exact Or.inr ⟨oid, _, hp, hself, hcl⟩
      · exact Or.inr ⟨oid, t2, hp, by rw [hkeep oid hoi]; exact hgt2, hcl⟩
  · intro c tc oid hgt hpc2
    rcases tget_set_cases hgt with ⟨hji, hteq⟩ | ⟨hjne, hold⟩
    · subst hteq
      exact PC.noConfusion hpc2
    · exact hinv.creatorPend c tc oid hold hpc2
  · intro c1 c2 t1 t2 oid1 oid2 hg1 hg2 hpc1 hpc2 hu
    rcases tget_set_cases hg1 with ⟨hji1, hteq1⟩ | ⟨hjne1, hold1⟩
    · subst hteq1
      exact PC.noConfusion hpc1
    · rcases tget_set_cases hg2 with ⟨hji2, hteq2⟩ | ⟨hjne2, hold2⟩
      · subst hteq2
        exact PC.noConfusion hpc2
      · exact hinv.creatorUnique c1 c2 t1 t2 oid1 oid2 hold1 hold2 hpc1 hpc2 hu
  · intro a ta oid hgt hpc2
    rcases tget_set_cases hgt with ⟨hji, hteq⟩ | ⟨hjne, hold⟩
    · subst hteq
      exact PC.noConfusion hpc2
    · obtain ⟨ot, hgo, hu2, ho2⟩ := hinv.attValid a ta oid hold hpc2
      by_cases hoi : oid = i
      · subst hoi
        rw [hg] at hgo
        obtain rfl := Option.some.inj hgo
        exact ⟨_, hself, hu2, rfl⟩
      · exact ⟨ot, by rw [hkeep oid hoi]; exact hgo, hu2, ho2⟩
  · intro j tj ret hgt hpc2
    rcases tget_set_cases hgt with ⟨hji, hteq⟩ | ⟨hjne, hold⟩
    · subst hteq
      exact PC.noConfusion hpc2
    · exact hinv.visitStored j tj ret hold hpc2

theorem inv_navigate (cfg : Cfg) (s : St) (i : Nat) (s2 : St) (hinv : Inv s)
    (hstep : step cfg s (.navigate i) = some s2) : Inv s2 := by
  simp only [step] at hstep
  cases hg : s.tasks.get? i with
  | none =>
    rw [hg] at hstep
    exact Option.noConfusion hstep
  | some t =>
    rw [hg] at hstep
    dsimp only at hstep
    by_cases hpc : t.pc = .piGetPage
    case neg =>
      rw [if_neg hpc] at hstep
      exact Option.noConfusion hstep
    rw [if_pos hpc] at hstep
    obtain rfl := Option.some.inj hstep
    exact inv_navigate_core cfg s i t hinv hg hpc

end ScraperProof

namespace ScraperProof

theorem inv_processed_shrink (s : St) (u : String) (hinv : Inv s) :
    Inv { s with processedUrls := serase s.processedUrls u } := by
  refine { pendValid := hinv.pendValid, own := hinv.own, navBound := hinv.navBound,
           navReg := hinv.navReg, preNav := hinv.preNav, navFlag := hinv.navFlag,
           claimFlag := hinv.claimFlag, noNone := hinv.noNone, someStored := hinv.someStored,
           rejLink := hinv.rejLink, claimedInv := hinv.claimedInv, processedInv := ?_,
           creatorPend := hinv.creatorPend, creatorUnique := hinv.creatorUnique,
           attValid := hinv.attValid, visitStored := hinv.visitStored,
           pendNodup := hinv.pendNodup, resNodup := hinv.resNodup,
           evClNodup := hinv.evClNodup }
  intro w hm
  exact hinv.processedInv w (mem_serase hm)

theorem inv_navFail (cfg : Cfg) (s : St) (i : Nat) (msg : String) (s2 : St) (hinv : Inv s)
    (hstep : step cfg s (.navFail i msg) = some s2) : Inv s2 := by
  simp only [step] at hstep
  cases hg : s.tasks.get? i with
  | none =>
    rw [hg] at hstep
    exact Option.noConfusion hstep
  | some t =>
    rw [hg] at hstep
    dsimp only at hstep
    by_cases hpc : t.pc = .piNavPending
    case neg =>
      rw [if_neg hpc] at hstep
      exact Option.noConfusion hstep
    rw [if_pos hpc] at hstep
    obtain rfl := Option.some.inj hstep
    have hlive : isLiveOwner t.pc = true := by rw [hpc]; rfl
    exact inv_irrel _ _ (inv_processed_shrink _ t.url
      (inv_owner_settle s i t (.rejected msg) hinv hg hlive
        (fun hh => Outcome.noConfusion hh)
        (fun r2 hr2 => Outcome.noConfusion hr2))) rfl rfl rfl rfl rfl rfl

theorem inv_finish_core (s : St) (i : Nat) (t : Task) (r : PageResult) (hinv : Inv s)
    (hg : s.tasks.get? i = some t) (hlive : isLiveOwner t.pc = true) :
    Inv { s with
      tasks := s.tasks.set i { t with pc := .ownerDone (.resolvedSome r) },
      results := aset s.results t.url r,
      time := s.time + 1 } := by
  have hmid : Inv { s with results := aset s.results t.url r } :=
    inv_results_aset s t.url r hinv
  exact inv_irrel _ _ (inv_owner_settle { s with results := aset s.results t.url r } i t
    (.resolvedSome r) hmid hg hlive
    (fun hh => Outcome.noConfusion hh)
    (fun r2 hr2 => by
      show (alookup (aset s.results t.url r) t.url).isSome = true
      rw [alookup_aset_self]
      rfl)) rfl rfl rfl rfl rfl rfl

theorem inv_finishOk (cfg : Cfg) (s : St) (i : Nat) (s2 : St) (hinv : Inv s)
    (hstep : step cfg s (.finishOk i) = some s2) : Inv s2 := by
  simp only [step] at hstep
  cases hg : s.tasks.get? i with
  | none =>
    rw [hg] at hstep
    exact Option.noConfusion hstep
  | some t =>
    rw [hg] at hstep
    dsimp only at hstep
    by_cases hpc : t.pc = .piNavPending
    case neg =>
      rw [if_neg hpc] at hstep
      exact Option.noConfusion hstep
    rw [if_pos hpc] at hstep
    obtain rfl := Option.some.inj hstep
    have hlive : isLiveOwner t.pc = true := by rw [hpc]; rfl
    exact inv_irrel _ _ (inv_finish_core s i t _ hinv hg hlive) rfl rfl rfl rfl rfl rfl

theorem inv_finishContentErr (cfg : Cfg) (s : St) (i : Nat) (msg : String) (s2 : St)
    (hinv : Inv s)
    (hstep : step cfg s (.finishContentErr i msg) = some s2) : Inv s2 := by
  simp only [step] at hstep
  cases hg : s.tasks.get? i with
  | none =>
    rw [hg] at hstep
    exact Option.noConfusion hstep
  | some t =>
    rw [hg] at hstep
    dsimp only at hstep
    by_cases hpc : t.pc = .piNavPending
    case neg =>
      rw [if_neg hpc] at hstep
      exact Option.noConfusion hstep
    rw [if_pos hpc] at hstep
    obtain rfl := Option.some.inj hstep
    have hlive : isLiveOwner t.pc = true := by rw [hpc]; rfl
    exact inv_irrel _ _ (inv_finish_core s i t _ hinv hg hlive) rfl rfl rfl rfl rfl rfl

end ScraperProof

namespace ScraperProof

theorem inv_creator_settle (s : St) (i oid : Nat) (t ot : Task) (r : PageResult)
    (hinv : Inv s)
    (hg : s.tasks.get? i = some t) (hpc : t.pc = .awaitOwn oid)
    (hgo : s.tasks.get? oid = some ot) (hnl : isLiveOwner ot.pc = false) :
    Inv { s with
      tasks := s.tasks.set i { t with pc := .visitDone (.val r) },
      results := aset s.results t.url r,
      pending := aerase s.pending t.url,
      time := s.time + 1 } := by
  have hilen : i < s.tasks.length := tget_lt hg
  have hpendc : alookup s.pending t.url = some oid := hinv.creatorPend i t oid hg hpc
  have hpendne : ∀ w o2, alookup s.pending w = some o2 → o2 ≠ i := by
    intro w o2 hp hoi
    subst hoi
    obtain ⟨t2, hgt2, _, hpc2⟩ := hinv.pendValid w o2 hp
    rw [hg] at hgt2
    obtain rfl := Option.some.inj hgt2
    rw [hpc] at hpc2
    exact Bool.noConfusion hpc2
  have hnews : alookup (aset s.results t.url r) t.url = some r := alookup_aset_self _ _ _
  have hperase : ∀ w, w ≠ t.url →
      alookup (aerase s.pending t.url) w = alookup s.pending w :=
    fun w hw => alookup_aerase_ne _ _ _ hw
  have hpnone : alookup (aerase s.pending t.url) t.url = none :=
    alookup_aerase_self _ _ hinv.pendNodup
  have hself : (s.tasks.set i { t with pc := .visitDone (.val r) }).get? i
      = some { t with pc := .visitDone (.val r) } := tget_set_self _ hilen
  have hkeep : ∀ j : Nat, j ≠ i →
      (s.tasks.set i { t with pc := .visitDone (.val r) }).get? j = s.tasks.get? j :=
    fun j hj => tget_set_other _ (fun hh => hj hh.symm)
  refine { pendValid := ?_, own := ?_, navBound := hinv.navBound, navReg := ?_, preNav := ?_,
           navFlag := ?_, claimFlag := ?_, noNone := ?_, someStored := ?_, rejLink := ?_,
           claimedInv := ?_, processedInv := ?_, creatorPend := ?_, creatorUnique := ?_,
           attValid := ?_, visitStored := ?_,
           pendNodup := akeys_nodup_aerase _ hinv.pendNodup,
           resNodup := akeys_nodup_aset _ _ hinv.resNodup,
           evClNodup := hinv.evClNodup }
  · intro u o2 hp
    by_cases hu : u = t.url
    · subst hu
      rw [hpnone] at hp
      exact Option.noConfusion hp
    · rw [hperase u hu] at hp
      obtain ⟨t2, hgt2, hu2, ho2⟩ := hinv.pendValid u o2 hp
      exact ⟨t2, by rw [hkeep o2 (hpendne u o2 hp)]; exact hgt2, hu2, ho2⟩
  · intro j tj hgt hl
    rcases tget_set_cases hgt with ⟨hji, hteq⟩ | ⟨hjne, hold⟩
    · subst hteq
      exact Bool.noConfusion hl
    · have ho := hinv.own j tj hold hl
      by_cases hu : tj.url = t.url
      · exfalso
        rw [hu, hpendc] at ho
        obtain rfl := Option.some.inj ho
        rw [hgo] at hold
        obtain rfl := Option.some.inj hold
        rw [hl] at hnl
        exact Bool.noConfusion hnl
      · rw [hperase tj.url hu]
        exact ho
  · intro u h1
    rcases hinv.navReg u h1 with h | ⟨o2, t2, hp, hgt2, hnav⟩
    · exact Or.inl (aset_isSome_mono _ _ h)
    · by_cases hu : u = t.url
      · subst hu
        refine Or.inl ?_
        show (alookup (aset s.results t.url r) t.url).isSome = true
        rw [hnews]
        rfl
      · refine Or.inr ⟨o2, t2, ?_, by rw [hkeep o2 (hpendne u o2 hp)]; exact hgt2, hnav⟩
        rw [hperase u hu]
        exact hp
  · intro j tj hgt hl hn
    rcases tget_set_cases hgt with ⟨hji, hteq⟩ | ⟨hjne, hold⟩
    · subst hteq
      exact Bool.noConfusion hl
    · exact hinv.preNav j tj hold hl hn
  · intro j tj hgt
    rcases tget_set_cases hgt with ⟨hji, hteq⟩ | ⟨hjne, hold⟩
    · subst hteq
      constructor
      · rintro (h | h | h) <;> exact PC.noConfusion h
      · intro h
        exact PC.noConfusion h
    · exact hinv.navFlag j tj hold
  · intro j tj hgt hor
    rcases tget_set_cases hgt with ⟨hji, hteq⟩ | ⟨hjne, hold⟩
    · subst hteq
      rcases hor with h | h <;> exact PC.noConfusion h
    · exact hinv.claimFlag j tj hold hor
  · intro j tj hgt h
    rcases tget_set_cases hgt with ⟨hji, hteq⟩ | ⟨hjne, hold⟩
    · subst hteq
      exact PC.noConfusion h
    · exact hinv.noNone j tj hold h
  · intro j tj r2 hgt hpc2
    rcases tget_set_cases hgt with ⟨hji, hteq⟩ | ⟨hjne, hold⟩
    · subst hteq
      exact PC.noConfusion hpc2
    · exact aset_isSome_mono _ _ (hinv.someStored j tj r2 hold hpc2)
  · intro j tj m hgt hpc2
    rcases tget_set_cases hgt with ⟨hji, hteq⟩ | ⟨hjne, hold⟩
    · subst hteq
      exact PC.noConfusion hpc2
    · rcases hinv.rejLink j tj m hold hpc2 with h | h
      · exact Or.inl (aset_isSome_mono _ _ h)
      · by_cases hu : tj.url = t.url
        · refine Or.inl ?_
          rw [hu]
          show (alookup (aset s.results t.url r) t.url).isSome = true
          rw [hnews]
          rfl
        · refine Or.inr ?_
          rw [hperase tj.url hu]
          exact h
  · intro u hm
    rcases hinv.claimedInv u hm with h | ⟨o2, t2, hp, hgt2, hcl⟩
    · exact Or.inl (aset_isSome_mono _ _ h)
    · by_cases hu : u = t.url
      · subst hu
        refine Or.inl ?_
        show (alookup (aset s.results t.url r) t.url).isSome = true
        rw [hnews]
        rfl
      · refine Or.inr ⟨o2, t2, ?_, by rw [hkeep o2 (hpendne u o2 hp)]; exact hgt2, hcl⟩
        rw [hperase u hu]
        exact hp
  · intro u hm
    rcases hinv.processedInv u hm with h | ⟨o2, t2, hp, hgt2, hcl⟩
    · exact Or.inl (aset_isSome_mono _ _ h)
    · by_cases hu : u = t.url
      · subst hu
        refine Or.inl ?_
        show (alookup (aset s.results t.url r) t.url).isSome = true
        rw [hnews]
        rfl
      · refine Or.inr ⟨o2, t2, ?_, by rw [hkeep o2 (hpendne u o2 hp)]; exact hgt2, hcl⟩
        rw [hperase u hu]
        exact hp
  · intro c tc o2 hgt hpc2
    rcases tget_set_cases hgt with ⟨hji, hteq⟩ | ⟨hjne, hold⟩
    · subst hteq
      exact PC.noConfusion hpc2
    · have hpd := hinv.creatorPend c tc o2 hold hpc2
      by_cases hu : tc.url = t.url
      · exfalso
        exact hjne (hinv.creatorUnique c i tc t o2 oid hold hg hpc2 hpc hu)
      · rw [hperase tc.url hu]
        exact hpd
  · intro c1 c2 t1 t2 oid1 oid2 hg1 hg2 hpc1 hpc2 hu
    rcases tget_set_cases hg1 with ⟨hji1, hteq1⟩ | ⟨hjne1, hold1⟩
    · subst hteq1
      exact PC.noConfusion hpc1
    · rcases tget_set_cases hg2 with ⟨hji2, hteq2⟩ | ⟨hjne2, hold2⟩
      · subst hteq2
        exact PC.noConfusion hpc2
      · exact hinv.creatorUnique c1 c2 t1 t2 oid1 oid2 hold1 hold2 hpc1 hpc2 hu
  · intro a ta o2 hgt hpc2
    rcases tget_set_cases hgt with ⟨hji, hteq⟩ | ⟨hjne, hold⟩
    · subst hteq
      exact PC.noConfusion hpc2
    · obtain ⟨ot2, hgo2, hu2, ho2⟩ := hinv.attValid a ta o2 hold hpc2
      have hone : o2 ≠ i := by
        intro hh
        rw [hh, hg] at hgo2
        obtain rfl := Option.some.inj hgo2
        rw [hpc] at ho2
        exact Bool.noConfusion ho2
      exact ⟨ot2, by rw [hkeep o2 hone]; exact hgo2, hu2, ho2⟩
  · intro j tj ret hgt hpc2
    rcases tget_set_cases hgt with ⟨hji, hteq⟩ | ⟨hjne, hold⟩
    · subst hteq
      refine Or.inr (Or.inl ?_)
      show (alookup (aset s.results t.url r) t.url).isSome = true
      rw [hnews]
      rfl
    · rcases hinv.visitStored j tj ret hold hpc2 with h | h | h
      · exact Or.inl h
      · exact Or.inr (Or.inl (aset_isSome_mono _ _ h))
      · by_cases hu : tj.url = t.url
        · refine Or.inr (Or.inl ?_)
          rw [hu]
          show (alookup (aset s.results t.url r) t.url).isSome = true
          rw [hnews]
          rfl
        · refine Or.inr (Or.inr ?_)
          rw [hperase tj.url hu]
          exact h

end ScraperProof

namespace ScraperProof

theorem inv_settleC (cfg : Cfg) (s : St) (i : Nat) (s2 : St) (hinv : Inv s)
    (hstep : step cfg s (.settleC i) = some s2) : Inv s2 := by
  simp only [step] at hstep
  cases hg : s.tasks.get? i with
  | none =>
    rw [hg] at hstep
    exact Option.noConfusion hstep
  | some t =>
    rw [hg] at hstep
    dsimp only at hstep
    cases hpc : t.pc with
    | awaitOwn oid =>
      rw [hpc] at hstep
      dsimp only at hstep
      cases hgo : s.tasks.get? oid with
      | none =>
        rw [hgo] at hstep
        exact Option.noConfusion hstep
      | some ot =>
        rw [hgo] at hstep
        dsimp only at hstep
        cases hoc : ot.pc with
        | ownerDone o =>
          rw [hoc] at hstep
          dsimp only at hstep
          have hnl : isLiveOwner ot.pc = false := by rw [hoc]; rfl
          cases ho2 : o with
          | resolvedSome r =>
            rw [ho2] at hstep
            dsimp only at hstep
            obtain rfl := Option.some.inj hstep
            exact inv_creator_settle s i oid t ot r hinv hg hpc hgo hnl
          | resolvedNone =>
            exfalso
            rw [ho2] at hoc
            exact hinv.noNone oid ot hgo hoc
          | rejected m =>
            rw [ho2] at hstep
            dsimp only at hstep
            obtain rfl := Option.some.inj hstep
            exact inv_creator_settle s i oid t ot _ hinv hg hpc hgo hnl
        | piRate =>
          rw [hoc] at hstep
          exact Option.noConfusion hstep
        | piSemWait =>
          rw [hoc] at hstep
          exact Option.noConfusion hstep
        | piGetPage =>
          rw [hoc] at hstep
          exact Option.noConfusion hstep
        | piNavPending =>
          rw [hoc] at hstep
          exact Option.noConfusion hstep
        | psStart =>
          rw [hoc] at hstep
          exact Option.noConfusion hstep
        | psDisk =>
          rw [hoc] at hstep
          exact Option.noConfusion hstep
        | awaitOwn o3 =>
          rw [hoc] at hstep
          exact Option.noConfusion hstep
        | awaitAttach o3 =>
          rw [hoc] at hstep
          exact Option.noConfusion hstep
        | visitDone ret =>
          rw [hoc] at hstep
          exact Option.noConfusion hstep
    | psStart =>
      rw [hpc] at hstep
      exact Option.noConfusion hstep
    | psDisk =>
      rw [hpc] at hstep
      exact Option.noConfusion hstep
    | piRate =>
      rw [hpc] at hstep
      exact Option.noConfusion hstep
    | piSemWait =>
      rw [hpc] at hstep
      exact Option.noConfusion hstep
    | piGetPage =>
      rw [hpc] at hstep
      exact Option.noConfusion hstep
    | piNavPending =>
      rw [hpc] at hstep
      exact Option.noConfusion hstep
    | ownerDone o =>
      rw [hpc] at hstep
      exact Option.noConfusion hstep
    | awaitAttach o =>
      rw [hpc] at hstep
      exact Option.noConfusion hstep
    | visitDone ret =>
      rw [hpc] at hstep
      exact Option.noConfusion hstep

end ScraperProof

namespace ScraperProof

theorem inv_step (cfg : Cfg) (s : St) (a : Act) (s2 : St) (hinv : Inv s)
    (hne : ∀ u, ¬ a = Act.evict u)
    (hstep : step cfg s a = some s2) : Inv s2 := by
  cases a with
  | spawn u d => exact inv_spawn cfg s u d s2 hinv hstep
  | entry i => exact inv_entry cfg s i s2 hinv hstep
  | diskStep i => exact inv_diskStep cfg s i s2 hinv hstep
  | rate i => exact inv_rate cfg s i s2 hinv hstep
  | acq i => exact inv_acq cfg s i s2 hinv hstep
  | navigate i => exact inv_navigate cfg s i s2 hinv hstep
  | navFail i msg => exact inv_navFail cfg s i msg s2 hinv hstep
  | finishOk i => exact inv_finishOk cfg s i s2 hinv hstep
  | finishContentErr i msg => exact inv_finishContentErr cfg s i msg s2 hinv hstep
  | settleC i => exact inv_settleC cfg s i s2 hinv hstep
  | settleA i => exact inv_settleA cfg s i s2 hinv hstep
  | fireTimeout u => exact inv_fireTimeout cfg s u s2 hinv hstep
  | shutdown => exact inv_shutdown cfg s s2 hinv hstep
  | evict u => exact absurd rfl (hne u)

theorem inv_run (cfg : Cfg) (acts : List Act) (s : St) (hinv : Inv s)
    (hne : ∀ u, Act.evict u ∉ acts) : Inv (run cfg s acts) := by
  induction acts generalizing s with
  | nil => exact hinv
  | cons a rest ih =>
    have hne1 : ∀ u, ¬ a = Act.evict u :=
      fun u hh => hne u (hh ▸ List.mem_cons_self a rest)
    have hner : ∀ u, Act.evict u ∉ rest :=
      fun u hm => hne u (List.mem_cons_of_mem a hm)
    show Inv (run cfg ((step cfg s a).getD s) rest)
    apply ih
    · cases hs : step cfg s a with
      | none => exact hinv
      | some s2 => exact inv_step cfg s a s2 hinv hne1 hs
    · exact hner

theorem inv_initSt (cfg : Cfg) (disk : List (String × Dir)) :
    Inv (initSt cfg disk) := by
  refine { pendValid := ?_, own := ?_, navBound := ?_, navReg := ?_, preNav := ?_,
           navFlag := ?_, claimFlag := ?_, noNone := ?_, someStored := ?_, rejLink := ?_,
           claimedInv := ?_, processedInv := ?_, creatorPend := ?_, creatorUnique := ?_,
           attValid := ?_, visitStored := ?_, pendNodup := ?_, resNodup := ?_,
           evClNodup := ?_ }
  · intro u oid hp
    exact Option.noConfusion hp
  · intro i t hgt hl
    exact Option.noConfusion hgt
  · intro u
    exact Nat.zero_le 1
  · intro u h1
    exact absurd h1 (Nat.not_succ_le_zero 0)
  · intro i t hgt
    exact Option.noConfusion hgt
  · intro i t hgt
    exact Option.noConfusion hgt
  · intro i t hgt
    exact Option.noConfusion hgt
  · intro i t hgt
    exact Option.noConfusion hgt
  · intro i t r hgt
    exact Option.noConfusion hgt
  · intro i t m hgt
    exact Option.noConfusion hgt
  · intro u hm
    exact absurd hm (List.not_mem_nil u)
  · intro u hm
    exact absurd hm (List.not_mem_nil u)
  · intro c t oid hgt
    exact Option.noConfusion hgt
  · intro c1 c2 t1 t2 oid1 oid2 hg1 hg2
    exact Option.noConfusion hg1
  · intro a t oid hgt
    exact Option.noConfusion hgt
  · intro i t ret hgt
    exact Option.noConfusion hgt
  · exact List.nodup_nil
  · exact List.nodup_nil
  · exact List.nodup_nil

end ScraperProof

namespace ScraperProof

/-- Converse of `Inv.creatorPend`: every `resultPromises` entry has a
waiting creator task (the `processSinglePage` call that installed the
promise and is awaiting it). -/
def pendCreatorOn (tasks : List Task) (pending : List (String × Nat)) : Prop :=
  ∀ u oid, alookup pending u = some oid →
    ∃ c tc, tasks.get? c = some tc ∧ tc.pc = .awaitOwn oid ∧ tc.url = u

def PendCreator (s : St) : Prop :=
  pendCreatorOn s.tasks s.pending

theorem pendCreatorOn_set (l : List Task) (p : List (String × Nat)) (i : Nat)
    (told tnew : Task) (h : pendCreatorOn l p)
    (hg : l.get? i = some told) (hno : ∀ oid, ¬ told.pc = .awaitOwn oid) :
    pendCreatorOn (l.set i tnew) p := by
  intro u oid hp
  obtain ⟨c, tc, hgc, hpcc, hurl⟩ := h u oid hp
  have hci : c ≠ i := by
    intro hh
    subst hh
    rw [hg] at hgc
    obtain rfl := Option.some.inj hgc
    exact hno oid hpcc
  exact ⟨c, tc, by rw [tget_set_other _ (fun hh => hci hh.symm)]; exact hgc, hpcc, hurl⟩

theorem pendCreatorOn_append (l : List Task) (p : List (String × Nat)) (tn : Task)
    (h : pendCreatorOn l p) : pendCreatorOn (l ++ [tn]) p := by
  intro u oid hp
  obtain ⟨c, tc, hgc, hpcc, hurl⟩ := h u oid hp
  exact ⟨c, tc, tget_append_keep hgc, hpcc, hurl⟩

theorem pendCreatorOn_settle (l : List Task) (p : List (String × Nat)) (i oid : Nat)
    (t tnew : Task) (h : pendCreatorOn l p) (hnd : (akeys p).Nodup)
    (hg : l.get? i = some t) (hpc : t.pc = .awaitOwn oid) :
    pendCreatorOn (l.set i tnew) (aerase p t.url) := by
  intro w o2 hpw
  by_cases hw : w = t.url
  · subst hw
    rw [alookup_aerase_self _ _ hnd] at hpw
    exact Option.noConfusion hpw
  · rw [alookup_aerase_ne _ _ _ hw] at hpw
    obtain ⟨c, tc, hgc, hpcc, hurl⟩ := h w o2 hpw
    have hci : c ≠ i := by
      intro hh
      subst hh
      rw [hg] at hgc
      obtain rfl := Option.some.inj hgc
      exact hw hurl.symm
    exact ⟨c, tc, by rw [tget_set_other _ (fun hh => hci hh.symm)]; exact hgc, hpcc, hurl⟩

theorem pendCreatorOn_create (l : List Task) (p : List (String × Nat)) (i : Nat)
    (t : Task) (opc : PC) (h : pendCreatorOn l p) (hg : l.get? i = some t)
    (hno : ∀ oid, ¬ t.pc = .awaitOwn oid) :
    pendCreatorOn ((l.set i { t with pc := .awaitOwn l.length })
        ++ [{ url := t.url, depth := t.depth, pc := opc }])
      (aset p t.url l.length) := by
  intro w o2 hpw
  by_cases hw : w = t.url
  · subst hw
    rw [alookup_aset_self] at hpw
    obtain rfl := Option.some.inj hpw
    exact ⟨i, _, tget_setappend_self _ _ (tget_lt hg), rfl, rfl⟩
  · rw [alookup_aset_ne _ _ _ _ hw] at hpw
    obtain ⟨c, tc, hgc, hpcc, hurl⟩ := h w o2 hpw
    have hci : c ≠ i := by
      intro hh
      subst hh
      rw [hg] at hgc
      obtain rfl := Option.some.inj hgc
      exact hno o2 hpcc
    exact ⟨c, tc, tget_setappend_keep hci hgc, hpcc, hurl⟩

end ScraperProof

namespace ScraperProof

theorem pendCreator_step (cfg : Cfg) (s : St) (a : Act) (s2 : St) (hinv : Inv s)
    (hp : PendCreator s) (hstep : step cfg s a = some s2) : PendCreator s2 := by
  cases a with
  | spawn u d =>
    simp only [step] at hstep
    obtain rfl := Option.some.inj hstep
    exact pendCreatorOn_append _ _ _ hp
  | entry i =>
    simp only [step] at hstep
    cases hg : s.tasks.get? i with
    | none =>
      rw [hg] at hstep
      exact Option.noConfusion hstep
    | some t =>
      rw [hg] at hstep
      dsimp only at hstep
      by_cases hpc : t.pc = .psStart
      case neg =>
        rw [if_neg hpc] at hstep
        exact Option.noConfusion hstep
      rw [if_pos hpc] at hstep
      have hno : ∀ oid, ¬ t.pc = .awaitOwn oid := by
        intro oid hh
        rw [hpc] at hh
        exact PC.noConfusion hh
      by_cases hsd : s.shuttingDown = true
      · rw [if_pos hsd] at hstep
        obtain rfl := Option.some.inj hstep
        exact pendCreatorOn_set _ _ i t _ hp hg hno
      · rw [if_neg hsd] at hstep
        by_cases hdep : cfg.maxDepth < t.depth
        · rw [if_pos hdep] at hstep
          obtain rfl := Option.some.inj hstep
          exact pendCreatorOn_set _ _ i t _ hp hg hno
        · rw [if_neg hdep] at hstep
          obtain rfl := Option.some.inj hstep
          exact pendCreatorOn_set _ _ i t _ hp hg hno
  | diskStep i =>
    simp only [step] at hstep
    cases hg : s.tasks.get? i with
    | none =>
      rw [hg] at hstep
      exact Option.noConfusion hstep
    | some t =>
      rw [hg] at hstep
      dsimp only at hstep
      by_cases hpc : t.pc = .psDisk
      case neg =>
        rw [if_neg hpc] at hstep
        exact Option.noConfusion hstep
      rw [if_pos hpc] at hstep
      have hno : ∀ oid, ¬ t.pc = .awaitOwn oid := by
        intro oid hh
        rw [hpc] at hh
        exact PC.noConfusion hh
      cases hdisk : (alookup s.disk (routeOf t.url)).bind
          (fun dd => dd.contentF.map (fun c => (dd, c.1))) with
      | some p =>
        obtain ⟨dd, cf⟩ := p
        rw [hdisk] at hstep
        dsimp only at hstep
        obtain rfl := Option.some.inj hstep
        exact pendCreatorOn_set _ _ i t _ hp hg hno
      | none =>
        rw [hdisk] at hstep
        dsimp only at hstep
        cases hres : alookup s.results t.url with
        | some r =>
          rw [hres] at hstep
          dsimp only at hstep
          obtain rfl := Option.some.inj hstep
          exact pendCreatorOn_set _ _ i t _ hp hg hno
        | none =>
          rw [hres] at hstep
          dsimp only at hstep
          cases hpend : alookup s.pending t.url with
          | some oid =>
            rw [hpend] at hstep
            dsimp only at hstep
            obtain rfl := Option.some.inj hstep
            exact pendCreatorOn_set _ _ i t _ hp hg hno
          | none =>
            rw [hpend] at hstep
            dsimp only at hstep
            obtain rfl := Option.some.inj hstep
            exact pendCreatorOn_create _ _ i t _ hp hg hno
  | rate i =>
    simp only [step] at hstep
    cases hg : s.tasks.get? i with
    | none =>
      rw [hg] at hstep
      exact Option.noConfusion hstep
    | some t =>
      rw [hg] at hstep
      dsimp only at hstep
      by_cases hpc : t.pc = .piRate
      case neg =>
        rw [if_neg hpc] at hstep
        exact Option.noConfusion hstep
      rw [if_pos hpc] at hstep
      have hno : ∀ oid, ¬ t.pc = .awaitOwn oid := by
        intro oid hh
        rw [hpc] at hh
        exact PC.noConfusion hh
      by_cases hmem : s.processedUrls.contains t.url = true
      · rw [if_pos hmem] at hstep
        cases hres : alookup s.results t.url with
        | some r =>
          rw [hres] at hstep
          dsimp only at hstep
          obtain rfl := Option.some.inj hstep
          exact pendCreatorOn_set _ _ i t _ hp hg hno
        | none =>
          rw [hres] at hstep
          dsimp only at hstep
          obtain rfl := Option.some.inj hstep
          exact pendCreatorOn_set _ _ i t _ hp hg hno
      · rw [if_neg hmem] at hstep
        obtain rfl := Option.some.inj hstep
        exact pendCreatorOn_set _ _ i t _ hp hg hno
  | acq i =>
    simp only [step] at hstep
    cases hg : s.tasks.get? i with
    | none =>
      rw [hg] at hstep
      exact Option.noConfusion hstep
    | some t =>
      rw [hg] at hstep
      dsimp only at hstep
      by_cases hguard : t.pc = .piSemWait ∧ 0 < s.permits
      case neg =>
        rw [if_neg hguard] at hstep
        exact Option.noConfusion hstep
      rw [if_pos hguard] at hstep
      have hno : ∀ oid, ¬ t.pc = .awaitOwn oid := by
        intro oid hh
        rw [hguard.1] at hh
        exact PC.noConfusion hh
      by_cases hmem : s.processedUrls.contains t.url = true
      · rw [if_pos hmem] at hstep
        cases hres : alookup s.results t.url with
        | some r =>
          rw [hres] at hstep
          dsimp only at hstep
          obtain rfl := Option.some.inj hstep
          exact pendCreatorOn_set _ _ i t _ hp hg hno
        | none =>
          rw [hres] at hstep
          dsimp only at hstep
          obtain rfl := Option.some.inj hstep
          exact pendCreatorOn_set _ _ i t _ hp hg hno
      · rw [if_neg hmem] at hstep
        obtain rfl := Option.some.inj hstep
        exact pendCreatorOn_set _ _ i t _ hp hg hno
  | navigate i =>
    simp only [step] at hstep
    cases hg : s.tasks.get? i with
    | none =>
      rw [hg] at hstep
      exact Option.noConfusion hstep
    | some t =>
      rw [hg] at hstep
      dsimp only at hstep
      by_cases hpc : t.pc = .piGetPage
      case neg =>
        rw [if_neg hpc] at hstep
        exact Option.noConfusion hstep
      rw [if_pos hpc] at hstep
      obtain rfl := Option.some.inj hstep
      exact pendCreatorOn_set _ _ i t _ hp hg
        (fun oid hh => by rw [hpc] at hh; exact PC.noConfusion hh)
  | navFail i msg =>
    simp only [step] at hstep
    cases hg : s.tasks.get? i with
    | none =>
      rw [hg] at hstep
      exact Option.noConfusion hstep
    | some t =>
      rw [hg] at hstep
      dsimp only at hstep
      by_cases hpc : t.pc = .piNavPending
      case neg =>
        rw [if_neg hpc] at hstep
        exact Option.noConfusion hstep
      rw [if_pos hpc] at hstep
      obtain rfl := Option.some.inj hstep
      exact pendCreatorOn_set _ _ i t _ hp hg
        (fun oid hh => by rw [hpc] at hh; exact PC.noConfusion hh)
  | finishOk i =>
    simp only [step] at hstep
    cases hg : s.tasks.get? i with
    | none =>
      rw [hg] at hstep
      exact Option.noConfusion hstep
    | some t =>
      rw [hg] at hstep
      dsimp only at hstep
      by_cases hpc : t.pc = .piNavPending
      case neg =>
        rw [if_neg hpc] at hstep
        exact Option.noConfusion hstep
      rw [if_pos hpc] at hstep
      obtain rfl := Option.some.inj hstep
      exact pendCreatorOn_set _ _ i t _ hp hg
        (fun oid hh => by rw [hpc] at hh; exact PC.noConfusion hh)
  | finishContentErr i msg =>
    simp only [step] at hstep
    cases hg : s.tasks.get? i with
    | none =>
      rw [hg] at hstep
      exact Option.noConfusion hstep
    | some t =>
      rw [hg] at hstep
      dsimp only at hstep
      by_cases hpc : t.pc = .piNavPending
      case neg =>
        rw [if_neg hpc] at hstep
        exact Option.noConfusion hstep
      rw [if_pos hpc] at hstep
      obtain rfl := Option.some.inj hstep
      exact pendCreatorOn_set _ _ i t _ hp hg
        (fun oid hh => by rw [hpc] at hh; exact PC.noConfusion hh)
  | settleC i =>
    simp only [step] at hstep
    cases hg : s.tasks.get? i with
    | none =>
      rw [hg] at hstep
      exact Option.noConfusion hstep
    | some t =>
      rw [hg] at hstep
      dsimp only at hstep
      cases hpc : t.pc with
      | awaitOwn oid =>
        rw [hpc] at hstep
        dsimp only at hstep
        cases hgo : s.tasks.get? oid with
        | none =>
          rw [hgo] at hstep
          exact Option.noConfusion hstep
        | some ot =>
          rw [hgo] at hstep
          dsimp only at hstep
          cases hoc : ot.pc with
          | ownerDone o =>
            rw [hoc] at hstep
            dsimp only at hstep
            cases ho2 : o with
            | resolvedSome r =>
              rw [ho2] at hstep
              dsimp only at hstep
              obtain rfl := Option.some.inj hstep
              exact pendCreatorOn_settle _ _ i oid t _ hp hinv.pendNodup hg hpc
            | resolvedNone =>
              rw [ho2] at hstep
              dsimp only at hstep
              obtain rfl := Option.some.inj hstep
              exact pendCreatorOn_settle _ _ i oid t _ hp hinv.pendNodup hg hpc
            | rejected m =>
              rw [ho2] at hstep
              dsimp only at hstep
              obtain rfl := Option.some.inj hstep
              exact pendCreatorOn_settle _ _ i oid t _ hp hinv.pendNodup hg hpc
          | piRate =>
            rw [hoc] at hstep
            exact Option.noConfusion hstep
          | piSemWait =>
            rw [hoc] at hstep
            exact Option.noConfusion hstep
          | piGetPage =>
            rw [hoc] at hstep
            exact Option.noConfusion hstep
          | piNavPending =>
            rw [hoc] at hstep
            exact Option.noConfusion hstep
          | psStart =>
            rw [hoc] at hstep
            exact Option.noConfusion hstep
          | psDisk =>
            rw [hoc] at hstep
            exact Option.noConfusion hstep
          | awaitOwn o3 =>
            rw [hoc] at hstep
            exact Option.noConfusion hstep
          | awaitAttach o3 =>
            rw [hoc] at hstep
            exact Option.noConfusion hstep
          | visitDone ret =>
            rw [hoc] at hstep
            exact Option.noConfusion hstep
      | psStart =>
        rw [hpc] at hstep
        exact Option.noConfusion hstep
      | psDisk =>
        rw [hpc] at hstep
        exact Option.noConfusion hstep
      | piRate =>
        rw [hpc] at hstep
        exact Option.noConfusion hstep
      | piSemWait =>
        rw [hpc] at hstep
        exact Option.noConfusion hstep
      | piGetPage =>
        rw [hpc] at hstep
        exact Option.noConfusion hstep
      | piNavPending =>
        rw [hpc] at hstep
        exact Option.noConfusion hstep
      | ownerDone o =>
        rw [hpc] at hstep
        exact Option.noConfusion hstep
      | awaitAttach o =>
        rw [hpc] at hstep
        exact Option.noConfusion hstep
      | visitDone ret =>
        rw [hpc] at hstep
        exact Option.noConfusion hstep
  | settleA i =>
    simp only [step] at hstep
    cases hg : s.tasks.get? i with
    | none =>
      rw [hg] at hstep
      exact Option.noConfusion hstep
    | some t =>
      rw [hg] at hstep
      dsimp only at hstep
      cases hpc : t.pc with
      | awaitAttach oid =>
        rw [hpc] at hstep
        dsimp only at hstep
        cases hgo : s.tasks.get? oid with
        | none =>
          rw [hgo] at hstep
          exact Option.noConfusion hstep
        | some ot =>
          rw [hgo] at hstep
          dsimp only at hstep
          cases hoc : ot.pc with
          | ownerDone o =>
            rw [hoc] at hstep
            dsimp only at hstep
            obtain rfl := Option.some.inj hstep
            exact pendCreatorOn_set _ _ i t _ hp hg
              (fun o3 hh => by rw [hpc] at hh; exact PC.noConfusion hh)
          | piRate =>
            rw [hoc] at hstep
            exact Option.noConfusion hstep
          | piSemWait =>
            rw [hoc] at hstep
            exact Option.noConfusion hstep
          | piGetPage =>
            rw [hoc] at hstep
            exact Option.noConfusion hstep
          | piNavPending =>
            rw [hoc] at hstep
            exact Option.noConfusion hstep
          | psStart =>
            rw [hoc] at hstep
            exact Option.noConfusion hstep
          | psDisk =>
            rw [hoc] at hstep
            exact Option.noConfusion hstep
          | awaitOwn o3 =>
            rw [hoc] at hstep
            exact Option.noConfusion hstep
          | awaitAttach o3 =>
            rw [hoc] at hstep
            exact Option.noConfusion hstep
          | visitDone ret =>
            rw [hoc] at hstep
            exact Option.noConfusion hstep
      | psStart =>
        rw [hpc] at hstep
        exact Option.noConfusion hstep
      | psDisk =>
        rw [hpc] at hstep
        exact Option.noConfusion hstep
      | piRate =>
        rw [hpc] at hstep
        exact Option.noConfusion hstep
      | piSemWait =>
        rw [hpc] at hstep
        exact Option.noConfusion hstep
      | piGetPage =>
        rw [hpc] at hstep
        exact Option.noConfusion hstep
      | piNavPending =>
        rw [hpc] at hstep
        exact Option.noConfusion hstep
      | ownerDone o =>
        rw [hpc] at hstep
        exact Option.noConfusion hstep
      | awaitOwn o =>
        rw [hpc] at hstep
        exact Option.noConfusion hstep
      | visitDone ret =>
        rw [hpc] at hstep
        exact Option.noConfusion hstep
  | fireTimeout u =>
    simp only [step] at hstep
    by_cases hc : s.timeouts.contains u = true
    · rw [if_pos hc] at hstep
      obtain rfl := Option.some.inj hstep
      exact hp
    · rw [if_neg hc] at hstep
      exact Option.noConfusion hstep
  | shutdown =>
    simp only [step] at hstep
    obtain rfl := Option.some.inj hstep
    exact hp
  | evict u =>
    simp only [step] at hstep
    obtain rfl := Option.some.inj hstep
    exact hp

end ScraperProof

namespace ScraperProof

theorem pendCreator_initSt (cfg : Cfg) (disk : List (String × Dir)) :
    PendCreator (initSt cfg disk) := by
  intro u oid hp
  exact Option.noConfusion hp

theorem inv_pend_run (cfg : Cfg) (acts : List Act) (s : St) (hinv : Inv s)
    (hp : PendCreator s) (hne : ∀ u, Act.evict u ∉ acts) :
    Inv (run cfg s acts) ∧ PendCreator (run cfg s acts) := by
  induction acts generalizing s with
  | nil => exact ⟨hinv, hp⟩
  | cons a rest ih =>
    have hne1 : ∀ u, ¬ a = Act.evict u :=
      fun u hh => hne u (hh ▸ List.mem_cons_self a rest)
    have hner : ∀ u, Act.evict u ∉ rest :=
      fun u hm => hne u (List.mem_cons_of_mem a hm)
    show Inv (run cfg ((step cfg s a).getD s) rest)
      ∧ PendCreator (run cfg ((step cfg s a).getD s) rest)
    cases hs : step cfg s a with
    | none => exact ih s hinv hp hner
    | some s2 =>
      exact ih s2 (inv_step cfg s a s2 hinv hne1 hs)
        (pendCreator_step cfg s a s2 hinv hp hs) hner

/-- Claim C1 (amended): in any interleaved `scrapeWebsite` run in which no
results-cache entry is evicted, each URL is navigated at most once; the
deduplication chain of `resultPromises`, `processedUrls` and the results
cache guarantees that a second request for a URL attaches to the in-flight
computation or reads the stored result instead of calling `page.goto`
again.  (The unconditional claim is refuted by
`navigate_twice_after_eviction`: after an eviction the error path
re-navigates.) -/
theorem navigate_at_most_once_without_eviction (cfg : Cfg)
    (disk : List (String × Dir)) (acts : List Act)
    (hne : ∀ u, Act.evict u ∉ acts) (u : String) :
    navCount (run cfg (initSt cfg disk) acts) u ≤ 1 :=
  (inv_pend_run cfg acts (initSt cfg disk) (inv_initSt cfg disk)
    (pendCreator_initSt cfg disk) hne).1.navBound u

def traceC1w : List Act :=
  [.spawn uR 0, .entry 0, .diskStep 0, .rate 1, .acq 1, .navigate 1]

theorem navigate_at_most_once_witness :
    (∀ u, Act.evict u ∉ traceC1w)
      ∧ navCount (run cfgA (initSt cfgA []) traceC1w) uR ≤ 1 := by
  have hne : ∀ u, Act.evict u ∉ traceC1w := by
    intro u hm
    simp [traceC1w] at hm
  exact ⟨hne, navigate_at_most_once_without_eviction cfgA [] traceC1w hne uR⟩

/-- Claim C5 (amended): in a run without cache eviction whose tasks have
all settled, every URL ever claimed into `processedUrls` has an entry in
the returned results map, the map has at least as many entries as there
are distinct claimed URLs, and every `processSinglePage` call that
returned without early exit has its URL stored; the map can be strictly
larger than the claimed set because the disk-resume path stores results
for URLs that are never claimed (`result_map_larger_than_claimed_count`). -/
theorem claimed_urls_all_stored (cfg : Cfg) (disk : List (String × Dir))
    (acts : List Act) (hne : ∀ u, Act.evict u ∉ acts)
    (hset : (run cfg (initSt cfg disk) acts).tasks.all taskSettled = true) :
    (∀ u, u ∈ (run cfg (initSt cfg disk) acts).everClaimed →
        (alookup (run cfg (initSt cfg disk) acts).results u).isSome = true)
      ∧ (run cfg (initSt cfg disk) acts).everClaimed.length
          ≤ (run cfg (initSt cfg disk) acts).results.length
      ∧ (∀ i t ret, (run cfg (initSt cfg disk) acts).tasks.get? i = some t →
          t.pc = .visitDone ret → t.earlyExit = false →
          (alookup (run cfg (initSt cfg disk) acts).results t.url).isSome = true) := by
  obtain ⟨hinvF, hpF⟩ := inv_pend_run cfg acts (initSt cfg disk)
    (inv_initSt cfg disk) (pendCreator_initSt cfg disk) hne
  have hpendnone : ∀ u oid,
      alookup (run cfg (initSt cfg disk) acts).pending u = some oid → False := by
    intro u oid hpu
    obtain ⟨c, tc, hgc, hpcc, _⟩ := hpF u oid hpu
    have hmem : tc ∈ (run cfg (initSt cfg disk) acts).tasks := List.get?_mem hgc
    have hts : taskSettled tc = true := List.all_eq_true.mp hset tc hmem
    simp [taskSettled, hpcc] at hts
  have hstored : ∀ u, u ∈ (run cfg (initSt cfg disk) acts).everClaimed →
      (alookup (run cfg (initSt cfg disk) acts).results u).isSome = true := by
    intro u hm
    rcases hinvF.claimedInv u hm with h | ⟨oid, t2, hpu, _, _⟩
    · exact h
    · exact (hpendnone u oid hpu).elim
  refine ⟨hstored, ?_, ?_⟩
  · have hsub : (run cfg (initSt cfg disk) acts).everClaimed
        ⊆ akeys (run cfg (initSt cfg disk) acts).results := by
      intro u hm
      obtain ⟨v, hv⟩ := Option.isSome_iff_exists.mp (hstored u hm)
      exact mem_akeys_of_lookup hv
    calc (run cfg (initSt cfg disk) acts).everClaimed.length
        = (run cfg (initSt cfg disk) acts).everClaimed.toFinset.card :=
          (List.toFinset_card_of_nodup hinvF.evClNodup).symm
      _ ≤ (akeys (run cfg (initSt cfg disk) acts).results).toFinset.card :=
          Finset.card_le_card (fun x hx =>
            List.mem_toFinset.mpr (hsub (List.mem_toFinset.mp hx)))
      _ ≤ (akeys (run cfg (initSt cfg disk) acts).results).length :=
          List.toFinset_card_le _
      _ = (run cfg (initSt cfg disk) acts).results.length := by
          show ((run cfg (initSt cfg disk) acts).results.map Prod.fst).length = _
          rw [List.length_map]
  · intro i t ret hgt hpc hee
    rcases hinvF.visitStored i t ret hgt hpc with h | h | h
    · rw [hee] at h
      exact Bool.noConfusion h
    · exact h
    · obtain ⟨oid, hoid⟩ := Option.isSome_iff_exists.mp h
      exact (hpendnone t.url oid hoid).elim

def traceC5w : List Act :=
  [.spawn uR 0, .entry 0, .diskStep 0, .rate 1, .acq 1, .navigate 1,
   .finishOk 1, .settleC 0]

theorem claimed_urls_all_stored_witness :
    (∀ u, Act.evict u ∉ traceC5w)
      ∧ (run cfgA (initSt cfgA []) traceC5w).tasks.all taskSettled = true
      ∧ (run cfgA (initSt cfgA []) traceC5w).everClaimed.length
          ≤ (run cfgA (initSt cfgA []) traceC5w).results.length := by
  have hne : ∀ u, Act.evict u ∉ traceC5w := by
    intro u hm
    simp [traceC5w] at hm
  have hset : (run cfgA (initSt cfgA []) traceC5w).tasks.all taskSettled = true := by
    rfl
  exact ⟨hne, hset, (claimed_urls_all_stored cfgA [] traceC5w hne hset).2.1⟩

end ScraperProof
